import Mathlib

/-!
Verification of the `ComponentLoader` injection engine (ewaste-website).

The repository has two source files: the full-featured engine (the unnamed
file defining `ComponentLoader` with locking, script execution, batch
loading) and `src/js/components/utils.js`, an earlier reduced-feature
duplicate.  Each section below shallowly embeds one slice of the engine,
with comments pointing at the JS source lines it is translated from.
-/

namespace Tmpl

/-- A JavaScript value reachable from the `data` option of an injection:
either a primitive rendered by `String(value)` as itself (modelled by its
string form) or a nested plain object.  `undefined` is modelled by
`Option.none` at lookup sites. -/
inductive JVal where
  | str (s : String)
  | obj (fields : List (String × JVal))
deriving Repr

/-- JS `String(value)`: a primitive prints as itself, a plain object prints
as `[object Object]`. -/
def jsString : JVal → String
  | .str s => s
  | .obj _ => "[object Object]"

/-- JS `path.split('.')` on the character list: splits on every dot and
keeps empty segments (`"a..b"` gives `["a","","b"]`, `""` gives `[""]`). -/
def splitDots : List Char → List (List Char)
  | [] => [[]]
  | c :: cs =>
    if c = '.' then [] :: splitDots cs
    else
      match splitDots cs with
      | [] => [[c]]
      | seg :: rest => (c :: seg) :: rest

/-- First-match association lookup, the shallow embedding of reading an own
property of a JS plain object (keys of an object literal are unique). -/
def lookupField (fields : List (String × JVal)) (k : String) : Option JVal :=
  match fields with
  | [] => none
  | (k2, v) :: rest => if k2 = k then some v else lookupField rest k

/-- One step of `current?.[prop]` (optional chaining): `undefined` stays
`undefined`, property access on a primitive leaf of the data mapping yields
`undefined`, object access is field lookup. -/
def propAccess (cur : Option JVal) (k : String) : Option JVal :=
  match cur with
  | none => none
  | some (.str _) => none
  | some (.obj fields) => lookupField fields k

/-- `_getNestedValue(obj, path)` (loader lines 77-79):
`path.split('.').reduce((current, prop) => current?.[prop], obj)`. -/
def getNestedValue (data : List (String × JVal)) (path : String) : Option JVal :=
  (splitDots path.data).foldl (fun cur prop => propAccess cur (String.mk prop))
    (some (JVal.obj data))

/-- JS whitespace for `String.prototype.trim` (the characters that occur in
this development). -/
def isJsSpace (c : Char) : Bool :=
  c = ' ' || c = '\t' || c = '\n' || c = '\r'

/-- JS `key.trim()` on the captured characters. -/
def trimChars (cs : List Char) : List Char :=
  ((cs.dropWhile isJsSpace).reverse.dropWhile isJsSpace).reverse

/-- Serialization of one text character by `div.textContent = text;
div.innerHTML` (loader `_escapeHtml`, lines 81-85): the HTML fragment
serializer escapes `&`, `<` and `>` in text nodes and leaves every other
character — in particular both quote characters — unchanged. -/
def escapeChar (c : Char) : List Char :=
  if c = '&' then "&amp;".data
  else if c = '<' then "&lt;".data
  else if c = '>' then "&gt;".data
  else [c]

/-- `_escapeHtml(text)` (loader lines 81-85). -/
def escapeHtml (s : String) : String :=
  String.mk (List.flatten (s.data.map escapeChar))

/-- The replacement the callback of
`html.replace(/\x7b\x7b([^}]+)\x7d\x7d/g, (match, key) => ...)` produces for
one match with captured key characters `run` (loader lines 66-74): the
escaped string form of the resolved value, or the whole match verbatim when
the path resolves to `undefined`. -/
def substOne (data : List (String × JVal)) (run : List Char) : List Char :=
  match getNestedValue data (String.mk (trimChars run)) with
  | some v => (escapeHtml (jsString v)).data
  | none => '{' :: '{' :: (run ++ '}' :: '}' :: [])

/-- The global-regex scan of `html.replace(/\x7b\x7b([^}]+)\x7d\x7d/g, ...)`:
at each position, a match needs two opening braces, then a nonempty run of
non-`\x7d` characters, then two closing braces; on a match the replacement is
emitted and scanning resumes after the match, otherwise one character is
emitted and scanning advances by one. -/
def scanTemplate (data : List (String × JVal)) : List Char → List Char
  | [] => []
  | '{' :: '{' :: cs =>
    let run := cs.takeWhile (fun c => c ≠ '}')
    let rest := cs.drop run.length
    if run ≠ [] ∧ rest.take 2 = ['}', '}'] then
      substOne data run ++ scanTemplate data (rest.drop 2)
    else
      '{' :: scanTemplate data ('{' :: cs)
  | c :: cs => c :: scanTemplate data cs
termination_by cs => cs.length
decreasing_by
  · simp only [List.length_drop, List.length_cons]
    omega
  · simp only [List.length_cons]
    omega
  · simp only [List.length_cons]
    omega

/-- `_processTemplate(html, data)` (loader lines 63-75): the empty-data fast
path returns the input unchanged, otherwise the regex replacement scan
runs. -/
def processTemplate (html : String) (data : List (String × JVal)) : String :=
  if data.isEmpty then html else String.mk (scanTemplate data html.data)

end Tmpl

/-!
The reduced-feature duplicate `src/js/components/utils.js` defines its own
`_processTemplate` / `_getNestedValue` / `_escapeHtml` (lines 59-81).  They
are embedded here separately, reusing only the ambient JS/DOM primitives
(`split`, `trim`, optional chaining, the text-node serializer) that both
files invoke.
-/

namespace Utils

/-- `_getNestedValue` of utils.js (lines 73-75). -/
def getNestedValue (data : List (String × Tmpl.JVal)) (path : String) :
    Option Tmpl.JVal :=
  (Tmpl.splitDots path.data).foldl
    (fun cur prop => Tmpl.propAccess cur (String.mk prop))
    (some (Tmpl.JVal.obj data))

/-- `_escapeHtml` of utils.js (lines 77-81). -/
def escapeHtml (s : String) : String :=
  String.mk (List.flatten (s.data.map Tmpl.escapeChar))

/-- The replacement the utils.js template callback produces for one match
(utils.js lines 63-70). -/
def substOne (data : List (String × Tmpl.JVal)) (run : List Char) : List Char :=
  match getNestedValue data (String.mk (Tmpl.trimChars run)) with
  | some v => (escapeHtml (Tmpl.jsString v)).data
  | none => '{' :: '{' :: (run ++ '}' :: '}' :: [])

/-- The global-regex scan of utils.js `_processTemplate` (lines 63-70); the
regex literal is character-identical to the loader's. -/
def scanTemplate (data : List (String × Tmpl.JVal)) : List Char → List Char
  | [] => []
  | '{' :: '{' :: cs =>
    let run := cs.takeWhile (fun c => c ≠ '}')
    let rest := cs.drop run.length
    if run ≠ [] ∧ rest.take 2 = ['}', '}'] then
      substOne data run ++ scanTemplate data (rest.drop 2)
    else
      '{' :: scanTemplate data ('{' :: cs)
  | c :: cs => c :: scanTemplate data cs
termination_by cs => cs.length
decreasing_by
  · simp only [List.length_drop, List.length_cons]
    omega
  · simp only [List.length_cons]
    omega
  · simp only [List.length_cons]
    omega

/-- `_processTemplate(html, data)` of utils.js (lines 60-71). -/
def processTemplate (html : String) (data : List (String × Tmpl.JVal)) : String :=
  if data.isEmpty then html else String.mk (scanTemplate data html.data)

end Utils

namespace Resolve

/-- The argument shapes `_resolveTarget` distinguishes: a DOM element
reference (an abstract handle), a string, or anything else. -/
inductive Target where
  | element (e : Nat)
  | str (s : String)
  | other
deriving DecidableEq, Repr

/-- JS `String.prototype.includes` with a single-character needle, on the
character list. -/
def strIncludes (s : String) (c : Char) : Bool := s.data.contains c

/-- JS `String.prototype.startsWith` with a single-character prefix, on the
character list. -/
def strStartsWith (s : String) (p : Char) : Bool :=
  match s.data with
  | [] => false
  | c :: _ => c = p

/-- `_resolveTarget(target)` (loader lines 88-109).  `qs` and `gid` are the
host document's `querySelector` and `getElementById` capabilities.  A string
is tried as a selector first; if that yields nothing and the string has no
space anywhere and starts with neither `.` nor `[`, it is retried as a plain
id lookup. -/
def resolveTarget (qs gid : String → Option Nat) : Target → Option Nat
  | .element e => some e
  | .str s =>
    match qs s with
    | some el => some el
    | none =>
      if ¬strIncludes s ' ' ∧ ¬strStartsWith s '.' ∧ ¬strStartsWith s '[' then
        gid s
      else none
  | .other => none

/-- Characters of structural-selector syntax (combinators, class/id/attr
prefixes, pseudo-class and grouping punctuation). -/
def structuralPunct : List Char :=
  [' ', '.', '#', '[', ']', '>', '+', '~', ':', '*', ',']

/-- Modelled from the spec's words (claim C8): the identifier fallback is
tried only when the string contains no structural-selector punctuation at
all.  This is the claim's version of the fallback guard, kept for comparison
with `resolveTarget`, whose guard checks only spaces and a leading `.` or
`[`. -/
def specResolveTarget (qs gid : String → Option Nat) : Target → Option Nat
  | .element e => some e
  | .str s =>
    match qs s with
    | some el => some el
    | none =>
      if s.data.all (fun c => c ∉ structuralPunct) then gid s
      else none
  | .other => none

/-- A concrete document for the C8 comparison: the selector query matches
nothing. -/
def qs0 : String → Option Nat := fun _ => none

/-- A concrete document for the C8 comparison: one element whose literal id
is the string `#z` (ids may contain selector punctuation). -/
def gid0 : String → Option Nat := fun s => if s = "#z" then some 7 else none

end Resolve

namespace IKey

/-- Decimal digit character, as produced by JS number-to-string
conversion. -/
def digitChar (d : Nat) : Char := Char.ofNat (48 + d)

/-- Decimal digits of a natural number, most significant first (fuel-indexed
so that the definition is structurally recursive and kernel-reducible). -/
def natCharsAux : Nat → Nat → List Char
  | 0, _ => []
  | fuel + 1, n =>
    if n < 10 then [digitChar n]
    else natCharsAux fuel (n / 10) ++ [digitChar (n % 10)]

def natChars (n : Nat) : List Char := natCharsAux (n + 1) n

/-- JS `String(n)` for a non-negative number. -/
def natStr (n : Nat) : String := String.mk (natChars n)

/-- JS `String(i)` for a possibly negative integer (the `indexOf` result
`-1` occurs for a parentless element). -/
def intStr (i : Int) : String :=
  if i < 0 then "-" ++ natStr i.natAbs else natStr i.toNat

/-- JS `Array.prototype.join('-')`. -/
def joinDash : List String → String
  | [] => ""
  | [s] => s
  | s :: t :: r => s ++ "-" ++ joinDash (t :: r)

/-- A target element for instance-key derivation: an object identity `ref`,
its `id` attribute (`""` when absent, which is falsy in JS), and its
structural position — `some p` when the element is a descendant of
`document.body` reached by the child-index path `p` from the body, `none`
for a parentless detached element. -/
structure Elem where
  ref : Nat
  id : String
  pos : Option (List Nat)
deriving DecidableEq, Repr

/-- The child indexes `_getElementPath`'s loop collects walking up the
`parentNode` chain (loader lines 120-131): for a body descendant they are
exactly the path components, top-most first (each `Array.indexOf` call
returns the element's index among its parent's children); for a parentless
detached element the single iteration computes
`Array.from(undefined || []).indexOf(el) = -1` and then stops at the null
parent. -/
def pathIndices (e : Elem) : List Int :=
  match e.pos with
  | some p => p.map Int.ofNat
  | none => [-1]

/-- `_getElementPath(element)` (loader lines 120-131): the collected indexes
joined with `-`. -/
def getElementPath (e : Elem) : String :=
  joinDash ((pathIndices e).map intStr)

/-- `_getInstanceKey(componentName, targetElement)` (loader lines 112-118):
the element's id when truthy, else an `_anonymous_` structural path. -/
def getInstanceKey (componentName : String) (e : Elem) : String :=
  let targetId := if e.id ≠ "" then e.id else "_anonymous_" ++ getElementPath e
  componentName ++ ":" ++ targetId

/-- Decimal value of a digit string, for the round-trip argument. -/
def decodeDigits (cs : List Char) : Nat :=
  cs.foldl (fun a c => 10 * a + (c.toNat - 48)) 0

end IKey

namespace Handlers

/-- The `eventHandlers` Map, modelled as a function from instance key to the
list of tracked handler descriptors (handlers are abstract ids).  A missing
key and an empty list read the same way, which is all the registry's
operations distinguish. -/
def Registry : Type := String → List Nat

/-- Observable handler-lifecycle events of one injection. -/
inductive HEv where
  | detached (h : Nat)
  | inserted
  | attached (h : Nat)
deriving DecidableEq, Repr

/-- `_trackEventListener(instanceKey, ...)` (loader lines 661-666): append
one descriptor to the key's list (creating it on first use). -/
def track (reg : Registry) (key : String) (h : Nat) : Registry :=
  fun k => if k = key then reg k ++ [h] else reg k

/-- `_cleanupEventListeners(instanceKey)` (loader lines 668-676): detach
every recorded handler for the key (one `removeEventListener` per record, in
order) and delete the entry. -/
def cleanup (reg : Registry) (key : String) : Registry × List HEv :=
  (fun k => if k = key then [] else reg k, (reg key).map HEv.detached)

/-- One replacing (non-append) injection for an instance key, projected to
its handler-registry effects, in the order `injectComponent` performs them
(loader lines 164-201): cleanup of the key's recorded handlers (line 166),
then content insertion, then the initializer attaches and tracks the new
handlers `hs`. -/
def replaceInject (reg : Registry) (key : String) (hs : List Nat) :
    Registry × List HEv :=
  let c := cleanup reg key
  (hs.foldl (fun r h => track r key h) c.1,
    c.2 ++ HEv.inserted :: hs.map HEv.attached)

/-- `n` successive replace-injections of the same (component, target) pair,
each attaching the same handler set. -/
def iterInject (reg : Registry) (key : String) (hs : List Nat) : Nat → Registry
  | 0 => reg
  | n + 1 => (replaceInject (iterInject reg key hs n) key hs).1

end Handlers

namespace Batch

/-- Observable events of one `loadPageComponents` run: an `onProgress`
invocation with its arguments, a logged per-entry failure, and the final
document-wide `components:ready` notification. -/
inductive BEv where
  | progress (done total : Nat) (name : String)
  | failLog (name : String)
  | ready
deriving DecidableEq, Repr

def isProgress : BEv → Bool
  | .progress _ _ _ => true
  | _ => false

/-- State of a batch run: the `loaded` counter, which entries have settled,
and the event trace. -/
structure St where
  loaded : Nat
  settledSet : List Nat
  trace : List BEv
deriving DecidableEq, Repr

/-- Whether entry `t` of the batch succeeds. -/
def isSuccess (entries : List (String × Bool)) (t : Nat) : Bool :=
  match entries.get? t with
  | some (_, ok) => ok
  | none => false

/-- One entry's injection settling (loader lines 684-696).  The `try` branch
increments `loaded` and calls `onProgress(loaded, total, name)`; the `catch`
branch only logs the error — it does not touch the counter and does not call
`onProgress`. -/
def settleStep (entries : List (String × Bool)) (s : St) (t : Nat) : St :=
  match entries.get? t with
  | none => s
  | some (name, ok) =>
    if t ∈ s.settledSet then s
    else if ok then
      { loaded := s.loaded + 1
        settledSet := t :: s.settledSet
        trace := s.trace ++ [BEv.progress (s.loaded + 1) entries.length name] }
    else
      { s with
        settledSet := t :: s.settledSet
        trace := s.trace ++ [BEv.failLog name] }

/-- `loadPageComponents(componentsMap, onProgress)` (loader lines 679-702):
all entries run concurrently — the schedule fixes the settlement order —
`Promise.all` waits for every wrapped promise (none of which can reject),
and only when every entry has settled is `initialized` set and
`components:ready` dispatched.  The returned flag is `this.initialized`. -/
def runBatch (entries : List (String × Bool)) (sched : List Nat) : St × Bool :=
  let s := sched.foldl (settleStep entries) ⟨0, [], []⟩
  if (List.range entries.length).all (fun t => t ∈ s.settledSet) then
    ({ s with trace := s.trace ++ [BEv.ready] }, true)
  else
    (s, false)

end Batch

namespace Scripts

/-- An executable sub-fragment: inline code or an external source
reference. -/
inductive Frag where
  | inline (code : String)
  | external (src : String)
deriving DecidableEq, Repr

/-- A node of the parsed fragment content: static markup or a script
element. -/
inductive SNode where
  | stat (s : String)
  | script (f : Frag)
deriving DecidableEq, Repr

/-- Observable events of `_injectWithDOM`: clearing the target (replace
mode), inserting the static tree, re-attaching the `i`-th extracted script
(inline), beginning and settling the `i`-th script's external load. -/
inductive SEv where
  | cleared
  | insertedStatic (nodes : List SNode)
  | attachInline (i : Nat)
  | beginLoad (i : Nat)
  | settled (i : Nat) (ok : Bool)
deriving DecidableEq, Repr

/-- `fragment.querySelectorAll('script')` — the embedded executable
sub-fragments in document order (loader lines 250-252). -/
def extractScripts (nodes : List SNode) : List Frag :=
  nodes.filterMap fun n =>
    match n with
    | .script f => some f
    | .stat _ => none

/-- `scripts.forEach(script => script.remove())` (loader line 255): the
static tree with every script element removed, order preserved. -/
def removeScripts (nodes : List SNode) : List SNode :=
  nodes.filter fun n =>
    match n with
    | .script _ => false
    | .stat _ => true

/-- Activation of script `j`: its re-attachment (inline) or the start of its
external load. -/
def isAct (e : SEv) (j : Nat) : Prop :=
  e = SEv.attachInline j ∨ e = SEv.beginLoad j

/-- The `for (const oldScript of scripts) await _executeScript(...)` loop
(loader lines 265-269 and 272-293), re-attaching script `i`, `i+1`, ... one
at a time: an inline script is attached and the loop proceeds immediately;
an external script's load is begun and awaited — on load success the loop
proceeds, on load error the promise rejects and the loop aborts (the flag
records whether the loop ran to completion). -/
def runScripts (loadOk : Nat → Bool) : Nat → List Frag → List SEv × Bool
  | _, [] => ([], true)
  | i, .inline _ :: rest =>
    let r := runScripts loadOk (i + 1) rest
    (SEv.attachInline i :: r.1, r.2)
  | i, .external _ :: rest =>
    if loadOk i then
      let r := runScripts loadOk (i + 1) rest
      (SEv.beginLoad i :: SEv.settled i true :: r.1, r.2)
    else
      ([SEv.beginLoad i, SEv.settled i false], false)

/-- `_injectWithDOM(targetElement, html, append, executeScripts)` (loader
lines 244-270): parse the content, extract the scripts when execution is
enabled (none otherwise) and remove them from the static tree, clear the
target unless appending, insert the static tree, then execute the extracted
scripts in order. -/
def injectWithDOM (nodes : List SNode) (append executeScripts : Bool)
    (loadOk : Nat → Bool) : List SEv × Bool :=
  let content := if executeScripts then removeScripts nodes else nodes
  let ins := (if append then [] else [SEv.cleared]) ++ [SEv.insertedStatic content]
  if executeScripts then
    let r := runScripts loadOk 0 (extractScripts nodes)
    (ins ++ r.1, r.2)
  else
    (ins, true)

end Scripts

namespace Inject

/-!
Interleaving model of `injectComponent` (loader lines 134-218) with the lock
mechanism `_acquireLock` / `_releaseLock` (lines 221-241).  Execution is
single-threaded and cooperative: each call is a thread of atomic segments
separated by its `await` suspension points, and a schedule picks which
thread runs its next enabled segment.  The shared `_currentReleaseLock`
field — a single slot holding the most recent acquisition's resolver, which
cross-key interleavings overwrite — is modelled faithfully.
-/

/-- Configuration of one `injectComponent` call: the instance key its target
resolves to, whether target resolution succeeds at all (`false` models a
call that throws `TargetNotFoundError` at line 147, before any lock is
touched), and the body step at which the call throws (load, template,
insert, transition or initializer failure), if any. -/
structure CallCfg where
  key : String
  resolvable : Bool
  failAt : Option Nat
deriving DecidableEq, Repr

/-- Observable events of the calls: the pre-lock target failure, lock
acquisition, the four effects of one injection in source order — handler
cleanup (line 166), content insertion (line 183), script execution (line
265), initializer dispatch (line 197) — and the `finally` release (line
216). -/
inductive IEv where
  | targetError (tid : Nat)
  | acquired (tid : Nat) (key : String)
  | cleanup (tid : Nat) (key : String)
  | inserted (tid : Nat) (key : String)
  | scripts (tid : Nat) (key : String)
  | initDispatch (tid : Nat) (key : String)
  | released (tid : Nat) (key : String)
deriving DecidableEq, Repr

/-- Program counter of one call: `start` is the `while` head of
`_acquireLock`; `waiting p` is suspended awaiting lock promise `p`;
`body i p` holds the lock (own promise `p`) with effect `i` next;
`closing p` is about to run `_releaseLock` in the `finally`; `done` has
returned or rethrown after the release; `errored` threw
`TargetNotFoundError` before locking. -/
inductive TPc where
  | start
  | waiting (p : Nat)
  | body (i : Nat) (p : Nat)
  | closing (p : Nat)
  | done
  | errored
deriving DecidableEq, Repr

/-- Engine state: `locks` is the `injectionLocks` Map (key → pending lock
promise id), `cur` the shared `_currentReleaseLock` slot (identified by the
promise its resolver would resolve; `none` = null), `resolved` the resolved
promises, `fresh` the next promise id, `pcs` one program counter per call,
`trace` the event log. -/
structure St where
  locks : List (String × Nat)
  cur : Option Nat
  resolved : List Nat
  fresh : Nat
  pcs : List TPc
  trace : List IEv
deriving DecidableEq, Repr

/-- `Map.prototype.get` on the association list (keys are unique). -/
def lookup : List (String × Nat) → String → Option Nat
  | [], _ => none
  | (k2, p) :: r, k => if k2 = k then some p else lookup r k

/-- `Map.prototype.delete`: remove the (single) binding of the key. -/
def erase : List (String × Nat) → String → List (String × Nat)
  | [], _ => []
  | (k2, p) :: r, k => if k2 = k then r else (k2, p) :: erase r k

/-- The `i`-th effect of an injection body, in source order. -/
def effectEv (t : Nat) (k : String) : Nat → IEv
  | 0 => IEv.cleanup t k
  | 1 => IEv.inserted t k
  | 2 => IEv.scripts t k
  | _ => IEv.initDispatch t k

/-- One atomic segment of call `t`.  `start`: resolution failure throws
before locking; otherwise one `while` iteration of `_acquireLock` — the
check, and on success the synchronous promise creation, map set and
`_currentReleaseLock` assignment, are one segment (no `await` between
them).  `waiting p`: enabled only once `p` is resolved, then re-checks.
`body i p`: either throws (skipping to the `finally`) or performs effect
`i`; each effect is separated from the next by an `await`.  `closing p`:
`_releaseLock` — synchronously invoke the resolver currently stored in
`_currentReleaseLock` if any, null the slot, delete the key's binding. -/
def step (cfg : List CallCfg) (s : St) (t : Nat) : St :=
  match cfg.get? t, s.pcs.get? t with
  | some c, some pc =>
    match pc with
    | .start =>
      if c.resolvable = false then
        { s with pcs := s.pcs.set t .errored, trace := s.trace ++ [IEv.targetError t] }
      else
        match lookup s.locks c.key with
        | none =>
          { s with
            locks := (c.key, s.fresh) :: s.locks
            cur := some s.fresh
            fresh := s.fresh + 1
            pcs := s.pcs.set t (.body 0 s.fresh)
            trace := s.trace ++ [IEv.acquired t c.key] }
        | some p => { s with pcs := s.pcs.set t (.waiting p) }
    | .waiting p =>
      if p ∈ s.resolved then { s with pcs := s.pcs.set t .start } else s
    | .body i p =>
      if c.failAt = some i then
        { s with pcs := s.pcs.set t (.closing p) }
      else
        { s with
          pcs := s.pcs.set t (if i + 1 < 4 then .body (i + 1) p else .closing p)
          trace := s.trace ++ [effectEv t c.key i] }
    | .closing p =>
      { s with
        locks := erase s.locks c.key
        cur := none
        resolved := match s.cur with
          | some q => q :: s.resolved
          | none => s.resolved
        pcs := s.pcs.set t .done
        trace := s.trace ++ [IEv.released t c.key] }
    | .done => s
    | .errored => s
  | _, _ => s

/-- Initial state: no locks, null resolver slot, all calls at the loop
head. -/
def init (cfg : List CallCfg) : St :=
  ⟨[], none, [], 0, cfg.map (fun _ => TPc.start), []⟩

/-- Run a schedule: at each tick the named call runs its next enabled
segment (a disabled or finished call leaves the state unchanged). -/
def run (cfg : List CallCfg) (sched : List Nat) : St :=
  sched.foldl (step cfg) (init cfg)

/-- The call an event belongs to, for the in-lock events (the pre-lock
target error is excluded: it is not an injection effect). -/
def evTid : IEv → Option Nat
  | .targetError _ => none
  | .acquired t _ => some t
  | .cleanup t _ => some t
  | .inserted t _ => some t
  | .scripts t _ => some t
  | .initDispatch t _ => some t
  | .released t _ => some t

/-- The in-lock events of call `t` in the trace. -/
def evts (t : Nat) (tr : List IEv) : List IEv :=
  tr.filter (fun e => evTid e == some t)

/-- The merged in-lock events of calls `t` and `u`, in trace order. -/
def evtsPair (t u : Nat) (tr : List IEv) : List IEv :=
  tr.filter (fun e => evTid e == some t || evTid e == some u)

/-- All of `t`'s in-lock events precede all of `u`'s. -/
def Sep (t u : Nat) (tr : List IEv) : Prop :=
  evtsPair t u tr = evts t tr ++ evts u tr

def isAcqOf (t : Nat) : IEv → Bool
  | .acquired t' _ => t' == t
  | _ => false

def isRelOf (t : Nat) : IEv → Bool
  | .released t' _ => t' == t
  | _ => false

/-- Inside the critical section: between the successful lock acquisition
and the completion of `_releaseLock`. -/
def inCS : TPc → Bool
  | .body _ _ => true
  | .closing _ => true
  | _ => false

/-- The lock promise a call holds while in its critical section. -/
def promOf : TPc → Option Nat
  | .body _ p => some p
  | .closing p => some p
  | _ => none

end Inject

namespace Load

/-- Outcome of one retrieval: the fetched text, or a thrown error
(identified abstractly). -/
inductive Res where
  | ok (s : String)
  | err (e : Nat)
deriving DecidableEq, Repr

/-- Program counter of one `loadComponent` call: `start` is the synchronous
prefix (cache check, in-flight check, and on miss the fetch creation and
`loadingStates.set` — no `await` separates them, lines 19-28); `wait p ldr`
is suspended on `await loadPromise` (or on the returned in-flight promise),
`ldr` marking the creator, who alone runs the `try`/`finally`; `done r ldr`
has returned or rethrown with outcome `r`. -/
inductive LPc where
  | start
  | wait (p : Nat) (ldr : Bool)
  | done (r : Res) (ldr : Bool)
deriving DecidableEq, Repr

/-- Observable events: a retrieval issued for a name (`_fetchComponent`,
line 27), and a `loadingStates.delete` for a name (line 37). -/
inductive LEv where
  | fetch (t : Nat) (name : String)
  | deleted (t : Nat) (name : String)
deriving DecidableEq, Repr

/-- Schedule labels: run call `t`'s next segment, or let the network settle
pending promise `p` with outcome `r`. -/
inductive Lab where
  | thr (t : Nat)
  | net (p : Nat) (r : Res)
deriving DecidableEq, Repr

/-- Engine state for `loadComponent`: `cache` is the `components` Map,
`loading` the `loadingStates` Map (name → in-flight promise id), `settled`
the settled promises with their outcomes, `fresh` the next promise id,
`pcs` one program counter per call, `trace` the event log. -/
structure St where
  cache : List (String × String)
  loading : List (String × Nat)
  settled : List (Nat × Res)
  fresh : Nat
  pcs : List LPc
  trace : List LEv
deriving DecidableEq, Repr

/-- `Map.prototype.get` on the cache. -/
def lookupS : List (String × String) → String → Option String
  | [], _ => none
  | (k2, v) :: r, k => if k2 = k then some v else lookupS r k

/-- Outcome of a settled promise, if settled. -/
def lookupRes : List (Nat × Res) → Nat → Option Res
  | [], _ => none
  | (q, v) :: r, p => if q = p then some v else lookupRes r p

/-- One atomic segment.  `net p r`: a pending retrieval settles.  `thr t`
at `start`: lines 19-28 — cache hit returns at once; an in-flight entry is
returned and awaited as a follower; otherwise the fetch is issued and
registered and the creator awaits it as leader.  At `wait p ldr`: enabled
once `p` settles; the leader then runs the `try` body and `finally` (cache
write on success when caching is on, `loadingStates.delete`) in one
segment, a follower just takes the promise's outcome.  `ce` is
`config.cacheEnabled`. -/
def step (ce : Bool) (cfg : List String) (s : St) : Lab → St
  | .net p r =>
    if p < s.fresh ∧ lookupRes s.settled p = none then
      { s with settled := (p, r) :: s.settled }
    else s
  | .thr t =>
    match cfg.get? t, s.pcs.get? t with
    | some name, some .start =>
      match (if ce then lookupS s.cache name else none) with
      | some h => { s with pcs := s.pcs.set t (.done (.ok h) false) }
      | none =>
        match Inject.lookup s.loading name with
        | some p => { s with pcs := s.pcs.set t (.wait p false) }
        | none =>
          { s with
            loading := (name, s.fresh) :: s.loading
            fresh := s.fresh + 1
            pcs := s.pcs.set t (.wait s.fresh true)
            trace := s.trace ++ [LEv.fetch t name] }
    | some name, some (.wait p ldr) =>
      match lookupRes s.settled p with
      | none => s
      | some r =>
        if ldr then
          { s with
            cache := match r with
              | .ok h => if ce then (name, h) :: s.cache else s.cache
              | .err _ => s.cache
            loading := Inject.erase s.loading name
            pcs := s.pcs.set t (.done r true)
            trace := s.trace ++ [LEv.deleted t name] }
        else { s with pcs := s.pcs.set t (.done r false) }
    | _, _ => s

/-- Initial state: empty cache (the claim's names start uncached), nothing
in flight, all calls at their synchronous prefix. -/
def init (cfg : List String) : St :=
  ⟨[], [], [], 0, cfg.map (fun _ => LPc.start), []⟩

/-- Run a schedule of call and network segments. -/
def run (ce : Bool) (cfg : List String) (sched : List Lab) : St :=
  sched.foldl (step ce cfg) (init cfg)

/-- Retrieval events for a given name. -/
def isFetchOf (name : String) : LEv → Bool
  | .fetch _ n => n == name
  | _ => false

/-- `loadingStates.delete` events for a given name. -/
def isDelOf (name : String) : LEv → Bool
  | .deleted _ n => n == name
  | _ => false

end Load

namespace Tmpl

theorem scanTemplate_nil (data : List (String × JVal)) : scanTemplate data [] = [] := by
  rw [scanTemplate.eq_def]

theorem scanTemplate_brace2 (data : List (String × JVal)) (cs : List Char) :
    scanTemplate data ('{' :: '{' :: cs) =
      (let run := cs.takeWhile (fun c => decide (c ≠ '}'))
       let rest := cs.drop run.length
       if run ≠ [] ∧ rest.take 2 = ['}', '}'] then
         substOne data run ++ scanTemplate data (rest.drop 2)
       else
         '{' :: scanTemplate data ('{' :: cs)) := by
  rw [scanTemplate.eq_def]
  rfl

theorem scanTemplate_cons_no (data : List (String × JVal)) (c : Char) (cs : List Char)
    (h : ∀ cs1, c = '{' → cs = '{' :: cs1 → False) :
    scanTemplate data (c :: cs) = c :: scanTemplate data cs := by
  rw [scanTemplate.eq_def]
  split
  · rename_i heq
    simp at heq
  · rename_i cs1 heq
    obtain ⟨h1, h2⟩ := List.cons_eq_cons.mp heq
    exact (h cs1 h1 h2).elim
  · rename_i c2 cs2 hne heq
    obtain ⟨rfl, rfl⟩ := List.cons_eq_cons.mp heq
    rfl

theorem scanTemplate_cons (data : List (String × JVal)) (c : Char) (cs : List Char)
    (h : c ≠ '{') :
    scanTemplate data (c :: cs) = c :: scanTemplate data cs :=
  scanTemplate_cons_no data c cs (fun _ h1 _ => h h1)

/-- Scanning commutes with an opening-brace-free prefix: the regex finds no
match start inside it. -/
theorem scanTemplate_prefix (data : List (String × JVal)) (a cs : List Char)
    (ha : '{' ∉ a) :
    scanTemplate data (a ++ cs) = a ++ scanTemplate data cs := by
  induction a with
  | nil => rfl
  | cons x xs ih =>
    simp only [List.mem_cons, not_or] at ha
    rw [List.cons_append, scanTemplate_cons data x (xs ++ cs) (fun h1 => ha.1 h1.symm),
      ih ha.2]
    rfl

theorem takeWhile_braces (k rest : List Char) (hk : '}' ∉ k) :
    (k ++ '}' :: rest).takeWhile (fun c => decide (c ≠ '}')) = k := by
  induction k with
  | nil => simp
  | cons x xs ih =>
    simp only [List.mem_cons, not_or] at hk
    simp only [List.cons_append, List.takeWhile_cons]
    have hx : (decide (x ≠ '}')) = true := by
      simp
      exact fun h => hk.1 h.symm
    rw [hx]
    simp only [if_true]
    rw [ih hk.2]

/-- One full regex match: two opening braces, a nonempty run of
non-closing-brace characters, two closing braces.  The replacement is
emitted and scanning resumes after the match. -/
theorem scanTemplate_match (data : List (String × JVal)) (k b : List Char)
    (hk : k ≠ []) (hkc : '}' ∉ k) :
    scanTemplate data ('{' :: '{' :: (k ++ '}' :: '}' :: b)) =
      substOne data k ++ scanTemplate data b := by
  rw [scanTemplate_brace2]
  simp only
  rw [takeWhile_braces k ('}' :: b) hkc]
  rw [List.drop_left]
  simp only [List.take, List.drop]
  rw [if_pos ⟨hk, trivial⟩]

/-- The text-node serializer used by `_escapeHtml` never emits a raw `<`:
markup cannot be opened from escaped output in text position. -/
theorem escapeHtml_no_lt (s : String) : '<' ∉ (escapeHtml s).data := by
  simp only [escapeHtml, List.mem_flatten, List.mem_map, not_exists]
  rintro l ⟨⟨c, hc, rfl⟩, hmem⟩
  unfold escapeChar at hmem
  split at hmem
  · simp at hmem
  · split at hmem
    · simp at hmem
    · split at hmem
      · simp at hmem
      · rename_i h1 h2 h3
        simp at hmem
        exact h2 hmem.symm

end Tmpl

namespace Utils

theorem uscan_brace2 (data : List (String × Tmpl.JVal)) (cs : List Char) :
    scanTemplate data ('{' :: '{' :: cs) =
      (let run := cs.takeWhile (fun c => decide (c ≠ '}'))
       let rest := cs.drop run.length
       if run ≠ [] ∧ rest.take 2 = ['}', '}'] then
         substOne data run ++ scanTemplate data (rest.drop 2)
       else
         '{' :: scanTemplate data ('{' :: cs)) := by
  rw [scanTemplate.eq_def]
  rfl

theorem uscan_cons_no (data : List (String × Tmpl.JVal)) (c : Char) (cs : List Char)
    (h : ∀ cs1, c = '{' → cs = '{' :: cs1 → False) :
    scanTemplate data (c :: cs) = c :: scanTemplate data cs := by
  rw [scanTemplate.eq_def]
  split
  · rename_i heq
    simp at heq
  · rename_i cs1 heq
    obtain ⟨h1, h2⟩ := List.cons_eq_cons.mp heq
    exact (h cs1 h1 h2).elim
  · rename_i c2 cs2 hne heq
    obtain ⟨rfl, rfl⟩ := List.cons_eq_cons.mp heq
    rfl

end Utils

/-- The two `_getNestedValue` bodies are character-identical; the embeddings
agree definitionally. -/
theorem utils_getNestedValue_eq : Utils.getNestedValue = Tmpl.getNestedValue := rfl

/-- The two `_escapeHtml` bodies are character-identical. -/
theorem utils_escapeHtml_eq : Utils.escapeHtml = Tmpl.escapeHtml := rfl

/-- The two template-replacement callbacks agree. -/
theorem utils_substOne_eq : Utils.substOne = Tmpl.substOne := rfl

/-- The two regex scans agree on every input. -/
theorem utils_scan_eq (data : List (String × Tmpl.JVal)) (cs : List Char) :
    Utils.scanTemplate data cs = Tmpl.scanTemplate data cs := by
  induction cs using Tmpl.scanTemplate.induct data with
  | case1 =>
    rw [Utils.scanTemplate.eq_def, Tmpl.scanTemplate.eq_def]
  | case2 cs run rest hcond ih =>
    rw [Utils.uscan_brace2, Tmpl.scanTemplate_brace2]
    simp only
    rw [if_pos hcond, if_pos hcond, utils_substOne_eq, ih]
  | case3 cs run rest hcond ih =>
    rw [Utils.uscan_brace2, Tmpl.scanTemplate_brace2]
    simp only
    rw [if_neg hcond, if_neg hcond, ih]
  | case4 c cs hne ih =>
    rw [Utils.uscan_cons_no data c cs hne, Tmpl.scanTemplate_cons_no data c cs hne, ih]

/-- C10: the template engine of the superseded reduced-feature duplicate
(utils.js `_processTemplate`) computes exactly the same output as the full
engine's template engine, for every fragment text and data mapping. -/
theorem c10_utils_template_refines_loader :
    ∀ html data, Utils.processTemplate html data = Tmpl.processTemplate html data := by
  intro html data
  unfold Utils.processTemplate Tmpl.processTemplate
  rw [utils_scan_eq]

/-- C4 counterexample: the claim asserts substituted values are HTML-escaped
so that quotes cannot inject markup, but `_escapeHtml` (textContent →
innerHTML round trip) leaves quote characters unchanged: a resolved value
consisting of one double quote is substituted verbatim, so in an
attribute-value context it closes the attribute and injects markup. -/
theorem c4_counterexample_quote_not_escaped :
    Tmpl.processTemplate "\x7b\x7ba\x7d\x7d" [("a", Tmpl.JVal.str "\x22")] = "\x22" ∧
    '\x22' ∈ (Tmpl.processTemplate "\x7b\x7ba\x7d\x7d" [("a", Tmpl.JVal.str "\x22")]).data := by
  have h : Tmpl.processTemplate "\x7b\x7ba\x7d\x7d" [("a", Tmpl.JVal.str "\x22")] = "\x22" := by
    simp [Tmpl.processTemplate, Tmpl.scanTemplate, Tmpl.substOne, Tmpl.getNestedValue,
      Tmpl.splitDots, Tmpl.propAccess, Tmpl.lookupField, Tmpl.trimChars, Tmpl.escapeHtml,
      Tmpl.jsString, Tmpl.escapeChar, Tmpl.isJsSpace, String.mk]
  refine ⟨h, ?_⟩
  rw [h]
  decide

/-- C4 (amended): template rendering replaces each placeholder whose dotted
path resolves to a non-undefined value with the value's string form escaped
for text context — `&` → `&amp;`, `<` → `&lt;`, `>` → `&gt;`, with quote
characters left unchanged — leaves every unresolved placeholder verbatim in
the output, and returns the input unchanged when the data mapping is empty;
escaped output cannot open a markup tag in text position. -/
theorem c4_template_amended :
    (∀ html data, data = [] → Tmpl.processTemplate html data = html) ∧
    (∀ data a k b v, data ≠ [] → '{' ∉ a → k ≠ [] → '}' ∉ k →
      Tmpl.getNestedValue data (String.mk (Tmpl.trimChars k)) = some v →
      Tmpl.processTemplate (String.mk (a ++ '{' :: '{' :: (k ++ '}' :: '}' :: b))) data =
        String.mk (a ++ (Tmpl.escapeHtml (Tmpl.jsString v)).data ++ Tmpl.scanTemplate data b)) ∧
    (∀ data a k b, data ≠ [] → '{' ∉ a → k ≠ [] → '}' ∉ k →
      Tmpl.getNestedValue data (String.mk (Tmpl.trimChars k)) = none →
      Tmpl.processTemplate (String.mk (a ++ '{' :: '{' :: (k ++ '}' :: '}' :: b))) data =
        String.mk (a ++ '{' :: '{' :: (k ++ '}' :: '}' :: Tmpl.scanTemplate data b))) ∧
    (∀ s, '<' ∉ (Tmpl.escapeHtml s).data) := by
  refine ⟨?_, ?_, ?_, Tmpl.escapeHtml_no_lt⟩
  · intro html data hd
    subst hd
    rfl
  · intro data a k b v hd ha hk hkc hv
    have hne : data.isEmpty = false := by
      cases data with
      | nil => exact absurd rfl hd
      | cons x xs => rfl
    simp only [Tmpl.processTemplate, hne, Bool.false_eq_true, if_false]
    show String.mk (Tmpl.scanTemplate data (a ++ '{' :: '{' :: (k ++ '}' :: '}' :: b))) = _
    rw [Tmpl.scanTemplate_prefix data a _ ha, Tmpl.scanTemplate_match data k b hk hkc]
    unfold Tmpl.substOne
    rw [hv]
    simp [List.append_assoc]
  · intro data a k b hd ha hk hkc hv
    have hne : data.isEmpty = false := by
      cases data with
      | nil => exact absurd rfl hd
      | cons x xs => rfl
    simp only [Tmpl.processTemplate, hne, Bool.false_eq_true, if_false]
    show String.mk (Tmpl.scanTemplate data (a ++ '{' :: '{' :: (k ++ '}' :: '}' :: b))) = _
    rw [Tmpl.scanTemplate_prefix data a _ ha, Tmpl.scanTemplate_match data k b hk hkc]
    unfold Tmpl.substOne
    rw [hv]
    simp [List.append_assoc]

/-- Witness for the amended C4 theorem at the spec's own test inputs. -/
theorem c4_template_amended_witness :
    Tmpl.processTemplate "\x7b\x7ba.b\x7d\x7d"
        [("a", Tmpl.JVal.obj [("b", Tmpl.JVal.str "<x>")])] = "&lt;x&gt;" ∧
    Tmpl.processTemplate "\x7b\x7ba.c\x7d\x7d"
        [("a", Tmpl.JVal.obj [("b", Tmpl.JVal.str "<x>")])] = "\x7b\x7ba.c\x7d\x7d" := by
  constructor
  · have h := c4_template_amended.2.1 [("a", Tmpl.JVal.obj [("b", Tmpl.JVal.str "<x>")])]
      [] "a.b".data [] (Tmpl.JVal.str "<x>") (by simp) (by decide) (by decide) (by decide) rfl
    simpa [Tmpl.scanTemplate_nil] using h
  · have h := c4_template_amended.2.2.1 [("a", Tmpl.JVal.obj [("b", Tmpl.JVal.str "<x>")])]
      [] "a.c".data [] (by simp) (by decide) (by decide) (by decide) rfl
    simpa [Tmpl.scanTemplate_nil] using h

namespace IKey

theorem digitChar_toNat (d : Nat) (h : d < 10) : (digitChar d).toNat = 48 + d := by
  interval_cases d <;> rfl

theorem digitChar_digit (d : Nat) (h : d < 10) :
    48 ≤ (digitChar d).toNat ∧ (digitChar d).toNat ≤ 57 := by
  rw [digitChar_toNat d h]
  omega

theorem natCharsAux_digits (fuel : Nat) :
    ∀ n, n < fuel → ∀ c ∈ natCharsAux fuel n, 48 ≤ c.toNat ∧ c.toNat ≤ 57 := by
  induction fuel with
  | zero => intro n hn; omega
  | succ f ih =>
    intro n hn c hc
    unfold natCharsAux at hc
    by_cases h10 : n < 10
    · rw [if_pos h10] at hc
      simp at hc
      subst hc
      exact digitChar_digit n h10
    · rw [if_neg h10] at hc
      rcases List.mem_append.mp hc with h1 | h2
      · exact ih (n / 10) (by omega) c h1
      · simp at h2
        subst h2
        exact digitChar_digit (n % 10) (Nat.mod_lt n (by omega))

theorem natCharsAux_ne_nil (fuel n : Nat) (h : n < fuel) :
    natCharsAux fuel n ≠ [] := by
  cases fuel with
  | zero => omega
  | succ f =>
    unfold natCharsAux
    by_cases h10 : n < 10
    · rw [if_pos h10]; simp
    · rw [if_neg h10]; simp

theorem decodeDigits_append (cs : List Char) (c : Char) :
    decodeDigits (cs ++ [c]) = 10 * decodeDigits cs + (c.toNat - 48) := by
  unfold decodeDigits
  rw [List.foldl_append]
  rfl

theorem natCharsAux_decode (fuel : Nat) :
    ∀ n, n < fuel → decodeDigits (natCharsAux fuel n) = n := by
  induction fuel with
  | zero => intro n hn; omega
  | succ f ih =>
    intro n hn
    unfold natCharsAux
    by_cases h10 : n < 10
    · rw [if_pos h10]
      show decodeDigits [digitChar n] = n
      unfold decodeDigits
      simp [digitChar_toNat n h10]
    · rw [if_neg h10]
      rw [decodeDigits_append, ih (n / 10) (by omega)]
      have : (digitChar (n % 10)).toNat = 48 + n % 10 :=
        digitChar_toNat (n % 10) (Nat.mod_lt n (by omega))
      rw [this]
      omega

theorem natChars_decode (n : Nat) : decodeDigits (natChars n) = n :=
  natCharsAux_decode (n + 1) n (Nat.lt_succ_self n)

theorem natChars_inj {a b : Nat} (h : natChars a = natChars b) : a = b := by
  have := natChars_decode a
  rw [h, natChars_decode b] at this
  omega

theorem natChars_ne_nil (n : Nat) : natChars n ≠ [] :=
  natCharsAux_ne_nil (n + 1) n (Nat.lt_succ_self n)

theorem natChars_no_dash (n : Nat) : '-' ∉ natChars n := by
  intro hmem
  have := natCharsAux_digits (n + 1) n (Nat.lt_succ_self n) '-' hmem
  have h45 : ('-' : Char).toNat = 45 := rfl
  omega

theorem natStr_good (n : Nat) : (natStr n).data ≠ [] ∧ '-' ∉ (natStr n).data :=
  ⟨natChars_ne_nil n, natChars_no_dash n⟩

theorem append_dash_inj :
    ∀ (a b u v : List Char), '-' ∉ a → '-' ∉ b →
      a ++ '-' :: u = b ++ '-' :: v → a = b ∧ u = v := by
  intro a
  induction a with
  | nil =>
    intro b u v _ hb h
    cases b with
    | nil =>
      simp at h
      exact ⟨rfl, h⟩
    | cons y ys =>
      simp at h
      exfalso
      apply hb
      rw [h.1]
      exact List.mem_cons_self y ys
  | cons x xs ih =>
    intro b u v ha hb h
    cases b with
    | nil =>
      simp at h
      exfalso
      apply ha
      rw [← h.1]
      exact List.mem_cons_self x xs
    | cons y ys =>
      simp only [List.cons_append, List.cons_eq_cons] at h
      simp only [List.mem_cons, not_or] at ha hb
      obtain ⟨rfl, h2⟩ := h
      obtain ⟨h3, h4⟩ := ih ys u v ha.2 hb.2 h2
      exact ⟨by rw [h3], h4⟩

theorem joinDash_inj :
    ∀ (xs ys : List String),
      (∀ s ∈ xs, s.data ≠ [] ∧ '-' ∉ s.data) →
      (∀ s ∈ ys, s.data ≠ [] ∧ '-' ∉ s.data) →
      joinDash xs = joinDash ys → xs = ys := by
  intro xs
  induction xs with
  | nil =>
    intro ys _ hys h
    cases ys with
    | nil => rfl
    | cons s t =>
      cases t with
      | nil =>
        exfalso
        have : ("" : String).data = s.data := congrArg String.data h
        exact (hys s (by simp)).1 this.symm
      | cons u r =>
        exfalso
        have hd : ("" : String).data = (s ++ "-" ++ joinDash (u :: r)).data :=
          congrArg String.data h
        rw [String.data_append, String.data_append] at hd
        have : s.data = [] := by
          cases hs : s.data with
          | nil => rfl
          | cons c cs => rw [hs] at hd; simp at hd
        exact (hys s (by simp)).1 this
  | cons s t ih =>
    intro ys hxs hys h
    cases t with
    | nil =>
      cases ys with
      | nil =>
        exfalso
        have : s.data = ("" : String).data := congrArg String.data h
        exact (hxs s (by simp)).1 this
      | cons u r =>
        cases r with
        | nil =>
          rw [show joinDash [s] = s from rfl, show joinDash [u] = u from rfl] at h
          rw [h]
        | cons v w =>
          exfalso
          have hd : s.data = (u ++ "-" ++ joinDash (v :: w)).data := congrArg String.data h
          rw [String.data_append, String.data_append] at hd
          have hmem : '-' ∈ s.data := by
            rw [hd]
            simp
          exact (hxs s (by simp)).2 hmem
    | cons t2 r =>
      cases ys with
      | nil =>
        exfalso
        have hd : (s ++ "-" ++ joinDash (t2 :: r)).data = ("" : String).data :=
          congrArg String.data h
        rw [String.data_append, String.data_append] at hd
        have : s.data = [] := by
          cases hs : s.data with
          | nil => rfl
          | cons c cs => rw [hs] at hd; simp at hd
        exact (hxs s (by simp)).1 this
      | cons u q =>
        cases q with
        | nil =>
          exfalso
          have hd : (s ++ "-" ++ joinDash (t2 :: r)).data = u.data := congrArg String.data h
          rw [String.data_append, String.data_append] at hd
          have hmem : '-' ∈ u.data := by
            rw [← hd]
            simp
          exact (hys u (by simp)).2 hmem
        | cons v w =>
          have hd : (s ++ "-" ++ joinDash (t2 :: r)).data = (u ++ "-" ++ joinDash (v :: w)).data :=
            congrArg String.data h
          rw [String.data_append, String.data_append, String.data_append, String.data_append] at hd
          have hdash : ("-" : String).data = ['-'] := rfl
          rw [hdash] at hd
          simp only [List.append_assoc, List.singleton_append] at hd
          obtain ⟨hsu, htail⟩ := append_dash_inj s.data u.data _ _
            (hxs s (by simp)).2 (hys u (by simp)).2 hd
          have hs : s = u := String.ext hsu
          have hj : joinDash (t2 :: r) = joinDash (v :: w) := String.ext htail
          have := ih (v :: w) (fun x hx => hxs x (List.mem_cons_of_mem s hx))
            (fun x hx => hys x (List.mem_cons_of_mem u hx)) hj
          rw [hs, this]

theorem natStr_inj {a b : Nat} (h : natStr a = natStr b) : a = b :=
  natChars_inj (congrArg String.data h)

theorem intStr_ofNat (i : Nat) : intStr (Int.ofNat i) = natStr i := by
  unfold intStr
  have h : ¬Int.ofNat i < 0 := by
    rw [Int.ofNat_eq_coe]
    omega
  rw [if_neg h]
  rfl

theorem string_append_cancel_left {a b c : String} (h : a ++ b = a ++ c) : b = c := by
  apply String.ext
  have hd := congrArg String.data h
  rw [String.data_append, String.data_append] at hd
  exact List.append_cancel_left hd

end IKey

/-- C9 counterexample: two distinct anonymous parentless targets (here two
detached elements) both derive the structural path `-1` — the single loop
iteration of `_getElementPath` computes `indexOf` on an empty child list —
so the same component name gives them the same instance key, a collision
between distinct anonymous targets. -/
theorem c9_counterexample_detached_collision :
    (⟨0, "", none⟩ : IKey.Elem) ≠ (⟨1, "", none⟩ : IKey.Elem) ∧
    IKey.getInstanceKey "navigation" ⟨0, "", none⟩ =
      IKey.getInstanceKey "navigation" ⟨1, "", none⟩ ∧
    IKey.getInstanceKey "navigation" ⟨0, "", none⟩ = "navigation:_anonymous_-1" := by
  refine ⟨by decide, rfl, rfl⟩

/-- C9 (amended): the instance key is a function of the component name and
the target's identifier and structural position only (so repeated
injections of the same pair derive the same key); a target with a truthy
identifier keys as `name:id`; and for anonymous targets that are body
descendants — which occupy distinct child-index paths — keys for the same
component name never collide.  Anonymous targets outside the body (e.g.
parentless detached elements) can collide, as the counterexample shows. -/
theorem c9_instance_key_amended :
    (∀ name (e1 e2 : IKey.Elem), e1.id = e2.id → e1.pos = e2.pos →
      IKey.getInstanceKey name e1 = IKey.getInstanceKey name e2) ∧
    (∀ name (e : IKey.Elem), e.id ≠ "" →
      IKey.getInstanceKey name e = name ++ ":" ++ e.id) ∧
    (∀ name (e1 e2 : IKey.Elem) (p1 p2 : List Nat), e1.id = "" → e2.id = "" →
      e1.pos = some p1 → e2.pos = some p2 → p1 ≠ p2 →
      IKey.getInstanceKey name e1 ≠ IKey.getInstanceKey name e2) := by
  refine ⟨?_, ?_, ?_⟩
  · intro name e1 e2 hid hpos
    unfold IKey.getInstanceKey IKey.getElementPath IKey.pathIndices
    rw [hid, hpos]
  · intro name e hid
    unfold IKey.getInstanceKey
    rw [if_pos hid]
  · intro name e1 e2 p1 p2 h1 h2 hp1 hp2 hne h
    apply hne
    unfold IKey.getInstanceKey at h
    rw [if_neg (by simp [h1]), if_neg (by simp [h2])] at h
    have h3 := IKey.string_append_cancel_left h
    have h4 := IKey.string_append_cancel_left h3
    unfold IKey.getElementPath IKey.pathIndices at h4
    rw [hp1, hp2] at h4
    rw [List.map_map, List.map_map] at h4
    have hrw : ∀ (p : List Nat), p.map (IKey.intStr ∘ Int.ofNat) = p.map IKey.natStr := by
      intro p
      apply List.map_congr_left
      intro a _
      exact IKey.intStr_ofNat a
    rw [hrw p1, hrw p2] at h4
    have hmaps := IKey.joinDash_inj (p1.map IKey.natStr) (p2.map IKey.natStr)
      (by intro s hs; obtain ⟨a, _, rfl⟩ := List.mem_map.mp hs; exact IKey.natStr_good a)
      (by intro s hs; obtain ⟨a, _, rfl⟩ := List.mem_map.mp hs; exact IKey.natStr_good a)
      h4
    exact List.map_injective_iff.mpr (fun a b hab => IKey.natStr_inj hab) hmaps

/-- Witness for the amended C9 theorem: a concrete identified target and two
concrete anonymous body descendants at sibling positions 0 and 1. -/
theorem c9_instance_key_amended_witness :
    IKey.getInstanceKey "navigation" ⟨5, "main-nav", some [0]⟩ = "navigation:main-nav" ∧
    IKey.getInstanceKey "navigation" ⟨6, "", some [0]⟩ ≠
      IKey.getInstanceKey "navigation" ⟨7, "", some [1]⟩ := by
  constructor
  · exact c9_instance_key_amended.2.1 "navigation" ⟨5, "main-nav", some [0]⟩ (by decide)
  · exact c9_instance_key_amended.2.2 "navigation" ⟨6, "", some [0]⟩ ⟨7, "", some [1]⟩
      [0] [1] rfl rfl rfl rfl (by decide)

namespace Batch

/-- Inductive invariant of the batch fold. -/
structure Inv (entries : List (String × Bool)) (s : St) : Prop where
  nodup : s.settledSet.Nodup
  bound : ∀ t ∈ s.settledSet, t < entries.length
  loadedEq : s.loaded = (s.settledSet.filter (fun t => isSuccess entries t)).length
  progCount : (s.trace.filter isProgress).length = s.loaded
  progMem : ∀ t name, entries.get? t = some (name, true) → t ∈ s.settledSet →
    ∃ d, BEv.progress d entries.length name ∈ s.trace
  failMem : ∀ t name, entries.get? t = some (name, false) → t ∈ s.settledSet →
    BEv.failLog name ∈ s.trace
  noReady : BEv.ready ∉ s.trace

theorem binv_init (entries : List (String × Bool)) : Inv entries ⟨0, [], []⟩ := by
  constructor <;> simp

theorem inv_cons_success (entries : List (String × Bool)) (s : St) (t : Nat) (name : String)
    (h : Inv entries s) (hmem : t ∉ s.settledSet) (ht : t < entries.length)
    (hget : entries.get? t = some (name, true)) :
    Inv entries ⟨s.loaded + 1, t :: s.settledSet,
      s.trace ++ [BEv.progress (s.loaded + 1) entries.length name]⟩ := by
  constructor
  · exact List.nodup_cons.mpr ⟨hmem, h.nodup⟩
  · intro u hu
    rcases List.mem_cons.mp hu with rfl | hu2
    · exact ht
    · exact h.bound u hu2
  · show s.loaded + 1 = ((t :: s.settledSet).filter (fun t => isSuccess entries t)).length
    have hsucc : isSuccess entries t = true := by
      unfold isSuccess
      rw [hget]
    rw [List.filter_cons_of_pos (by simpa using hsucc)]
    simp [h.loadedEq]
  · show ((s.trace ++ [BEv.progress (s.loaded + 1) entries.length name]).filter isProgress).length
      = s.loaded + 1
    rw [List.filter_append, List.length_append, h.progCount]
    simp [isProgress]
  · intro u uname hu humem
    rcases List.mem_cons.mp humem with rfl | hu2
    · rw [hget] at hu
      simp only [Option.some.injEq, Prod.mk.injEq] at hu
      refine ⟨s.loaded + 1, ?_⟩
      rw [← hu.1]
      simp
    · obtain ⟨d, hd⟩ := h.progMem u uname hu hu2
      exact ⟨d, List.mem_append_left _ hd⟩
  · intro u uname hu humem
    rcases List.mem_cons.mp humem with rfl | hu2
    · rw [hget] at hu
      simp at hu
    · exact List.mem_append_left _ (h.failMem u uname hu hu2)
  · intro hr
    rcases List.mem_append.mp hr with h1 | h2
    · exact h.noReady h1
    · simp at h2

theorem inv_cons_failure (entries : List (String × Bool)) (s : St) (t : Nat) (name : String)
    (h : Inv entries s) (hmem : t ∉ s.settledSet) (ht : t < entries.length)
    (hget : entries.get? t = some (name, false)) :
    Inv entries ⟨s.loaded, t :: s.settledSet, s.trace ++ [BEv.failLog name]⟩ := by
  constructor
  · exact List.nodup_cons.mpr ⟨hmem, h.nodup⟩
  · intro u hu
    rcases List.mem_cons.mp hu with rfl | hu2
    · exact ht
    · exact h.bound u hu2
  · show s.loaded = ((t :: s.settledSet).filter (fun t => isSuccess entries t)).length
    have hsucc : isSuccess entries t = false := by
      unfold isSuccess
      rw [hget]
    rw [List.filter_cons_of_neg (by simpa using hsucc)]
    exact h.loadedEq
  · show ((s.trace ++ [BEv.failLog name]).filter isProgress).length = s.loaded
    rw [List.filter_append, List.length_append, h.progCount]
    simp [isProgress]
  · intro u uname hu humem
    rcases List.mem_cons.mp humem with rfl | hu2
    · rw [hget] at hu
      simp at hu
    · obtain ⟨d, hd⟩ := h.progMem u uname hu hu2
      exact ⟨d, List.mem_append_left _ hd⟩
  · intro u uname hu humem
    rcases List.mem_cons.mp humem with rfl | hu2
    · rw [hget] at hu
      simp only [Option.some.injEq, Prod.mk.injEq] at hu
      rw [← hu.1]
      simp
    · exact List.mem_append_left _ (h.failMem u uname hu hu2)
  · intro hr
    rcases List.mem_append.mp hr with h1 | h2
    · exact h.noReady h1
    · simp at h2

theorem binv_step (entries : List (String × Bool)) (s : St) (t : Nat) (h : Inv entries s) :
    Inv entries (settleStep entries s t) := by
  unfold settleStep
  cases hget : entries.get? t with
  | none => exact h
  | some nb =>
    obtain ⟨name, ok⟩ := nb
    by_cases hmem : t ∈ s.settledSet
    · simp only [if_pos hmem]
      exact h
    · simp only [if_neg hmem]
      obtain ⟨ht, -⟩ := List.get?_eq_some.mp hget
      cases ok with
      | true => exact inv_cons_success entries s t name h hmem ht hget
      | false => exact inv_cons_failure entries s t name h hmem ht hget

theorem binv_fold (entries : List (String × Bool)) :
    ∀ (sched : List Nat) (s : St), Inv entries s →
      Inv entries (sched.foldl (settleStep entries) s) := by
  intro sched
  induction sched with
  | nil => intro s h; exact h
  | cons t rest ih =>
    intro s h
    exact ih (settleStep entries s t) (binv_step entries s t h)

theorem step_settled_mono (entries : List (String × Bool)) (s : St) (t u : Nat)
    (h : u ∈ s.settledSet) : u ∈ (settleStep entries s t).settledSet := by
  unfold settleStep
  cases hget : entries.get? t with
  | none => exact h
  | some nb =>
    obtain ⟨name, ok⟩ := nb
    by_cases hmem : t ∈ s.settledSet
    · simp only [if_pos hmem]
      exact h
    · simp only [if_neg hmem]
      cases ok with
      | true => exact List.mem_cons_of_mem t h
      | false => exact List.mem_cons_of_mem t h

theorem fold_settled_mono (entries : List (String × Bool)) :
    ∀ (sched : List Nat) (s : St) (u : Nat), u ∈ s.settledSet →
      u ∈ (sched.foldl (settleStep entries) s).settledSet := by
  intro sched
  induction sched with
  | nil => intro s u h; exact h
  | cons t rest ih =>
    intro s u h
    exact ih (settleStep entries s t) u (step_settled_mono entries s t u h)

theorem step_settles (entries : List (String × Bool)) (s : St) (t : Nat)
    (ht : t < entries.length) : t ∈ (settleStep entries s t).settledSet := by
  unfold settleStep
  cases hget : entries.get? t with
  | none =>
    rw [List.get?_eq_none] at hget
    omega
  | some nb =>
    obtain ⟨name, ok⟩ := nb
    by_cases hmem : t ∈ s.settledSet
    · simp only [if_pos hmem]
      exact hmem
    · simp only [if_neg hmem]
      cases ok with
      | true => exact List.mem_cons_self t _
      | false => exact List.mem_cons_self t _

theorem fold_settles (entries : List (String × Bool)) :
    ∀ (sched : List Nat) (s : St) (t : Nat), t ∈ sched → t < entries.length →
      t ∈ (sched.foldl (settleStep entries) s).settledSet := by
  intro sched
  induction sched with
  | nil => intro s t h; simp at h
  | cons u rest ih =>
    intro s t h ht
    rcases List.mem_cons.mp h with rfl | h2
    · exact fold_settled_mono entries rest _ t (step_settles entries s t ht)
    · exact ih (settleStep entries s u) t h2 ht

end Batch


/-- C7 counterexample: in `loadPageComponents`, a failing entry is only
logged — the `catch` branch does not increment the `loaded` counter and
does not invoke `onProgress` — so a batch with one failing entry finishes
with `loaded = 0`, no progress event at all, and the ready notification
still fires.  The claim's "each entry's completion — success or
individually-logged failure alike — increments the done counter and invokes
onProgress" is false on the failure side. -/
theorem c7_counterexample_failure_skips_progress :
    (Batch.runBatch [("navigation", false)] [0]).1.trace =
      [Batch.BEv.failLog "navigation", Batch.BEv.ready] ∧
    (Batch.runBatch [("navigation", false)] [0]).1.loaded = 0 ∧
    (Batch.runBatch [("navigation", false)] [0]).1.trace.all
      (fun e => !Batch.isProgress e) = true ∧
    (Batch.runBatch [("navigation", false)] [0]).2 = true := by
  refine ⟨rfl, rfl, rfl, rfl⟩


/-- C7 (amended): each successful entry's completion increments the done
counter and invokes `onProgress(done, total, name)` (the counter counts
exactly the settled successes and every progress event corresponds to one);
a failing entry is logged, excluded from the count, invokes no progress
callback, and does not abort the batch (every scheduled sibling still
settles); and only after all entries settle is the engine marked
initialized and the document-wide readiness notification emitted, as the
final trace event. -/
theorem c7_batch_amended :
    ∀ (entries : List (String × Bool)) (sched : List Nat),
      ((Batch.runBatch entries sched).1.loaded =
        ((Batch.runBatch entries sched).1.settledSet.filter
          (fun t => Batch.isSuccess entries t)).length) ∧
      (((Batch.runBatch entries sched).1.trace.filter Batch.isProgress).length =
        (Batch.runBatch entries sched).1.loaded) ∧
      (∀ t name, entries.get? t = some (name, true) →
        t ∈ (Batch.runBatch entries sched).1.settledSet →
        ∃ d, Batch.BEv.progress d entries.length name ∈ (Batch.runBatch entries sched).1.trace) ∧
      (∀ t name, entries.get? t = some (name, false) →
        t ∈ (Batch.runBatch entries sched).1.settledSet →
        Batch.BEv.failLog name ∈ (Batch.runBatch entries sched).1.trace) ∧
      (∀ t ∈ sched, t < entries.length → t ∈ (Batch.runBatch entries sched).1.settledSet) ∧
      ((Batch.runBatch entries sched).2 = true ↔
        ∀ t < entries.length, t ∈ (Batch.runBatch entries sched).1.settledSet) ∧
      ((Batch.runBatch entries sched).2 = true →
        ∃ pre, (Batch.runBatch entries sched).1.trace = pre ++ [Batch.BEv.ready] ∧
          Batch.BEv.ready ∉ pre) ∧
      ((Batch.runBatch entries sched).2 = false →
        Batch.BEv.ready ∉ (Batch.runBatch entries sched).1.trace) := by
  intro entries sched
  have hinv := Batch.binv_fold entries sched ⟨0, [], []⟩ (Batch.binv_init entries)
  by_cases hall :
      ((List.range entries.length).all
        (fun t => t ∈ (sched.foldl (Batch.settleStep entries) ⟨0, [], []⟩).settledSet)) = true
  · have hrb : Batch.runBatch entries sched =
        ({ sched.foldl (Batch.settleStep entries) ⟨0, [], []⟩ with
            trace := (sched.foldl (Batch.settleStep entries) ⟨0, [], []⟩).trace
              ++ [Batch.BEv.ready] }, true) := by
      unfold Batch.runBatch
      simp only [hall, if_true]
    rw [hrb]
    simp only
    have hallmem : ∀ t < entries.length,
        t ∈ (sched.foldl (Batch.settleStep entries) ⟨0, [], []⟩).settledSet := by
      intro t ht
      have := List.all_eq_true.mp hall t (List.mem_range.mpr ht)
      simpa using this
    refine ⟨hinv.loadedEq, ?_, ?_, ?_, ?_, ?_, ?_, ?_⟩
    · rw [List.filter_append, List.length_append, hinv.progCount]
      simp [Batch.isProgress]
    · intro t name hget hmem
      obtain ⟨d, hd⟩ := hinv.progMem t name hget hmem
      exact ⟨d, List.mem_append_left _ hd⟩
    · intro t name hget hmem
      exact List.mem_append_left _ (hinv.failMem t name hget hmem)
    · intro t htm htl
      exact Batch.fold_settles entries sched ⟨0, [], []⟩ t htm htl
    · constructor
      · intro _
        exact hallmem
      · intro _
        trivial
    · intro _
      exact ⟨(sched.foldl (Batch.settleStep entries) ⟨0, [], []⟩).trace, rfl, hinv.noReady⟩
    · intro hfalse
      simp at hfalse
  · have hrb : Batch.runBatch entries sched =
        (sched.foldl (Batch.settleStep entries) ⟨0, [], []⟩, false) := by
      unfold Batch.runBatch
      rw [if_neg hall]
    rw [hrb]
    simp only
    refine ⟨hinv.loadedEq, hinv.progCount, hinv.progMem, hinv.failMem, ?_, ?_, ?_, ?_⟩
    · intro t htm htl
      exact Batch.fold_settles entries sched ⟨0, [], []⟩ t htm htl
    · constructor
      · intro hfalse
        simp at hfalse
      · intro hallmem
        exfalso
        apply hall
        rw [List.all_eq_true]
        intro t htr
        simpa using hallmem t (List.mem_range.mp htr)
    · intro hfalse
      simp at hfalse
    · intro _
      exact hinv.noReady


/-- Witness for the amended C7 theorem: a two-entry batch whose second entry
fails, settled in reverse order. -/
theorem c7_batch_amended_witness :
    (∃ d, Batch.BEv.progress d 2 "header" ∈
      (Batch.runBatch [("header", true), ("footer", false)] [1, 0]).1.trace) ∧
    Batch.BEv.failLog "footer" ∈
      (Batch.runBatch [("header", true), ("footer", false)] [1, 0]).1.trace ∧
    (Batch.runBatch [("header", true), ("footer", false)] [1, 0]).2 = true := by
  have h := c7_batch_amended [("header", true), ("footer", false)] [1, 0]
  refine ⟨h.2.2.1 0 "header" rfl (by decide), h.2.2.2.1 1 "footer" rfl (by decide), ?_⟩
  exact (h.2.2.2.2.2.1).mpr (by decide)

/-- Splitting an append at a distinguished element: if no element of the
prefix satisfies `P` and `e` does, any decomposition at `e` keeps the whole
prefix on the left. -/
theorem append_mem_split {α : Type} (P : α → Prop) :
    ∀ (pre : List α) (l1 rest l2 : List α) (e : α),
      pre ++ rest = l1 ++ e :: l2 → (∀ x ∈ pre, ¬P x) → P e →
      ∃ l1', l1 = pre ++ l1' ∧ rest = l1' ++ e :: l2 := by
  intro pre
  induction pre with
  | nil =>
    intro l1 rest l2 e h _ _
    exact ⟨l1, by simp, by simpa using h⟩
  | cons p pre' ih =>
    intro l1 rest l2 e h hpre hPe
    cases l1 with
    | nil =>
      simp only [List.cons_append, List.nil_append, List.cons_eq_cons] at h
      exact absurd (h.1 ▸ hPe) (hpre p (by simp))
    | cons a l1' =>
      simp only [List.cons_append, List.cons_eq_cons] at h
      obtain ⟨rfl, h2⟩ := h
      obtain ⟨l1'', hl1, hrest⟩ := ih l1' rest l2 e h2
        (fun x hx => hpre x (by simp [hx])) hPe
      exact ⟨l1'', by rw [hl1, List.cons_append], hrest⟩

namespace Handlers

theorem foldl_track (key : String) :
    ∀ (hs : List Nat) (reg : Registry),
      (hs.foldl (fun r h => track r key h) reg) key = reg key ++ hs := by
  intro hs
  induction hs with
  | nil => intro reg; simp
  | cons h t ih =>
    intro reg
    simp only [List.foldl_cons]
    rw [ih (track reg key h)]
    unfold track
    simp

end Handlers

/-- C6: a replacing (non-append) re-injection of a (component, target) pair
detaches and removes every handler previously recorded for the pair's
instance key before any new content is attached — in the event trace, every
decomposition at the content-insertion event has exactly the recorded
detachments on its left and the new attachments on its right — and the
tracked handler list for the key afterwards is exactly the freshly attached
set, so its size does not grow across repeated replace-injections. -/
theorem c6_replace_injection_cleanup :
    (∀ (reg : Handlers.Registry) (key : String) (hs : List Nat),
      (Handlers.replaceInject reg key hs).1 key = hs) ∧
    (∀ (reg : Handlers.Registry) (key : String) (hs : List Nat) (n : Nat),
      Handlers.iterInject reg key hs (n + 1) key = hs) ∧
    (∀ (reg : Handlers.Registry) (key : String) (hs : List Nat)
        (l1 l2 : List Handlers.HEv),
      (Handlers.replaceInject reg key hs).2 = l1 ++ Handlers.HEv.inserted :: l2 →
      l1 = (reg key).map Handlers.HEv.detached ∧
        l2 = hs.map Handlers.HEv.attached) := by
  have hfst : ∀ (reg : Handlers.Registry) (key : String) (hs : List Nat),
      (Handlers.replaceInject reg key hs).1 key = hs := by
    intro reg key hs
    unfold Handlers.replaceInject Handlers.cleanup
    simp only
    rw [Handlers.foldl_track key hs]
    simp
  refine ⟨hfst, ?_, ?_⟩
  · intro reg key hs n
    show (Handlers.replaceInject (Handlers.iterInject reg key hs n) key hs).1 key = hs
    exact hfst _ key hs
  · intro reg key hs l1 l2 h
    unfold Handlers.replaceInject Handlers.cleanup at h
    simp only at h
    obtain ⟨l1', hl1, hrest⟩ := append_mem_split (fun e => e = Handlers.HEv.inserted)
      ((reg key).map Handlers.HEv.detached) l1 _ l2 Handlers.HEv.inserted
      h (by intro x hx; obtain ⟨a, _, rfl⟩ := List.mem_map.mp hx; simp) rfl
    cases l1' with
    | nil =>
      simp only [List.nil_append, List.cons_eq_cons] at hrest
      exact ⟨by simpa using hl1, hrest.2.symm⟩
    | cons x xs =>
      exfalso
      simp only [List.cons_append, List.cons_eq_cons] at hrest
      have hmem : Handlers.HEv.inserted ∈ hs.map Handlers.HEv.attached := by
        rw [hrest.2]
        simp
      obtain ⟨a, _, ha⟩ := List.mem_map.mp hmem
      cases ha

/-- Witness for the C6 theorem: a key with two previously recorded handlers,
re-injected with two fresh ones. -/
theorem c6_replace_injection_cleanup_witness :
    (Handlers.replaceInject
        (fun k => if k = "navigation:main-nav" then [10, 11] else [])
        "navigation:main-nav" [20, 21]).1 "navigation:main-nav" = [20, 21] ∧
    ([Handlers.HEv.detached 10, Handlers.HEv.detached 11] =
        ((fun k => if k = "navigation:main-nav" then [10, 11] else [])
          "navigation:main-nav").map Handlers.HEv.detached ∧
      [Handlers.HEv.attached 20, Handlers.HEv.attached 21] =
        ([20, 21] : List Nat).map Handlers.HEv.attached) := by
  refine ⟨c6_replace_injection_cleanup.1 _ _ _, ?_⟩
  exact c6_replace_injection_cleanup.2.2
    (fun k => if k = "navigation:main-nav" then [10, 11] else [])
    "navigation:main-nav" [20, 21]
    [Handlers.HEv.detached 10, Handlers.HEv.detached 11]
    [Handlers.HEv.attached 20, Handlers.HEv.attached 21] rfl

namespace Scripts

/-- The index carried by a script event, if any. -/
def evIdx : SEv → Option Nat
  | .attachInline i => some i
  | .beginLoad i => some i
  | .settled i _ => some i
  | _ => none

theorem runScripts_inline (loadOk : Nat → Bool) (i : Nat) (code : String) (rest : List Frag) :
    runScripts loadOk i (Frag.inline code :: rest) =
      (SEv.attachInline i :: (runScripts loadOk (i + 1) rest).1,
        (runScripts loadOk (i + 1) rest).2) := rfl

theorem runScripts_ext (loadOk : Nat → Bool) (i : Nat) (src : String) (rest : List Frag) :
    runScripts loadOk i (Frag.external src :: rest) =
      if loadOk i = true then
        (SEv.beginLoad i :: SEv.settled i true :: (runScripts loadOk (i + 1) rest).1,
          (runScripts loadOk (i + 1) rest).2)
      else ([SEv.beginLoad i, SEv.settled i false], false) := rfl

theorem runScripts_idx_ge (loadOk : Nat → Bool) :
    ∀ (fs : List Frag) (i : Nat) (e : SEv) (j : Nat),
      e ∈ (runScripts loadOk i fs).1 → evIdx e = some j → i ≤ j := by
  intro fs
  induction fs with
  | nil =>
    intro i e j he
    simp [runScripts] at he
  | cons f rest ih =>
    intro i e j he hidx
    cases f with
    | inline code =>
      rw [runScripts_inline] at he
      rcases List.mem_cons.mp he with rfl | h2
      · simp [evIdx] at hidx
        omega
      · have := ih (i + 1) e j h2 hidx
        omega
    | external src =>
      rw [runScripts_ext] at he
      by_cases hok : loadOk i = true
      · rw [if_pos hok] at he
        rcases List.mem_cons.mp he with rfl | h2
        · simp [evIdx] at hidx
          omega
        · rcases List.mem_cons.mp h2 with rfl | h3
          · simp [evIdx] at hidx
            omega
          · have := ih (i + 1) e j h3 hidx
            omega
      · rw [if_neg hok] at he
        rcases List.mem_cons.mp he with rfl | h2
        · simp [evIdx] at hidx
          omega
        · simp at h2
          subst h2
          simp [evIdx] at hidx
          omega

theorem act_idx {e : SEv} {j : Nat} (h : isAct e j) : evIdx e = some j := by
  rcases h with rfl | rfl <;> rfl

theorem runScripts_act_ge (loadOk : Nat → Bool) (fs : List Frag) (i : Nat) (e : SEv)
    (j : Nat) (he : e ∈ (runScripts loadOk i fs).1) (ha : isAct e j) : i ≤ j :=
  runScripts_idx_ge loadOk fs i e j he (act_idx ha)

end Scripts

namespace Scripts

theorem runScripts_begin_settled (loadOk : Nat → Bool) :
    ∀ (fs : List Frag) (i : Nat) (l1 l2 : List SEv) (j : Nat),
      (runScripts loadOk i fs).1 = l1 ++ SEv.beginLoad j :: l2 →
      ∃ ok l3, l2 = SEv.settled j ok :: l3 ∧ (ok = false → l3 = []) := by
  intro fs
  induction fs with
  | nil =>
    intro i l1 l2 j h
    simp [runScripts] at h
  | cons f rest ih =>
    intro i l1 l2 j h
    cases f with
    | inline code =>
      rw [runScripts_inline] at h
      cases l1 with
      | nil =>
        simp at h
      | cons a l1' =>
        simp only [List.cons_append, List.cons_eq_cons] at h
        exact ih (i + 1) l1' l2 j h.2
    | external src =>
      rw [runScripts_ext] at h
      by_cases hok : loadOk i = true
      · rw [if_pos hok] at h
        cases l1 with
        | nil =>
          simp only [List.nil_append, List.cons_eq_cons] at h
          obtain ⟨h1, h2⟩ := h
          have hij : i = j := by
            injection h1 with h1'
          exact ⟨true, (runScripts loadOk (i + 1) rest).1, by rw [← h2, hij], by simp⟩
        | cons a l1' =>
          simp only [List.cons_append, List.cons_eq_cons] at h
          obtain ⟨rfl, h2⟩ := h
          cases l1' with
          | nil =>
            simp at h2
          | cons b l1'' =>
            simp only [List.cons_append, List.cons_eq_cons] at h2
            exact ih (i + 1) l1'' l2 j h2.2
      · rw [if_neg hok] at h
        cases l1 with
        | nil =>
          simp only [List.nil_append, List.cons_eq_cons] at h
          obtain ⟨h1, h2⟩ := h
          have hij : i = j := by
            injection h1 with h1'
          exact ⟨false, [], by rw [← h2, hij], fun _ => rfl⟩
        | cons a l1' =>
          simp only [List.cons_append, List.cons_eq_cons] at h
          obtain ⟨rfl, h2⟩ := h
          cases l1' with
          | nil =>
            simp at h2
          | cons b l1'' =>
            simp only [List.cons_append, List.cons_eq_cons] at h2
            obtain ⟨-, h3⟩ := h2
            simp at h3

theorem runScripts_act_order (loadOk : Nat → Bool) :
    ∀ (fs : List Frag) (i : Nat) (l1 l2 l3 : List SEv) (e e2 : SEv) (j j' : Nat),
      (runScripts loadOk i fs).1 = l1 ++ e :: (l2 ++ e2 :: l3) →
      isAct e j → isAct e2 j' → j < j' := by
  intro fs
  induction fs with
  | nil =>
    intro i l1 l2 l3 e e2 j j' h
    simp [runScripts] at h
  | cons f rest ih =>
    intro i l1 l2 l3 e e2 j j' h ha ha2
    cases f with
    | inline code =>
      rw [runScripts_inline] at h
      cases l1 with
      | nil =>
        simp only [List.nil_append, List.cons_eq_cons] at h
        obtain ⟨h1, h2⟩ := h
        have hji : j = i := by
          rcases ha with rfl | rfl
          · injection h1 with h1'
            omega
          · exact absurd h1 (by simp)
        rw [hji]
        have hmem : e2 ∈ (runScripts loadOk (i + 1) rest).1 := by
          rw [h2]
          simp
        have := runScripts_act_ge loadOk rest (i + 1) e2 j' hmem ha2
        omega
      | cons a l1' =>
        simp only [List.cons_append, List.cons_eq_cons] at h
        exact ih (i + 1) l1' l2 l3 e e2 j j' h.2 ha ha2
    | external src =>
      rw [runScripts_ext] at h
      by_cases hok : loadOk i = true
      · rw [if_pos hok] at h
        cases l1 with
        | nil =>
          simp only [List.nil_append, List.cons_eq_cons] at h
          obtain ⟨h1, h2⟩ := h
          have hji : j = i := by
            rcases ha with rfl | rfl
            · exact absurd h1 (by simp)
            · injection h1 with h1'
              omega
          rw [hji]
          cases l2 with
          | nil =>
            simp only [List.nil_append, List.cons_eq_cons] at h2
            obtain ⟨h3, -⟩ := h2
            rcases ha2 with rfl | rfl <;> simp at h3
          | cons b l2' =>
            simp only [List.cons_append, List.cons_eq_cons] at h2
            obtain ⟨-, h3⟩ := h2
            have hmem : e2 ∈ (runScripts loadOk (i + 1) rest).1 := by
              rw [h3]
              simp
            have := runScripts_act_ge loadOk rest (i + 1) e2 j' hmem ha2
            omega
        | cons a l1' =>
          simp only [List.cons_append, List.cons_eq_cons] at h
          obtain ⟨rfl, h2⟩ := h
          cases l1' with
          | nil =>
            simp only [List.nil_append, List.cons_eq_cons] at h2
            obtain ⟨h3, -⟩ := h2
            rcases ha with rfl | rfl <;> simp at h3
          | cons b l1'' =>
            simp only [List.cons_append, List.cons_eq_cons] at h2
            exact ih (i + 1) l1'' l2 l3 e e2 j j' h2.2 ha ha2
      · rw [if_neg hok] at h
        cases l1 with
        | nil =>
          simp only [List.nil_append, List.cons_eq_cons] at h
          obtain ⟨h1, h2⟩ := h
          cases l2 with
          | nil =>
            simp only [List.nil_append, List.cons_eq_cons] at h2
            obtain ⟨h3, -⟩ := h2
            rcases ha2 with rfl | rfl <;> simp at h3
          | cons b l2' =>
            simp only [List.cons_append, List.cons_eq_cons] at h2
            obtain ⟨-, h3⟩ := h2
            simp at h3
        | cons a l1' =>
          simp only [List.cons_append, List.cons_eq_cons] at h
          obtain ⟨rfl, h2⟩ := h
          cases l1' with
          | nil =>
            simp only [List.nil_append, List.cons_eq_cons] at h2
            obtain ⟨h3, -⟩ := h2
            rcases ha with rfl | rfl <;> simp at h3
          | cons b l1'' =>
            simp only [List.cons_append, List.cons_eq_cons] at h2
            obtain ⟨-, h3⟩ := h2
            simp at h3

theorem runScripts_complete (loadOk : Nat → Bool) (hok : ∀ j, loadOk j = true) :
    ∀ (fs : List Frag) (i j : Nat), j < fs.length →
      ∃ e, e ∈ (runScripts loadOk i fs).1 ∧ isAct e (i + j) := by
  intro fs
  induction fs with
  | nil =>
    intro i j hj
    simp at hj
  | cons f rest ih =>
    intro i j hj
    cases j with
    | zero =>
      cases f with
      | inline code =>
        refine ⟨SEv.attachInline i, ?_, Or.inl rfl⟩
        rw [runScripts_inline]
        simp
      | external src =>
        refine ⟨SEv.beginLoad i, ?_, Or.inr rfl⟩
        rw [runScripts_ext, if_pos (hok i)]
        simp
    | succ j' =>
      have hj' : j' < rest.length := by
        simp at hj
        omega
      obtain ⟨e, hmem, hact⟩ := ih (i + 1) j' hj'
      refine ⟨e, ?_, by
        have : i + 1 + j' = i + (j' + 1) := by omega
        rw [← this]
        exact hact⟩
      cases f with
      | inline code =>
        rw [runScripts_inline]
        simp [hmem]
      | external src =>
        rw [runScripts_ext, if_pos (hok i)]
        simp [hmem]

end Scripts

namespace Scripts

theorem injectWithDOM_scripts (nodes : List SNode) (append : Bool) (loadOk : Nat → Bool) :
    (injectWithDOM nodes append true loadOk).1 =
      ((if append = true then [] else [SEv.cleared]) ++
          [SEv.insertedStatic (removeScripts nodes)]) ++
        (runScripts loadOk 0 (extractScripts nodes)).1 := rfl

theorem pre_no_act (nodes : List SNode) (append : Bool) (x : SEv) (j : Nat)
    (hx : x ∈ (if append = true then [] else [SEv.cleared]) ++
      [SEv.insertedStatic (removeScripts nodes)]) : ¬isAct x j := by
  rcases List.mem_append.mp hx with h1 | h2
  · cases append with
    | true => simp at h1
    | false =>
      simp at h1
      subst h1
      simp [isAct]
  · simp at h2
    subst h2
    simp [isAct]

end Scripts

/-- C5: with script execution enabled, `_injectWithDOM` removes the embedded
executable fragments from the static tree (the inserted content contains no
script node) and re-attaches them one at a time in original document order:
the static insertion precedes every script activation; every decomposition
of the trace at an external fragment's load-begin is immediately followed by
that load's settling — and nothing follows a failed settling, i.e. the next
fragment is attached only after the previous external load settles; any two
activations occur in strictly increasing document order (so an inline script
preceding an external one executes before the external load begins); and
when every load succeeds, every extracted script is activated. -/
theorem c5_script_execution_order :
    (∀ (nodes : List Scripts.SNode) (append : Bool) (loadOk : Nat → Bool)
        (l1 l2 : List Scripts.SEv) (e : Scripts.SEv) (j : Nat),
      (Scripts.injectWithDOM nodes append true loadOk).1 = l1 ++ e :: l2 →
      Scripts.isAct e j →
      Scripts.SEv.insertedStatic (Scripts.removeScripts nodes) ∈ l1) ∧
    (∀ (nodes : List Scripts.SNode) (append : Bool) (loadOk : Nat → Bool)
        (l1 l2 : List Scripts.SEv) (j : Nat),
      (Scripts.injectWithDOM nodes append true loadOk).1 =
        l1 ++ Scripts.SEv.beginLoad j :: l2 →
      ∃ ok l3, l2 = Scripts.SEv.settled j ok :: l3 ∧ (ok = false → l3 = [])) ∧
    (∀ (nodes : List Scripts.SNode) (append : Bool) (loadOk : Nat → Bool)
        (l1 l2 l3 : List Scripts.SEv) (e e2 : Scripts.SEv) (j j' : Nat),
      (Scripts.injectWithDOM nodes append true loadOk).1 =
        l1 ++ e :: (l2 ++ e2 :: l3) →
      Scripts.isAct e j → Scripts.isAct e2 j' → j < j') ∧
    (∀ (nodes : List Scripts.SNode) (append : Bool) (loadOk : Nat → Bool),
      (∀ j, loadOk j = true) →
      ∀ j, j < (Scripts.extractScripts nodes).length →
        ∃ e, e ∈ (Scripts.injectWithDOM nodes append true loadOk).1 ∧
          Scripts.isAct e j) ∧
    (∀ (nodes : List Scripts.SNode) (n : Scripts.SNode) (f : Scripts.Frag),
      n ∈ Scripts.removeScripts nodes → n ≠ Scripts.SNode.script f) := by
  refine ⟨?_, ?_, ?_, ?_, ?_⟩
  · intro nodes append loadOk l1 l2 e j h ha
    rw [Scripts.injectWithDOM_scripts] at h
    obtain ⟨l1', hl1, -⟩ := append_mem_split (fun x => Scripts.isAct x j) _ l1 _ l2 e
      h (fun x hx => Scripts.pre_no_act nodes append x j hx) ha
    rw [hl1]
    exact List.mem_append_left _ (List.mem_append_right _ (by simp))
  · intro nodes append loadOk l1 l2 j h
    rw [Scripts.injectWithDOM_scripts] at h
    obtain ⟨l1', -, hrest⟩ := append_mem_split (fun x => Scripts.isAct x j) _ l1 _ l2
      (Scripts.SEv.beginLoad j) h
      (fun x hx => Scripts.pre_no_act nodes append x j hx) (Or.inr rfl)
    exact Scripts.runScripts_begin_settled loadOk (Scripts.extractScripts nodes) 0
      l1' l2 j hrest
  · intro nodes append loadOk l1 l2 l3 e e2 j j' h ha ha2
    rw [Scripts.injectWithDOM_scripts] at h
    obtain ⟨l1', -, hrest⟩ := append_mem_split (fun x => Scripts.isAct x j) _ l1 _ _ e
      h (fun x hx => Scripts.pre_no_act nodes append x j hx) ha
    exact Scripts.runScripts_act_order loadOk (Scripts.extractScripts nodes) 0
      l1' l2 l3 e e2 j j' hrest ha ha2
  · intro nodes append loadOk hok j hj
    obtain ⟨e, hmem, hact⟩ :=
      Scripts.runScripts_complete loadOk hok (Scripts.extractScripts nodes) 0 j hj
    refine ⟨e, ?_, by simpa using hact⟩
    rw [Scripts.injectWithDOM_scripts]
    exact List.mem_append_right _ hmem
  · intro nodes n f hmem heq
    obtain ⟨-, hp⟩ := List.mem_filter.mp hmem
    subst heq
    simp at hp

/-- Witness for the C5 theorem on the markup
`d<script>A</script><script src="u"></script>p`: the static content is
inserted before the inline attach, the external load settles immediately
after it begins, and the inline script (index 0) activates before the
external one (index 1). -/
theorem c5_script_execution_order_witness :
    Scripts.SEv.insertedStatic (Scripts.removeScripts
        [Scripts.SNode.stat "d", Scripts.SNode.script (Scripts.Frag.inline "A"),
          Scripts.SNode.script (Scripts.Frag.external "u"), Scripts.SNode.stat "p"]) ∈
      [Scripts.SEv.cleared,
        Scripts.SEv.insertedStatic [Scripts.SNode.stat "d", Scripts.SNode.stat "p"]] ∧
    (∃ ok l3, [Scripts.SEv.settled 1 true] = Scripts.SEv.settled 1 ok :: l3 ∧
      (ok = false → l3 = [])) ∧
    (0 : Nat) < 1 := by
  refine ⟨?_, ?_, ?_⟩
  · exact c5_script_execution_order.1
      [Scripts.SNode.stat "d", Scripts.SNode.script (Scripts.Frag.inline "A"),
        Scripts.SNode.script (Scripts.Frag.external "u"), Scripts.SNode.stat "p"]
      false (fun _ => true)
      [Scripts.SEv.cleared,
        Scripts.SEv.insertedStatic [Scripts.SNode.stat "d", Scripts.SNode.stat "p"]]
      [Scripts.SEv.beginLoad 1, Scripts.SEv.settled 1 true]
      (Scripts.SEv.attachInline 0) 0 rfl (Or.inl rfl)
  · exact c5_script_execution_order.2.1
      [Scripts.SNode.stat "d", Scripts.SNode.script (Scripts.Frag.inline "A"),
        Scripts.SNode.script (Scripts.Frag.external "u"), Scripts.SNode.stat "p"]
      false (fun _ => true)
      [Scripts.SEv.cleared,
        Scripts.SEv.insertedStatic [Scripts.SNode.stat "d", Scripts.SNode.stat "p"],
        Scripts.SEv.attachInline 0]
      [Scripts.SEv.settled 1 true] 1 rfl
  · exact c5_script_execution_order.2.2.1
      [Scripts.SNode.stat "d", Scripts.SNode.script (Scripts.Frag.inline "A"),
        Scripts.SNode.script (Scripts.Frag.external "u"), Scripts.SNode.stat "p"]
      false (fun _ => true)
      [Scripts.SEv.cleared,
        Scripts.SEv.insertedStatic [Scripts.SNode.stat "d", Scripts.SNode.stat "p"]]
      [] [Scripts.SEv.settled 1 true]
      (Scripts.SEv.attachInline 0) (Scripts.SEv.beginLoad 1) 0 1 rfl
      (Or.inl rfl) (Or.inr rfl)

namespace Inject

theorem get?_set_self {α : Type} (l : List α) (t : Nat) (a : α) (h : t < l.length) :
    (l.set t a).get? t = some a := by
  rw [List.get?_eq_getElem?, List.getElem?_set_self']
  simp [List.getElem?_eq_getElem, h]

theorem get?_set_ne {α : Type} (l : List α) (t u : Nat) (a : α) (h : u ≠ t) :
    (l.set t a).get? u = l.get? u := by
  rw [List.get?_eq_getElem?, List.get?_eq_getElem?, List.getElem?_set_ne]
  omega

theorem lookup_mem : ∀ (l : List (String × Nat)) (k : String) (p : Nat),
    lookup l k = some p → (k, p) ∈ l := by
  intro l
  induction l with
  | nil => intro k p h; simp [lookup] at h
  | cons kv r ih =>
    intro k p h
    obtain ⟨k2, q⟩ := kv
    unfold lookup at h
    by_cases hk : k2 = k
    · rw [if_pos hk] at h
      simp at h
      simp [hk, h]
    · rw [if_neg hk] at h
      exact List.mem_cons_of_mem _ (ih k p h)

theorem lookup_erase_self : ∀ (l : List (String × Nat)) (k : String),
    (l.map Prod.fst).Nodup → lookup (erase l k) k = none := by
  intro l
  induction l with
  | nil => intro k _; rfl
  | cons kv r ih =>
    intro k hnd
    obtain ⟨k2, q⟩ := kv
    simp only [List.map_cons, List.nodup_cons] at hnd
    unfold erase
    by_cases hk : k2 = k
    · rw [if_pos hk]
      subst hk
      cases hl : lookup r k2 with
      | none => rfl
      | some p =>
        exfalso
        have := lookup_mem r k2 p hl
        exact hnd.1 (List.mem_map.mpr ⟨(k2, p), this, rfl⟩)
    · rw [if_neg hk]
      unfold lookup
      rw [if_neg hk]
      exact ih k hnd.2

theorem lookup_erase_ne : ∀ (l : List (String × Nat)) (k k' : String), k' ≠ k →
    lookup (erase l k) k' = lookup l k' := by
  intro l
  induction l with
  | nil => intro k k' _; rfl
  | cons kv r ih =>
    intro k k' hne
    obtain ⟨k2, q⟩ := kv
    unfold erase
    by_cases hk : k2 = k
    · rw [if_pos hk]
      have hk2 : ¬k2 = k' := by
        rw [hk]
        intro h
        exact hne h.symm
      show lookup r k' = if k2 = k' then some q else lookup r k'
      rw [if_neg hk2]
    · rw [if_neg hk]
      show (if k2 = k' then some q else lookup (erase r k) k') =
        if k2 = k' then some q else lookup r k'
      by_cases hk' : k2 = k'
      · rw [if_pos hk', if_pos hk']
      · rw [if_neg hk', if_neg hk']
        exact ih k k' hne

theorem erase_mem : ∀ (l : List (String × Nat)) (k : String) (kv : String × Nat),
    kv ∈ erase l k → kv ∈ l := by
  intro l
  induction l with
  | nil => intro k kv h; simp [erase] at h
  | cons hd r ih =>
    intro k kv h
    obtain ⟨k2, q⟩ := hd
    unfold erase at h
    by_cases hk : k2 = k
    · rw [if_pos hk] at h
      exact List.mem_cons_of_mem _ h
    · rw [if_neg hk] at h
      rcases List.mem_cons.mp h with rfl | h2
      · exact List.mem_cons_self _ _
      · exact List.mem_cons_of_mem _ (ih k kv h2)

theorem erase_keys_sublist : ∀ (l : List (String × Nat)) (k : String),
    ((erase l k).map Prod.fst).Sublist (l.map Prod.fst) := by
  intro l
  induction l with
  | nil => intro k; simp [erase]
  | cons hd r ih =>
    intro k
    obtain ⟨k2, q⟩ := hd
    unfold erase
    by_cases hk : k2 = k
    · rw [if_pos hk]
      simp only [List.map_cons]
      exact List.sublist_cons_of_sublist k2 (List.Sublist.refl _)
    · rw [if_neg hk]
      simp only [List.map_cons]
      exact List.Sublist.cons₂ k2 (ih k)

theorem lookup_of_mem_nodup : ∀ (l : List (String × Nat)) (k : String) (p : Nat),
    (l.map Prod.fst).Nodup → (k, p) ∈ l → lookup l k = some p := by
  intro l
  induction l with
  | nil => intro k p _ h; simp at h
  | cons hd r ih =>
    intro k p hnd hmem
    obtain ⟨k2, q⟩ := hd
    simp only [List.map_cons, List.nodup_cons] at hnd
    rcases List.mem_cons.mp hmem with heq | h2
    · obtain ⟨rfl, rfl⟩ := Prod.mk.injEq .. ▸ heq
      unfold lookup
      rw [if_pos rfl]
    · unfold lookup
      by_cases hk : k2 = k
      · exfalso
        subst hk
        exact hnd.1 (List.mem_map.mpr ⟨(k2, p), h2, rfl⟩)
      · rw [if_neg hk]
        exact ih k p hnd.2 h2

end Inject

namespace Inject

theorem evts_append (t : Nat) (tr : List IEv) (e : IEv) :
    evts t (tr ++ [e]) =
      evts t tr ++ (if (evTid e == some t) = true then [e] else []) := by
  unfold evts
  rw [List.filter_append]
  congr 1
  cases h : (evTid e == some t) with
  | true => simp [List.filter_cons, h]
  | false => simp [List.filter_cons, h]

theorem evtsPair_append (t u : Nat) (tr : List IEv) (e : IEv) :
    evtsPair t u (tr ++ [e]) =
      evtsPair t u tr ++
        (if (evTid e == some t || evTid e == some u) = true then [e] else []) := by
  unfold evtsPair
  rw [List.filter_append]
  congr 1
  cases h : (evTid e == some t || evTid e == some u) with
  | true => simp [List.filter_cons, h]
  | false => simp [List.filter_cons, h]

theorem evtsPair_comm (t u : Nat) (tr : List IEv) : evtsPair t u tr = evtsPair u t tr := by
  unfold evtsPair
  congr 1
  funext e
  rw [Bool.or_comm]

theorem evtsPair_of_empty_left (t u : Nat) (tr : List IEv) (h : evts t tr = []) :
    evtsPair t u tr = evts u tr := by
  unfold evtsPair evts
  unfold evts at h
  rw [List.filter_eq_nil_iff] at h
  induction tr with
  | nil => rfl
  | cons e tr' ih =>
    have he : (evTid e == some t) = false := by
      have := h e (List.mem_cons_self e tr')
      simpa using this
    have ih' := ih (fun x hx => h x (List.mem_cons_of_mem e hx))
    simp only [List.filter_cons, he, Bool.false_or]
    rw [ih']

end Inject

namespace Inject

theorem lookup_none_not_mem : ∀ (l : List (String × Nat)) (k : String) (p : Nat),
    lookup l k = none → (k, p) ∉ l := by
  intro l
  induction l with
  | nil => intro k p _ h; simp at h
  | cons hd r ih =>
    intro k p hl hmem
    obtain ⟨k2, q⟩ := hd
    unfold lookup at hl
    by_cases hk : k2 = k
    · rw [if_pos hk] at hl
      simp at hl
    · rw [if_neg hk] at hl
      rcases List.mem_cons.mp hmem with heq | h2
      · obtain ⟨h1, -⟩ := Prod.mk.injEq .. ▸ heq
        exact hk h1.symm
      · exact ih k p hl h2

theorem keys_mem {l : List (String × Nat)} {k : String} (h : k ∈ l.map Prod.fst) :
    ∃ p, (k, p) ∈ l := by
  obtain ⟨⟨a, b⟩, hm, he⟩ := List.mem_map.mp h
  exact ⟨b, by simpa [← he] using hm⟩

/-- Inductive invariant of the lock engine. -/
structure Inv (cfg : List CallCfg) (s : St) : Prop where
  len : s.pcs.length = cfg.length
  ownLock : ∀ t c pc p, cfg.get? t = some c → s.pcs.get? t = some pc →
    promOf pc = some p → lookup s.locks c.key = some p
  freshB : ∀ t pc p, s.pcs.get? t = some pc → promOf pc = some p → p < s.fresh
  locksOwned : ∀ k p, lookup s.locks k = some p →
    ∃ t c pc, cfg.get? t = some c ∧ c.key = k ∧ s.pcs.get? t = some pc ∧
      promOf pc = some p
  locksNodup : (s.locks.map Prod.fst).Nodup
  promDis : ∀ t u pct pcu pt pu, t ≠ u → s.pcs.get? t = some pct →
    s.pcs.get? u = some pcu → promOf pct = some pt → promOf pcu = some pu → pt ≠ pu
  unres : ∀ t c, cfg.get? t = some c → c.resolvable = false →
    s.pcs.get? t = some .start ∨ s.pcs.get? t = some .errored
  emitted : ∀ t, evts t s.trace ≠ [] →
    ∃ pc, s.pcs.get? t = some pc ∧ (inCS pc = true ∨ pc = .done)
  countA : ∀ t pc, s.pcs.get? t = some pc →
    (s.trace.filter (isAcqOf t)).length = if inCS pc = true ∨ pc = .done then 1 else 0
  countR : ∀ t pc, s.pcs.get? t = some pc →
    (s.trace.filter (isRelOf t)).length = if pc = .done then 1 else 0
  sep : ∀ t u ct cu, t ≠ u → cfg.get? t = some ct → cfg.get? u = some cu →
    ct.key = cu.key →
    evts t s.trace = [] ∨ evts u s.trace = [] ∨
    (s.pcs.get? t = some .done ∧ Sep t u s.trace) ∨
    (s.pcs.get? u = some .done ∧ Sep u t s.trace)

theorem pcs_init (cfg : List CallCfg) (t : Nat) (pc : TPc)
    (h : (init cfg).pcs.get? t = some pc) : pc = .start := by
  unfold init at h
  simp only at h
  rw [List.get?_eq_getElem?, List.getElem?_map] at h
  cases hg : cfg[t]? with
  | none => rw [hg] at h; simp at h
  | some c => rw [hg] at h; simp at h; exact h.symm

theorem inv_init (cfg : List CallCfg) : Inv cfg (init cfg) := by
  constructor
  · unfold init
    simp
  · intro t c pc p _ hp hpr
    rw [pcs_init cfg t pc hp] at hpr
    simp [promOf] at hpr
  · intro t pc p hp hpr
    rw [pcs_init cfg t pc hp] at hpr
    simp [promOf] at hpr
  · intro k p hl
    simp [init, lookup] at hl
  · simp [init]
  · intro t u pct pcu pt pu _ hpt hpu hprt _
    rw [pcs_init cfg t pct hpt] at hprt
    simp [promOf] at hprt
  · intro t c hc _
    left
    unfold init
    rw [List.get?_eq_getElem?, List.getElem?_map]
    have : t < cfg.length := (List.get?_eq_some.mp hc).1
    rw [List.getElem?_eq_getElem this]
    simp
  · intro t h
    simp [init, evts] at h
  · intro t pc hp
    rw [pcs_init cfg t pc hp]
    simp [init, inCS]
  · intro t pc hp
    rw [pcs_init cfg t pc hp]
    simp [init]
  · intro t u ct cu _ _ _ _
    left
    simp [init, evts]

end Inject

namespace Inject

theorem evts_append_of_ne (t u : Nat) (tr : List IEv) (e : IEv)
    (hte : evTid e = some t) (hne : u ≠ t) : evts u (tr ++ [e]) = evts u tr := by
  rw [evts_append]
  have : (evTid e == some u) = false := by
    rw [hte]
    simp [beq_iff_eq]
    exact fun h => hne h.symm
  rw [this]
  simp

theorem evts_append_of_none (u : Nat) (tr : List IEv) (e : IEv)
    (hte : evTid e = none) : evts u (tr ++ [e]) = evts u tr := by
  rw [evts_append]
  rw [hte]
  simp

theorem evts_append_self (t : Nat) (tr : List IEv) (e : IEv)
    (hte : evTid e = some t) : evts t (tr ++ [e]) = evts t tr ++ [e] := by
  rw [evts_append]
  rw [hte]
  simp

theorem sep_extend_snd (t u : Nat) (tr : List IEv) (e : IEv)
    (hte : evTid e = some t) (hut : u ≠ t) (hsep : Sep u t tr) : Sep u t (tr ++ [e]) := by
  unfold Sep at hsep ⊢
  rw [evtsPair_append, evts_append_self t tr e hte, evts_append_of_ne t u tr e hte hut]
  have hcond : (evTid e == some u || evTid e == some t) = true := by
    rw [hte]
    simp [beq_iff_eq]
  rw [hcond, hsep]
  simp [List.append_assoc]

theorem sep_other (a b t : Nat) (tr : List IEv) (e : IEv)
    (hte : evTid e = some t) (hta : t ≠ a) (htb : t ≠ b) (hsep : Sep a b tr) :
    Sep a b (tr ++ [e]) := by
  unfold Sep at hsep ⊢
  rw [evtsPair_append, evts_append_of_ne t a tr e hte (fun h => hta h.symm),
    evts_append_of_ne t b tr e hte (fun h => htb h.symm)]
  have hcond : (evTid e == some a || evTid e == some b) = false := by
    rw [hte]
    simp [beq_iff_eq]
    exact ⟨hta, htb⟩
  rw [hcond, hsep]
  simp

theorem sep_of_empty_snd (u t : Nat) (tr : List IEv) (h : evts t tr = []) :
    Sep u t tr := by
  unfold Sep
  rw [h, evtsPair_comm, evtsPair_of_empty_left t u tr h]
  simp

end Inject

namespace Inject

theorem promOf_of_inCS {pc : TPc} (h : inCS pc = true) : ∃ p, promOf pc = some p := by
  cases pc <;> simp [inCS] at h <;> simp [promOf]

theorem mutex_of_inCS (cfg : List CallCfg) (s : St) (h : Inv cfg s) (t : Nat)
    (c : CallCfg) (pct : TPc) (pt : Nat) (hc : cfg.get? t = some c)
    (hpt : s.pcs.get? t = some pct) (hprt : promOf pct = some pt) :
    ∀ u cu pcu, u ≠ t → cfg.get? u = some cu → cu.key = c.key →
      s.pcs.get? u = some pcu → inCS pcu = false := by
  intro u cu pcu hu hcu hk hpu
  cases hcs : inCS pcu with
  | false => rfl
  | true =>
    exfalso
    obtain ⟨pu, hpru⟩ := promOf_of_inCS hcs
    have h1 := h.ownLock t c pct pt hc hpt hprt
    have h2 := h.ownLock u cu pcu pu hcu hpu hpru
    rw [hk, h1] at h2
    have heq : pt = pu := by simpa using h2
    exact h.promDis t u pct pcu pt pu (fun hh => hu hh.symm) hpt hpu hprt hpru heq

theorem mutex_of_lookup_none (cfg : List CallCfg) (s : St) (h : Inv cfg s)
    (key : String) (hlk : lookup s.locks key = none) :
    ∀ u cu pcu, cfg.get? u = some cu → cu.key = key →
      s.pcs.get? u = some pcu → inCS pcu = false := by
  intro u cu pcu hcu hk hpu
  cases hcs : inCS pcu with
  | false => rfl
  | true =>
    exfalso
    obtain ⟨pu, hpru⟩ := promOf_of_inCS hcs
    have h2 := h.ownLock u cu pcu pu hcu hpu hpru
    rw [hk, hlk] at h2
    simp at h2

theorem sep_update (cfg : List CallCfg) (s : St) (t : Nat) (c : CallCfg) (e : IEv)
    (h : Inv cfg s) (hc : cfg.get? t = some c) (hte : evTid e = some t)
    (pcnew : TPc)
    (hmutex : ∀ u cu pcu, u ≠ t → cfg.get? u = some cu → cu.key = c.key →
      s.pcs.get? u = some pcu → inCS pcu = false)
    (hnotdone : s.pcs.get? t ≠ some TPc.done) :
    ∀ a b ca cb, a ≠ b → cfg.get? a = some ca → cfg.get? b = some cb →
      ca.key = cb.key →
      evts a (s.trace ++ [e]) = [] ∨ evts b (s.trace ++ [e]) = [] ∨
      ((s.pcs.set t pcnew).get? a = some TPc.done ∧ Sep a b (s.trace ++ [e])) ∨
      ((s.pcs.set t pcnew).get? b = some TPc.done ∧ Sep b a (s.trace ++ [e])) := by
  intro a b ca cb hab hca hcb hkey
  by_cases hat : a = t
  · subst hat
    have hcac : ca = c := by
      rw [hc] at hca
      simpa using hca.symm
    have hbta : b ≠ a := fun hh => hab hh.symm
    by_cases hub : evts b s.trace = []
    · right; left
      rw [evts_append_of_ne a b s.trace e hte hbta]
      exact hub
    · obtain ⟨pcb, hpcb, hcsb⟩ := h.emitted b hub
      have hncs : inCS pcb = false :=
        hmutex b cb pcb hbta hcb (by rw [← hcac, ← hkey]) hpcb
      have hbdone : pcb = TPc.done := by
        rcases hcsb with h1 | h1
        · rw [hncs] at h1
          exact absurd h1 (by simp)
        · exact h1
      right; right; right
      constructor
      · rw [get?_set_ne _ _ _ _ hbta, hpcb, hbdone]
      · have hsep_pre : Sep b a s.trace := by
          rcases h.sep a b ca cb hab hca hcb hkey with h1 | h1 | h1 | h1
          · exact sep_of_empty_snd b a s.trace h1
          · exact absurd h1 hub
          · exact absurd h1.1 hnotdone
          · exact h1.2
        exact sep_extend_snd a b s.trace e hte hbta hsep_pre
  · by_cases hbt : b = t
    · subst hbt
      have hcbc : cb = c := by
        rw [hc] at hcb
        simpa using hcb.symm
      have hatb : a ≠ b := hab
      by_cases hua : evts a s.trace = []
      · left
        rw [evts_append_of_ne b a s.trace e hte hat]
        exact hua
      · obtain ⟨pca, hpca, hcsa⟩ := h.emitted a hua
        have hncs : inCS pca = false :=
          hmutex a ca pca hat hca (by rw [← hcbc]; exact hkey) hpca
        have hadone : pca = TPc.done := by
          rcases hcsa with h1 | h1
          · rw [hncs] at h1
            exact absurd h1 (by simp)
          · exact h1
        right; right; left
        constructor
        · rw [get?_set_ne _ _ _ _ hat, hpca, hadone]
        · have hsep_pre : Sep a b s.trace := by
            rcases h.sep a b ca cb hab hca hcb hkey with h1 | h1 | h1 | h1
            · exact absurd h1 hua
            · exact sep_of_empty_snd a b s.trace h1
            · exact h1.2
            · exact absurd h1.1 hnotdone
          exact sep_extend_snd b a s.trace e hte hat hsep_pre
    · rcases h.sep a b ca cb hab hca hcb hkey with h1 | h1 | h1 | h1
      · left
        rw [evts_append_of_ne t a s.trace e hte hat]
        exact h1
      · right; left
        rw [evts_append_of_ne t b s.trace e hte hbt]
        exact h1
      · right; right; left
        exact ⟨by rw [get?_set_ne _ _ _ _ hat]; exact h1.1,
          sep_other a b t s.trace e hte (fun hh => hat hh.symm) (fun hh => hbt hh.symm) h1.2⟩
      · right; right; right
        exact ⟨by rw [get?_set_ne _ _ _ _ hbt]; exact h1.1,
          sep_other b a t s.trace e hte (fun hh => hbt hh.symm) (fun hh => hat hh.symm) h1.2⟩

end Inject

namespace Inject

theorem sep_extend_none (a b : Nat) (tr : List IEv) (e : IEv)
    (hte : evTid e = none) (hsep : Sep a b tr) : Sep a b (tr ++ [e]) := by
  unfold Sep at hsep ⊢
  rw [evtsPair_append, evts_append_of_none a tr e hte, evts_append_of_none b tr e hte]
  rw [hte, hsep]
  simp

theorem pcs_lt {s : St} {t : Nat} {pc : TPc} (hp : s.pcs.get? t = some pc) :
    t < s.pcs.length :=
  (List.get?_eq_some.mp hp).1

theorem inv_wait (cfg : List CallCfg) (s : St) (t : Nat) (c : CallCfg) (p : Nat)
    (h : Inv cfg s) (hc : cfg.get? t = some c) (hres : c.resolvable = true)
    (hp : s.pcs.get? t = some TPc.start) :
    Inv cfg { s with pcs := s.pcs.set t (TPc.waiting p) } := by
  have hlt := pcs_lt hp
  constructor
  · simp only [List.length_set]
    exact h.len
  · intro u cu pcu pu hcu hpu hpr
    by_cases hu : u = t
    · subst hu
      rw [get?_set_self _ _ _ hlt] at hpu
      obtain rfl : pcu = TPc.waiting p := by simpa using hpu.symm
      simp [promOf] at hpr
    · rw [get?_set_ne _ _ _ _ hu] at hpu
      exact h.ownLock u cu pcu pu hcu hpu hpr
  · intro u pcu pu hpu hpr
    by_cases hu : u = t
    · subst hu
      rw [get?_set_self _ _ _ hlt] at hpu
      obtain rfl : pcu = TPc.waiting p := by simpa using hpu.symm
      simp [promOf] at hpr
    · rw [get?_set_ne _ _ _ _ hu] at hpu
      exact h.freshB u pcu pu hpu hpr
  · intro k q hl
    obtain ⟨t', c', pc', hc', hk', hp', hpr'⟩ := h.locksOwned k q hl
    have ht' : t' ≠ t := by
      intro hh
      subst hh
      rw [hp] at hp'
      obtain rfl : pc' = TPc.start := by simpa using hp'.symm
      simp [promOf] at hpr'
    exact ⟨t', c', pc', hc', hk', by rw [get?_set_ne _ _ _ _ ht']; exact hp', hpr'⟩
  · exact h.locksNodup
  · intro a b pca pcb pa pb hab hpa hpb hpra hprb
    by_cases ha : a = t
    · subst ha
      rw [get?_set_self _ _ _ hlt] at hpa
      obtain rfl : pca = TPc.waiting p := by simpa using hpa.symm
      simp [promOf] at hpra
    · by_cases hb : b = t
      · subst hb
        rw [get?_set_self _ _ _ hlt] at hpb
        obtain rfl : pcb = TPc.waiting p := by simpa using hpb.symm
        simp [promOf] at hprb
      · rw [get?_set_ne _ _ _ _ ha] at hpa
        rw [get?_set_ne _ _ _ _ hb] at hpb
        exact h.promDis a b pca pcb pa pb hab hpa hpb hpra hprb
  · intro u cu hcu hru
    by_cases hu : u = t
    · subst hu
      rw [hc] at hcu
      obtain rfl : cu = c := by simpa using hcu.symm
      rw [hres] at hru
      simp at hru
    · rw [get?_set_ne _ _ _ _ hu]
      exact h.unres u cu hcu hru
  · intro u hne
    obtain ⟨pc', hpc', hcs⟩ := h.emitted u hne
    by_cases hu : u = t
    · subst hu
      rw [hp] at hpc'
      obtain rfl : pc' = TPc.start := by simpa using hpc'.symm
      simp [inCS] at hcs
    · exact ⟨pc', by rw [get?_set_ne _ _ _ _ hu]; exact hpc', hcs⟩
  · intro u pcu hpu
    by_cases hu : u = t
    · subst hu
      rw [get?_set_self _ _ _ hlt] at hpu
      obtain rfl : pcu = TPc.waiting p := by simpa using hpu.symm
      have := h.countA u TPc.start hp
      simpa [inCS] using this
    · rw [get?_set_ne _ _ _ _ hu] at hpu
      exact h.countA u pcu hpu
  · intro u pcu hpu
    by_cases hu : u = t
    · subst hu
      rw [get?_set_self _ _ _ hlt] at hpu
      obtain rfl : pcu = TPc.waiting p := by simpa using hpu.symm
      have := h.countR u TPc.start hp
      simpa using this
    · rw [get?_set_ne _ _ _ _ hu] at hpu
      exact h.countR u pcu hpu
  · intro a b ca cb hab hca hcb hkey
    rcases h.sep a b ca cb hab hca hcb hkey with h1 | h1 | h1 | h1
    · exact Or.inl h1
    · exact Or.inr (Or.inl h1)
    · refine Or.inr (Or.inr (Or.inl ⟨?_, h1.2⟩))
      have ha : a ≠ t := by
        intro hh
        subst hh
        rw [hp] at h1
        simp at h1
      rw [get?_set_ne _ _ _ _ ha]
      exact h1.1
    · refine Or.inr (Or.inr (Or.inr ⟨?_, h1.2⟩))
      have hb : b ≠ t := by
        intro hh
        subst hh
        rw [hp] at h1
        simp at h1
      rw [get?_set_ne _ _ _ _ hb]
      exact h1.1

end Inject

namespace Inject

theorem inv_retarget (cfg : List CallCfg) (s : St) (t : Nat) (c : CallCfg)
    (pcold pcnew : TPc) (h : Inv cfg s) (hc : cfg.get? t = some c)
    (hp : s.pcs.get? t = some pcold)
    (hprom : promOf pcnew = promOf pcold)
    (hcs : inCS pcnew = inCS pcold)
    (hdone_new : pcnew ≠ TPc.done) (hdone_old : pcold ≠ TPc.done)
    (hunres : c.resolvable = false → pcnew = TPc.start ∨ pcnew = TPc.errored) :
    Inv cfg { s with pcs := s.pcs.set t pcnew } := by
  have hlt := pcs_lt hp
  constructor
  · simp only [List.length_set]
    exact h.len
  · intro u cu pcu pu hcu hpu hpr
    by_cases hu : u = t
    · subst hu
      rw [get?_set_self _ _ _ hlt] at hpu
      have hpe : pcu = pcnew := by simpa using hpu.symm
      rw [hpe, hprom] at hpr
      exact h.ownLock u cu pcold pu hcu hp hpr
    · rw [get?_set_ne _ _ _ _ hu] at hpu
      exact h.ownLock u cu pcu pu hcu hpu hpr
  · intro u pcu pu hpu hpr
    by_cases hu : u = t
    · subst hu
      rw [get?_set_self _ _ _ hlt] at hpu
      have hpe : pcu = pcnew := by simpa using hpu.symm
      rw [hpe, hprom] at hpr
      exact h.freshB u pcold pu hp hpr
    · rw [get?_set_ne _ _ _ _ hu] at hpu
      exact h.freshB u pcu pu hpu hpr
  · intro k q hl
    obtain ⟨t', c', pc', hc', hk', hp', hpr'⟩ := h.locksOwned k q hl
    by_cases ht' : t' = t
    · subst ht'
      rw [hp] at hp'
      have hpe : pc' = pcold := by simpa using hp'.symm
      rw [hpe] at hpr'
      refine ⟨t', c', pcnew, hc', hk', by rw [get?_set_self _ _ _ hlt], ?_⟩
      rw [hprom]
      exact hpr'
    · exact ⟨t', c', pc', hc', hk', by rw [get?_set_ne _ _ _ _ ht']; exact hp', hpr'⟩
  · exact h.locksNodup
  · intro a b pca pcb pa pb hab hpa hpb hpra hprb
    by_cases ha : a = t
    · by_cases hb : b = t
      · exact absurd (ha.trans hb.symm) hab
      · subst ha
        rw [get?_set_self _ _ _ hlt] at hpa
        have hpe : pca = pcnew := by simpa using hpa.symm
        rw [hpe, hprom] at hpra
        rw [get?_set_ne _ _ _ _ hb] at hpb
        exact h.promDis a b pcold pcb pa pb hab hp hpb hpra hprb
    · rw [get?_set_ne _ _ _ _ ha] at hpa
      by_cases hb : b = t
      · subst hb
        rw [get?_set_self _ _ _ hlt] at hpb
        have hpe : pcb = pcnew := by simpa using hpb.symm
        rw [hpe, hprom] at hprb
        exact h.promDis a b pca pcold pa pb hab hpa hp hpra hprb
      · rw [get?_set_ne _ _ _ _ hb] at hpb
        exact h.promDis a b pca pcb pa pb hab hpa hpb hpra hprb
  · intro u cu hcu hru
    by_cases hu : u = t
    · subst hu
      rw [hc] at hcu
      have hce : cu = c := by simpa using hcu.symm
      rw [hce] at hru
      rcases hunres hru with h1 | h1
      · left
        rw [get?_set_self _ _ _ hlt, h1]
      · right
        rw [get?_set_self _ _ _ hlt, h1]
    · rw [get?_set_ne _ _ _ _ hu]
      exact h.unres u cu hcu hru
  · intro u hne
    obtain ⟨pc', hpc', hcs'⟩ := h.emitted u hne
    by_cases hu : u = t
    · subst hu
      rw [hp] at hpc'
      have hpe : pc' = pcold := by simpa using hpc'.symm
      rw [hpe] at hcs'
      refine ⟨pcnew, by rw [get?_set_self _ _ _ hlt], ?_⟩
      left
      rw [hcs]
      rcases hcs' with h1 | h1
      · exact h1
      · exact absurd h1 hdone_old
    · exact ⟨pc', by rw [get?_set_ne _ _ _ _ hu]; exact hpc', hcs'⟩
  · intro u pcu hpu
    by_cases hu : u = t
    · subst hu
      rw [get?_set_self _ _ _ hlt] at hpu
      have hpe : pcu = pcnew := by simpa using hpu.symm
      rw [hpe]
      have hpre := h.countA u pcold hp
      rw [hpre]
      have hiff : (inCS pcnew = true ∨ pcnew = TPc.done) ↔
          (inCS pcold = true ∨ pcold = TPc.done) := by
        constructor
        · intro hx
          rcases hx with hx | hx
          · left
            rw [← hcs]
            exact hx
          · exact absurd hx hdone_new
        · intro hx
          rcases hx with hx | hx
          · left
            rw [hcs]
            exact hx
          · exact absurd hx hdone_old
      rw [if_congr hiff rfl rfl]
    · rw [get?_set_ne _ _ _ _ hu] at hpu
      exact h.countA u pcu hpu
  · intro u pcu hpu
    by_cases hu : u = t
    · subst hu
      rw [get?_set_self _ _ _ hlt] at hpu
      have hpe : pcu = pcnew := by simpa using hpu.symm
      rw [hpe]
      have hpre := h.countR u pcold hp
      rw [hpre]
      have hiff : (pcnew = TPc.done) ↔ (pcold = TPc.done) := by
        constructor
        · intro hx
          exact absurd hx hdone_new
        · intro hx
          exact absurd hx hdone_old
      rw [if_congr hiff rfl rfl]
    · rw [get?_set_ne _ _ _ _ hu] at hpu
      exact h.countR u pcu hpu
  · intro a b ca cb hab hca hcb hkey
    rcases h.sep a b ca cb hab hca hcb hkey with h1 | h1 | h1 | h1
    · exact Or.inl h1
    · exact Or.inr (Or.inl h1)
    · refine Or.inr (Or.inr (Or.inl ⟨?_, h1.2⟩))
      have ha : a ≠ t := by
        intro hh
        subst hh
        obtain ⟨h11, -⟩ := h1
        rw [hp] at h11
        have : pcold = TPc.done := by simpa using h11
        exact hdone_old this
      rw [get?_set_ne _ _ _ _ ha]
      exact h1.1
    · refine Or.inr (Or.inr (Or.inr ⟨?_, h1.2⟩))
      have hb : b ≠ t := by
        intro hh
        subst hh
        obtain ⟨h11, -⟩ := h1
        rw [hp] at h11
        have : pcold = TPc.done := by simpa using h11
        exact hdone_old this
      rw [get?_set_ne _ _ _ _ hb]
      exact h1.1

theorem filter_append_false {α : Type} (f : α → Bool) (tr : List α) (e : α)
    (hf : f e = false) : (tr ++ [e]).filter f = tr.filter f := by
  rw [List.filter_append]
  simp [List.filter_cons, hf]

theorem inv_append_noneEv (cfg : List CallCfg) (s : St) (e : IEv) (h : Inv cfg s)
    (hte : evTid e = none)
    (hA : ∀ u, isAcqOf u e = false) (hR : ∀ u, isRelOf u e = false) :
    Inv cfg { s with trace := s.trace ++ [e] } := by
  constructor
  · exact h.len
  · exact h.ownLock
  · exact h.freshB
  · exact h.locksOwned
  · exact h.locksNodup
  · exact h.promDis
  · exact h.unres
  · intro u hne
    rw [evts_append_of_none u s.trace e hte] at hne
    exact h.emitted u hne
  · intro u pcu hpu
    show ((s.trace ++ [e]).filter (isAcqOf u)).length = _
    rw [filter_append_false _ _ _ (hA u)]
    exact h.countA u pcu hpu
  · intro u pcu hpu
    show ((s.trace ++ [e]).filter (isRelOf u)).length = _
    rw [filter_append_false _ _ _ (hR u)]
    exact h.countR u pcu hpu
  · intro a b ca cb hab hca hcb hkey
    rcases h.sep a b ca cb hab hca hcb hkey with h1 | h1 | h1 | h1
    · left
      rw [evts_append_of_none a s.trace e hte]
      exact h1
    · right; left
      rw [evts_append_of_none b s.trace e hte]
      exact h1
    · exact Or.inr (Or.inr (Or.inl ⟨h1.1, sep_extend_none a b s.trace e hte h1.2⟩))
    · exact Or.inr (Or.inr (Or.inr ⟨h1.1, sep_extend_none b a s.trace e hte h1.2⟩))

end Inject

namespace Inject

theorem inCS_body (i p : Nat) : inCS (TPc.body i p) = true := rfl

theorem inCS_closing (p : Nat) : inCS (TPc.closing p) = true := rfl

theorem evTid_effect (t : Nat) (k : String) (i : Nat) :
    evTid (effectEv t k i) = some t := by
  rcases i with _ | _ | _ | i <;> rfl

theorem isAcqOf_effect (u t : Nat) (k : String) (i : Nat) :
    isAcqOf u (effectEv t k i) = false := by
  rcases i with _ | _ | _ | i <;> rfl

theorem isRelOf_effect (u t : Nat) (k : String) (i : Nat) :
    isRelOf u (effectEv t k i) = false := by
  rcases i with _ | _ | _ | i <;> rfl

theorem isAcqOf_acquired_self (t : Nat) (k : String) :
    isAcqOf t (IEv.acquired t k) = true := by
  simp [isAcqOf]

theorem isAcqOf_acquired_ne (u t : Nat) (k : String) (h : u ≠ t) :
    isAcqOf u (IEv.acquired t k) = false := by
  simp [isAcqOf]
  exact fun hh => h hh.symm

theorem isRelOf_released_self (t : Nat) (k : String) :
    isRelOf t (IEv.released t k) = true := by
  simp [isRelOf]

theorem isRelOf_released_ne (u t : Nat) (k : String) (h : u ≠ t) :
    isRelOf u (IEv.released t k) = false := by
  simp [isRelOf]
  exact fun hh => h hh.symm

theorem isAcqOf_released (u t : Nat) (k : String) :
    isAcqOf u (IEv.released t k) = false := rfl

theorem isRelOf_acquired (u t : Nat) (k : String) :
    isRelOf u (IEv.acquired t k) = false := rfl

theorem filter_append_true {α : Type} (f : α → Bool) (tr : List α) (e : α)
    (hf : f e = true) :
    ((tr ++ [e]).filter f).length = (tr.filter f).length + 1 := by
  rw [List.filter_append]
  simp [List.filter_cons, hf]

theorem inv_effect (cfg : List CallCfg) (s : St) (t : Nat) (c : CallCfg)
    (i p : Nat) (pcnext : TPc) (h : Inv cfg s) (hc : cfg.get? t = some c)
    (hp : s.pcs.get? t = some (TPc.body i p))
    (hprom : promOf pcnext = some p) (hcsn : inCS pcnext = true)
    (hdn : pcnext ≠ TPc.done) :
    Inv cfg { s with
      pcs := s.pcs.set t pcnext
      trace := s.trace ++ [effectEv t c.key i] } := by
  have hlt := pcs_lt hp
  have hte := evTid_effect t c.key i
  constructor
  · simp only [List.length_set]
    exact h.len
  · intro u cu pcu pu hcu hpu hpr
    by_cases hu : u = t
    · subst hu
      rw [get?_set_self _ _ _ hlt] at hpu
      have hpe : pcu = pcnext := by simpa using hpu.symm
      rw [hpe, hprom] at hpr
      have hpp : pu = p := by simpa using hpr.symm
      subst hpp
      exact h.ownLock u cu (TPc.body i pu) pu hcu hp rfl
    · rw [get?_set_ne _ _ _ _ hu] at hpu
      exact h.ownLock u cu pcu pu hcu hpu hpr
  · intro u pcu pu hpu hpr
    by_cases hu : u = t
    · subst hu
      rw [get?_set_self _ _ _ hlt] at hpu
      have hpe : pcu = pcnext := by simpa using hpu.symm
      rw [hpe, hprom] at hpr
      have hpp : pu = p := by simpa using hpr.symm
      subst hpp
      exact h.freshB u (TPc.body i pu) pu hp rfl
    · rw [get?_set_ne _ _ _ _ hu] at hpu
      exact h.freshB u pcu pu hpu hpr
  · intro k q hl
    obtain ⟨t', c', pc', hc', hk', hp', hpr'⟩ := h.locksOwned k q hl
    by_cases ht' : t' = t
    · subst ht'
      rw [hp] at hp'
      have hpe : pc' = TPc.body i p := by simpa using hp'.symm
      rw [hpe] at hpr'
      have hq : q = p := by simpa [promOf] using hpr'.symm
      refine ⟨t', c', pcnext, hc', hk', by rw [get?_set_self _ _ _ hlt], ?_⟩
      rw [hprom, hq]
    · exact ⟨t', c', pc', hc', hk', by rw [get?_set_ne _ _ _ _ ht']; exact hp', hpr'⟩
  · exact h.locksNodup
  · intro a b pca pcb pa pb hab hpa hpb hpra hprb
    by_cases ha : a = t
    · by_cases hb : b = t
      · exact absurd (ha.trans hb.symm) hab
      · subst ha
        rw [get?_set_self _ _ _ hlt] at hpa
        have hpe : pca = pcnext := by simpa using hpa.symm
        rw [hpe, hprom] at hpra
        have hpp : pa = p := by simpa using hpra.symm
        rw [get?_set_ne _ _ _ _ hb] at hpb
        exact h.promDis a b (TPc.body i p) pcb pa pb hab hp hpb (by rw [hpp]; rfl) hprb
    · rw [get?_set_ne _ _ _ _ ha] at hpa
      by_cases hb : b = t
      · subst hb
        rw [get?_set_self _ _ _ hlt] at hpb
        have hpe : pcb = pcnext := by simpa using hpb.symm
        rw [hpe, hprom] at hprb
        have hpp : pb = p := by simpa using hprb.symm
        exact h.promDis a b pca (TPc.body i p) pa pb hab hpa hp hpra (by rw [hpp]; rfl)
      · rw [get?_set_ne _ _ _ _ hb] at hpb
        exact h.promDis a b pca pcb pa pb hab hpa hpb hpra hprb
  · intro u cu hcu hru
    by_cases hu : u = t
    · subst hu
      rcases h.unres u cu hcu hru with h1 | h1 <;>
        · rw [hp] at h1
          simp at h1
    · rw [get?_set_ne _ _ _ _ hu]
      exact h.unres u cu hcu hru
  · intro u hne
    by_cases hu : u = t
    · subst hu
      refine ⟨pcnext, by rw [get?_set_self _ _ _ hlt], Or.inl hcsn⟩
    · rw [evts_append_of_ne t u s.trace _ hte hu] at hne
      obtain ⟨pc', hpc', hcs'⟩ := h.emitted u hne
      exact ⟨pc', by rw [get?_set_ne _ _ _ _ hu]; exact hpc', hcs'⟩
  · intro u pcu hpu
    show ((s.trace ++ [effectEv t c.key i]).filter (isAcqOf u)).length = _
    rw [filter_append_false _ _ _ (isAcqOf_effect u t c.key i)]
    by_cases hu : u = t
    · subst hu
      rw [get?_set_self _ _ _ hlt] at hpu
      have hpe : pcu = pcnext := by simpa using hpu.symm
      rw [hpe]
      have hpre := h.countA u (TPc.body i p) hp
      rw [hpre]
      rw [if_pos (Or.inl (inCS_body i p)), if_pos (Or.inl hcsn)]
    · rw [get?_set_ne _ _ _ _ hu] at hpu
      exact h.countA u pcu hpu
  · intro u pcu hpu
    show ((s.trace ++ [effectEv t c.key i]).filter (isRelOf u)).length = _
    rw [filter_append_false _ _ _ (isRelOf_effect u t c.key i)]
    by_cases hu : u = t
    · subst hu
      rw [get?_set_self _ _ _ hlt] at hpu
      have hpe : pcu = pcnext := by simpa using hpu.symm
      rw [hpe]
      have hpre := h.countR u (TPc.body i p) hp
      rw [hpre]
      have hiff : (pcnext = TPc.done) ↔ (TPc.body i p = TPc.done) := by
        constructor
        · intro hx
          exact absurd hx hdn
        · intro hx
          simp at hx
      rw [if_congr hiff rfl rfl]
    · rw [get?_set_ne _ _ _ _ hu] at hpu
      exact h.countR u pcu hpu
  · exact sep_update cfg s t c (effectEv t c.key i) h hc hte pcnext
      (mutex_of_inCS cfg s h t c (TPc.body i p) p hc hp rfl)
      (by rw [hp]; simp)

end Inject

namespace Inject

theorem inv_acquire (cfg : List CallCfg) (s : St) (t : Nat) (c : CallCfg)
    (h : Inv cfg s) (hc : cfg.get? t = some c) (hres : c.resolvable = true)
    (hp : s.pcs.get? t = some TPc.start)
    (hlk : lookup s.locks c.key = none) :
    Inv cfg { s with
      locks := (c.key, s.fresh) :: s.locks
      cur := some s.fresh
      fresh := s.fresh + 1
      pcs := s.pcs.set t (TPc.body 0 s.fresh)
      trace := s.trace ++ [IEv.acquired t c.key] } := by
  have hlt := pcs_lt hp
  have hte : evTid (IEv.acquired t c.key) = some t := rfl
  constructor
  · simp only [List.length_set]
    exact h.len
  · intro u cu pcu pu hcu hpu hpr
    by_cases hu : u = t
    · subst hu
      rw [get?_set_self _ _ _ hlt] at hpu
      have hpe : pcu = TPc.body 0 s.fresh := by simpa using hpu.symm
      rw [hpe] at hpr
      have hpp : pu = s.fresh := by simpa [promOf] using hpr.symm
      have hcc : cu = c := by
        rw [hc] at hcu
        simpa using hcu.symm
      rw [hcc, hpp]
      show (if c.key = c.key then some s.fresh else lookup s.locks c.key) = some s.fresh
      rw [if_pos rfl]
    · rw [get?_set_ne _ _ _ _ hu] at hpu
      have hpre := h.ownLock u cu pcu pu hcu hpu hpr
      show (if c.key = cu.key then some s.fresh else lookup s.locks cu.key) = some pu
      by_cases hkk : c.key = cu.key
      · exfalso
        rw [← hkk] at hpre
        rw [hlk] at hpre
        simp at hpre
      · rw [if_neg hkk]
        exact hpre
  · intro u pcu pu hpu hpr
    by_cases hu : u = t
    · subst hu
      rw [get?_set_self _ _ _ hlt] at hpu
      have hpe : pcu = TPc.body 0 s.fresh := by simpa using hpu.symm
      rw [hpe] at hpr
      have hpp : pu = s.fresh := by simpa [promOf] using hpr.symm
      rw [hpp]
      show s.fresh < s.fresh + 1
      omega
    · rw [get?_set_ne _ _ _ _ hu] at hpu
      have := h.freshB u pcu pu hpu hpr
      show pu < s.fresh + 1
      omega
  · intro k q hl
    have hl' : (if c.key = k then some s.fresh else lookup s.locks k) = some q := hl
    by_cases hkk : c.key = k
    · rw [if_pos hkk] at hl'
      have hq : q = s.fresh := by simpa using hl'.symm
      refine ⟨t, c, TPc.body 0 s.fresh, hc, hkk, by rw [get?_set_self _ _ _ hlt], ?_⟩
      rw [hq]
      rfl
    · rw [if_neg hkk] at hl'
      obtain ⟨t', c', pc', hc', hk', hp', hpr'⟩ := h.locksOwned k q hl'
      have ht' : t' ≠ t := by
        intro hh
        subst hh
        rw [hp] at hp'
        have : pc' = TPc.start := by simpa using hp'.symm
        rw [this] at hpr'
        simp [promOf] at hpr'
      exact ⟨t', c', pc', hc', hk', by rw [get?_set_ne _ _ _ _ ht']; exact hp', hpr'⟩
  · simp only [List.map_cons]
    rw [List.nodup_cons]
    constructor
    · intro hmem
      obtain ⟨q, hq⟩ := keys_mem hmem
      exact lookup_none_not_mem s.locks c.key q hlk hq
    · exact h.locksNodup
  · intro a b pca pcb pa pb hab hpa hpb hpra hprb
    by_cases ha : a = t
    · by_cases hb : b = t
      · exact absurd (ha.trans hb.symm) hab
      · subst ha
        rw [get?_set_self _ _ _ hlt] at hpa
        have hpe : pca = TPc.body 0 s.fresh := by simpa using hpa.symm
        rw [hpe] at hpra
        have hpp : pa = s.fresh := by simpa [promOf] using hpra.symm
        rw [get?_set_ne _ _ _ _ hb] at hpb
        have := h.freshB b pcb pb hpb hprb
        omega
    · rw [get?_set_ne _ _ _ _ ha] at hpa
      by_cases hb : b = t
      · subst hb
        rw [get?_set_self _ _ _ hlt] at hpb
        have hpe : pcb = TPc.body 0 s.fresh := by simpa using hpb.symm
        rw [hpe] at hprb
        have hpp : pb = s.fresh := by simpa [promOf] using hprb.symm
        have := h.freshB a pca pa hpa hpra
        omega
      · rw [get?_set_ne _ _ _ _ hb] at hpb
        exact h.promDis a b pca pcb pa pb hab hpa hpb hpra hprb
  · intro u cu hcu hru
    by_cases hu : u = t
    · subst hu
      rw [hc] at hcu
      have hcc : cu = c := by simpa using hcu.symm
      rw [hcc, hres] at hru
      simp at hru
    · rw [get?_set_ne _ _ _ _ hu]
      exact h.unres u cu hcu hru
  · intro u hne
    by_cases hu : u = t
    · subst hu
      exact ⟨TPc.body 0 s.fresh, by rw [get?_set_self _ _ _ hlt], Or.inl rfl⟩
    · rw [evts_append_of_ne t u s.trace _ hte hu] at hne
      obtain ⟨pc', hpc', hcs'⟩ := h.emitted u hne
      exact ⟨pc', by rw [get?_set_ne _ _ _ _ hu]; exact hpc', hcs'⟩
  · intro u pcu hpu
    show ((s.trace ++ [IEv.acquired t c.key]).filter (isAcqOf u)).length = _
    by_cases hu : u = t
    · subst hu
      rw [get?_set_self _ _ _ hlt] at hpu
      have hpe : pcu = TPc.body 0 s.fresh := by simpa using hpu.symm
      rw [hpe]
      rw [filter_append_true _ _ _ (isAcqOf_acquired_self u c.key)]
      have hpre := h.countA u TPc.start hp
      rw [hpre]
      rw [if_neg (by simp [inCS]), if_pos (Or.inl (inCS_body 0 s.fresh))]
    · rw [filter_append_false _ _ _ (isAcqOf_acquired_ne u t c.key hu)]
      rw [get?_set_ne _ _ _ _ hu] at hpu
      exact h.countA u pcu hpu
  · intro u pcu hpu
    show ((s.trace ++ [IEv.acquired t c.key]).filter (isRelOf u)).length = _
    rw [filter_append_false _ _ _ (isRelOf_acquired u t c.key)]
    by_cases hu : u = t
    · subst hu
      rw [get?_set_self _ _ _ hlt] at hpu
      have hpe : pcu = TPc.body 0 s.fresh := by simpa using hpu.symm
      rw [hpe]
      have hpre := h.countR u TPc.start hp
      rw [hpre]
      rw [if_neg (by simp), if_neg (by simp)]
    · rw [get?_set_ne _ _ _ _ hu] at hpu
      exact h.countR u pcu hpu
  · exact sep_update cfg s t c (IEv.acquired t c.key) h hc hte (TPc.body 0 s.fresh)
      (fun u cu pcu _ hcu hk hpu =>
        mutex_of_lookup_none cfg s h c.key hlk u cu pcu hcu hk hpu)
      (by rw [hp]; simp)

end Inject

namespace Inject

theorem inv_close (cfg : List CallCfg) (s : St) (t : Nat) (c : CallCfg) (p : Nat)
    (h : Inv cfg s) (hc : cfg.get? t = some c)
    (hp : s.pcs.get? t = some (TPc.closing p)) :
    Inv cfg { s with
      locks := erase s.locks c.key
      cur := none
      resolved := match s.cur with
        | some q => q :: s.resolved
        | none => s.resolved
      pcs := s.pcs.set t TPc.done
      trace := s.trace ++ [IEv.released t c.key] } := by
  have hlt := pcs_lt hp
  have hte : evTid (IEv.released t c.key) = some t := rfl
  have hown := h.ownLock t c (TPc.closing p) p hc hp rfl
  constructor
  · simp only [List.length_set]
    exact h.len
  · intro u cu pcu pu hcu hpu hpr
    by_cases hu : u = t
    · subst hu
      rw [get?_set_self _ _ _ hlt] at hpu
      have hpe : pcu = TPc.done := by simpa using hpu.symm
      rw [hpe] at hpr
      simp [promOf] at hpr
    · rw [get?_set_ne _ _ _ _ hu] at hpu
      have hpre := h.ownLock u cu pcu pu hcu hpu hpr
      by_cases hkk : cu.key = c.key
      · exfalso
        rw [hkk] at hpre
        rw [hown] at hpre
        have hppu : p = pu := by simpa using hpre
        exact h.promDis t u (TPc.closing p) pcu p pu (fun hh => hu hh.symm) hp hpu rfl
          hpr hppu
      · rw [lookup_erase_ne s.locks c.key cu.key hkk]
        exact hpre
  · intro u pcu pu hpu hpr
    by_cases hu : u = t
    · subst hu
      rw [get?_set_self _ _ _ hlt] at hpu
      have hpe : pcu = TPc.done := by simpa using hpu.symm
      rw [hpe] at hpr
      simp [promOf] at hpr
    · rw [get?_set_ne _ _ _ _ hu] at hpu
      show pu < s.fresh
      exact h.freshB u pcu pu hpu hpr
  · intro k q hl
    have hl' : lookup (erase s.locks c.key) k = some q := hl
    by_cases hkk : k = c.key
    · exfalso
      rw [hkk] at hl'
      rw [lookup_erase_self s.locks c.key h.locksNodup] at hl'
      simp at hl'
    · rw [lookup_erase_ne s.locks c.key k (fun hh => hkk hh)] at hl'
      obtain ⟨t', c', pc', hc', hk', hp', hpr'⟩ := h.locksOwned k q hl'
      have ht' : t' ≠ t := by
        intro hh
        subst hh
        rw [hc] at hc'
        have hcc : c' = c := by simpa using hc'.symm
        rw [hcc] at hk'
        exact hkk (hk'.symm)
      exact ⟨t', c', pc', hc', hk', by rw [get?_set_ne _ _ _ _ ht']; exact hp', hpr'⟩
  · exact (erase_keys_sublist s.locks c.key).nodup h.locksNodup
  · intro a b pca pcb pa pb hab hpa hpb hpra hprb
    by_cases ha : a = t
    · subst ha
      rw [get?_set_self _ _ _ hlt] at hpa
      have hpe : pca = TPc.done := by simpa using hpa.symm
      rw [hpe] at hpra
      simp [promOf] at hpra
    · rw [get?_set_ne _ _ _ _ ha] at hpa
      by_cases hb : b = t
      · subst hb
        rw [get?_set_self _ _ _ hlt] at hpb
        have hpe : pcb = TPc.done := by simpa using hpb.symm
        rw [hpe] at hprb
        simp [promOf] at hprb
      · rw [get?_set_ne _ _ _ _ hb] at hpb
        exact h.promDis a b pca pcb pa pb hab hpa hpb hpra hprb
  · intro u cu hcu hru
    by_cases hu : u = t
    · subst hu
      rcases h.unres u cu hcu hru with h1 | h1 <;>
        · rw [hp] at h1
          simp at h1
    · rw [get?_set_ne _ _ _ _ hu]
      exact h.unres u cu hcu hru
  · intro u hne
    by_cases hu : u = t
    · subst hu
      exact ⟨TPc.done, by rw [get?_set_self _ _ _ hlt], Or.inr rfl⟩
    · rw [evts_append_of_ne t u s.trace _ hte hu] at hne
      obtain ⟨pc', hpc', hcs'⟩ := h.emitted u hne
      exact ⟨pc', by rw [get?_set_ne _ _ _ _ hu]; exact hpc', hcs'⟩
  · intro u pcu hpu
    show ((s.trace ++ [IEv.released t c.key]).filter (isAcqOf u)).length = _
    rw [filter_append_false _ _ _ (isAcqOf_released u t c.key)]
    by_cases hu : u = t
    · subst hu
      rw [get?_set_self _ _ _ hlt] at hpu
      have hpe : pcu = TPc.done := by simpa using hpu.symm
      rw [hpe]
      have hpre := h.countA u (TPc.closing p) hp
      rw [hpre]
      rw [if_pos (Or.inl (inCS_closing p)), if_pos (Or.inr rfl)]
    · rw [get?_set_ne _ _ _ _ hu] at hpu
      exact h.countA u pcu hpu
  · intro u pcu hpu
    show ((s.trace ++ [IEv.released t c.key]).filter (isRelOf u)).length = _
    by_cases hu : u = t
    · subst hu
      rw [get?_set_self _ _ _ hlt] at hpu
      have hpe : pcu = TPc.done := by simpa using hpu.symm
      rw [hpe]
      rw [filter_append_true _ _ _ (isRelOf_released_self u c.key)]
      have hpre := h.countR u (TPc.closing p) hp
      rw [hpre]
      rw [if_neg (by simp), if_pos rfl]
    · rw [filter_append_false _ _ _ (isRelOf_released_ne u t c.key hu)]
      rw [get?_set_ne _ _ _ _ hu] at hpu
      exact h.countR u pcu hpu
  · exact sep_update cfg s t c (IEv.released t c.key) h hc hte TPc.done
      (mutex_of_inCS cfg s h t c (TPc.closing p) p hc hp rfl)
      (by rw [hp]; simp)

end Inject

namespace Inject

theorem inv_step (cfg : List CallCfg) (s : St) (t : Nat) (h : Inv cfg s) :
    Inv cfg (step cfg s t) := by
  unfold step
  cases hc : cfg.get? t with
  | none => exact h
  | some c =>
    cases hp : s.pcs.get? t with
    | none => exact h
    | some pc =>
      cases pc with
      | start =>
        dsimp only
        by_cases hres : c.resolvable = false
        · rw [if_pos hres]
          exact inv_append_noneEv cfg { s with pcs := s.pcs.set t TPc.errored }
            (IEv.targetError t)
            (inv_retarget cfg s t c TPc.start TPc.errored h hc hp rfl rfl
              (by simp) (by simp) (fun _ => Or.inr rfl))
            rfl (fun u => rfl) (fun u => rfl)
        · rw [if_neg hres]
          have hres' : c.resolvable = true := by
            revert hres
            cases c.resolvable <;> simp
          cases hlk : lookup s.locks c.key with
          | none => exact inv_acquire cfg s t c h hc hres' hp hlk
          | some p => exact inv_wait cfg s t c p h hc hres' hp
      | waiting p =>
        dsimp only
        by_cases hmem : p ∈ s.resolved
        · rw [if_pos hmem]
          exact inv_retarget cfg s t c (TPc.waiting p) TPc.start h hc hp rfl rfl
            (by simp) (by simp) (fun _ => Or.inl rfl)
        · rw [if_neg hmem]
          exact h
      | body i p =>
        dsimp only
        by_cases hfail : c.failAt = some i
        · rw [if_pos hfail]
          exact inv_retarget cfg s t c (TPc.body i p) (TPc.closing p) h hc hp rfl rfl
            (by simp) (by simp)
            (fun hru => by
              rcases h.unres t c hc hru with h1 | h1 <;>
                · rw [hp] at h1
                  simp at h1)
        · rw [if_neg hfail]
          by_cases hi : i + 1 < 4
          · rw [if_pos hi]
            exact inv_effect cfg s t c i p (TPc.body (i + 1) p) h hc hp rfl rfl (by simp)
          · rw [if_neg hi]
            exact inv_effect cfg s t c i p (TPc.closing p) h hc hp rfl rfl (by simp)
      | closing p => exact inv_close cfg s t c p h hc hp
      | done => exact h
      | errored => exact h

theorem inv_fold (cfg : List CallCfg) :
    ∀ (sched : List Nat) (s : St), Inv cfg s →
      Inv cfg (sched.foldl (step cfg) s) := by
  intro sched
  induction sched with
  | nil => intro s h; exact h
  | cons a r ih =>
    intro s h
    exact ih _ (inv_step cfg s a h)

theorem inv_run (cfg : List CallCfg) (sched : List Nat) : Inv cfg (run cfg sched) :=
  inv_fold cfg sched (init cfg) (inv_init cfg)

end Inject


namespace Inject

theorem inCS_of_promOf (pc : TPc) (p : Nat) (h : promOf pc = some p) :
    inCS pc = true := by
  cases pc <;> simp [promOf] at h <;> rfl

theorem locks_nil_of_all_lookup_none (l : List (String × Nat))
    (h : ∀ k, lookup l k = none) : l = [] := by
  cases l with
  | nil => rfl
  | cons kv r =>
    exfalso
    have := h kv.1
    cases kv with
    | mk k p => simp [lookup] at this

end Inject

/-- C1: for every configuration of `injectComponent` calls and every
interleaving, any two calls that resolve to the same instance key are
serialized — whenever both emit in-lock effects (handler cleanup, content
insertion, script execution, initializer dispatch, bracketed by acquisition
and release), all effects of one strictly precede all effects of the other;
and calls with different instance keys may interleave and complete in either
order, exhibited by two schedules of an `"A"`/`"B"` pair in which the calls
overlap and finish in opposite orders. -/
theorem c1_same_key_serialization :
    (∀ (cfg : List Inject.CallCfg) (sched : List Nat) (t u : Nat)
        (ct cu : Inject.CallCfg), t ≠ u →
      cfg.get? t = some ct → cfg.get? u = some cu → ct.key = cu.key →
      Inject.evts t (Inject.run cfg sched).trace ≠ [] →
      Inject.evts u (Inject.run cfg sched).trace ≠ [] →
      Inject.Sep t u (Inject.run cfg sched).trace ∨
        Inject.Sep u t (Inject.run cfg sched).trace) ∧
    (Inject.run [⟨"A", true, none⟩, ⟨"B", true, none⟩]
        [0, 0, 1, 1, 1, 1, 1, 1, 0, 0, 0, 0]).trace =
      [.acquired 0 "A", .cleanup 0 "A", .acquired 1 "B", .cleanup 1 "B",
       .inserted 1 "B", .scripts 1 "B", .initDispatch 1 "B", .released 1 "B",
       .inserted 0 "A", .scripts 0 "A", .initDispatch 0 "A",
       .released 0 "A"] ∧
    (Inject.run [⟨"A", true, none⟩, ⟨"B", true, none⟩]
        [1, 1, 1, 1, 1, 1, 0, 0, 0, 0, 0, 0]).trace =
      [.acquired 1 "B", .cleanup 1 "B", .inserted 1 "B", .scripts 1 "B",
       .initDispatch 1 "B", .released 1 "B", .acquired 0 "A", .cleanup 0 "A",
       .inserted 0 "A", .scripts 0 "A", .initDispatch 0 "A",
       .released 0 "A"] := by
  refine ⟨?_, rfl, rfl⟩
  intro cfg sched t u ct cu hne hct hcu hkey het heu
  have hinv := Inject.inv_run cfg sched
  rcases hinv.sep t u ct cu hne hct hcu hkey with h | h | ⟨_, h⟩ | ⟨_, h⟩
  · exact absurd h het
  · exact absurd h heu
  · exact Or.inl h
  · exact Or.inr h

/-- C1 witness: two concurrent calls with the same key `"K"`, under a
schedule that tries to interleave them, have all of one call's in-lock
effects before all of the other's. -/
theorem c1_same_key_serialization_witness :
    Inject.Sep 0 1 (Inject.run [⟨"K", true, none⟩, ⟨"K", true, none⟩]
        [0, 1, 0, 0, 0, 0, 0, 1, 1, 1, 1, 1, 1, 1]).trace ∨
      Inject.Sep 1 0 (Inject.run [⟨"K", true, none⟩, ⟨"K", true, none⟩]
        [0, 1, 0, 0, 0, 0, 0, 1, 1, 1, 1, 1, 1, 1]).trace :=
  c1_same_key_serialization.1 [⟨"K", true, none⟩, ⟨"K", true, none⟩]
    [0, 1, 0, 0, 0, 0, 0, 1, 1, 1, 1, 1, 1, 1] 0 1 ⟨"K", true, none⟩
    ⟨"K", true, none⟩ (by decide) rfl rfl rfl (by decide) (by decide)

/-- C3: under every interleaving, a call that finishes (reaches `done`,
returning or rethrowing through the `finally`) has acquired its key's lock
exactly once and released it exactly once; no call ever acquires more than
once or releases more than it acquires; a key is bound in the lock map only
while some call for that key is inside its critical section; and when every
call has finished or failed before locking, the lock map is empty — no key
is left permanently locked. -/
theorem c3_lock_release_balanced (cfg : List Inject.CallCfg)
    (sched : List Nat) :
    (∀ t, (Inject.run cfg sched).pcs.get? t = some .done →
      ((Inject.run cfg sched).trace.filter (Inject.isAcqOf t)).length = 1 ∧
      ((Inject.run cfg sched).trace.filter (Inject.isRelOf t)).length = 1) ∧
    (∀ t pc, (Inject.run cfg sched).pcs.get? t = some pc →
      ((Inject.run cfg sched).trace.filter (Inject.isRelOf t)).length ≤
        ((Inject.run cfg sched).trace.filter (Inject.isAcqOf t)).length ∧
      ((Inject.run cfg sched).trace.filter (Inject.isAcqOf t)).length ≤ 1) ∧
    (∀ k p, Inject.lookup (Inject.run cfg sched).locks k = some p →
      ∃ t c pc, cfg.get? t = some c ∧ c.key = k ∧
        (Inject.run cfg sched).pcs.get? t = some pc ∧
        Inject.inCS pc = true) ∧
    ((∀ t pc, (Inject.run cfg sched).pcs.get? t = some pc →
        pc = .done ∨ pc = .errored) →
      (Inject.run cfg sched).locks = []) := by
  have hinv := Inject.inv_run cfg sched
  refine ⟨?_, ?_, ?_, ?_⟩
  · intro t hd
    constructor
    · rw [hinv.countA t .done hd]
      simp
    · rw [hinv.countR t .done hd]
      simp
  · intro t pc hpc
    constructor
    · rw [hinv.countA t pc hpc, hinv.countR t pc hpc]
      by_cases hd : pc = .done
      · rw [if_pos hd, if_pos (Or.inr hd)]
      · rw [if_neg hd]
        exact Nat.zero_le _
    · rw [hinv.countA t pc hpc]
      split
      · exact Nat.le_refl 1
      · exact Nat.zero_le 1
  · intro k p hl
    obtain ⟨t, c, pc, hct, hk, hpc, hpr⟩ := hinv.locksOwned k p hl
    exact ⟨t, c, pc, hct, hk, hpc, Inject.inCS_of_promOf pc p hpr⟩
  · intro hall
    apply Inject.locks_nil_of_all_lookup_none
    intro k
    cases hlk : Inject.lookup (Inject.run cfg sched).locks k with
    | none => rfl
    | some p =>
      exfalso
      obtain ⟨t, c, pc, _, _, hpc, hpr⟩ := hinv.locksOwned k p hlk
      rcases hall t pc hpc with h | h <;> rw [h] at hpr <;>
        simp [Inject.promOf] at hpr

/-- C3 witness: a single call whose injection body throws at its second
step still acquires and releases exactly once, and its terminal state holds
no lock. -/
theorem c3_lock_release_balanced_witness :
    (((Inject.run [⟨"K", true, some 1⟩] [0, 0, 0, 0]).trace.filter
        (Inject.isAcqOf 0)).length = 1 ∧
      ((Inject.run [⟨"K", true, some 1⟩] [0, 0, 0, 0]).trace.filter
        (Inject.isRelOf 0)).length = 1) ∧
    (Inject.run [⟨"K", true, some 1⟩] [0, 0, 0, 0]).locks = [] := by
  have h := c3_lock_release_balanced [⟨"K", true, some 1⟩] [0, 0, 0, 0]
  have hpcs : (Inject.run [⟨"K", true, some 1⟩] [0, 0, 0, 0]).pcs =
      [Inject.TPc.done] := by decide
  refine ⟨h.1 0 (by decide), h.2.2.2 ?_⟩
  intro t pc hpc
  rw [hpcs] at hpc
  match t with
  | 0 =>
    simp [List.get?] at hpc
    exact Or.inl hpc.symm
  | n + 1 => simp [List.get?] at hpc

/-- C8 counterexample: the string target `"#z"` contains structural-selector
punctuation (`#`, the id prefix), yet after the selector query misses, the
code still retries it as a plain `getElementById` lookup — its guard checks
only for a space and a leading `.` or `[` — and resolves an element whose
literal id is `"#z"`; under the spec's guard (no structural punctuation at
all) resolution would fail. -/
theorem c8_counterexample_fallback_despite_punct :
    Resolve.resolveTarget Resolve.qs0 Resolve.gid0 (.str "#z") = some 7 ∧
    Resolve.specResolveTarget Resolve.qs0 Resolve.gid0 (.str "#z") = none ∧
    '#' ∈ Resolve.structuralPunct := by
  refine ⟨by decide, by decide, by decide⟩

/-- C8 amended: resolution accepts an element reference as-is and rejects a
non-element non-string; a string resolving under the selector query is
taken; when the query misses, the plain identifier lookup is retried exactly
when the string has no space anywhere and starts with neither `.` nor `[`
(not: contains no structural-selector punctuation at all), and otherwise
resolution fails; and a call whose target does not resolve throws before
acquiring any lock and emits no injection effect whatsoever. -/
theorem c8_target_resolution_amended :
    (∀ (qs gid : String → Option Nat) (e : Nat),
      Resolve.resolveTarget qs gid (.element e) = some e) ∧
    (∀ (qs gid : String → Option Nat) (s : String) (el : Nat),
      qs s = some el → Resolve.resolveTarget qs gid (.str s) = some el) ∧
    (∀ (qs gid : String → Option Nat) (s : String), qs s = none →
      Resolve.resolveTarget qs gid (.str s) =
        (if ¬Resolve.strIncludes s ' ' ∧ ¬Resolve.strStartsWith s '.' ∧
            ¬Resolve.strStartsWith s '[' then gid s else none)) ∧
    (∀ qs gid : String → Option Nat,
      Resolve.resolveTarget qs gid .other = none) ∧
    (∀ (cfg : List Inject.CallCfg) (sched : List Nat) (t : Nat)
        (c : Inject.CallCfg), cfg.get? t = some c → c.resolvable = false →
      Inject.evts t (Inject.run cfg sched).trace = [] ∧
      ((Inject.run cfg sched).trace.filter (Inject.isAcqOf t)).length = 0) := by
  refine ⟨fun qs gid e => rfl, ?_, ?_, fun qs gid => rfl, ?_⟩
  · intro qs gid s el h
    simp [Resolve.resolveTarget, h]
  · intro qs gid s h
    simp [Resolve.resolveTarget, h]
  · intro cfg sched t c hct hres
    have hinv := Inject.inv_run cfg sched
    have hun := hinv.unres t c hct hres
    constructor
    · by_contra hne
      obtain ⟨pc, hpc, hcs⟩ := hinv.emitted t hne
      rcases hun with h | h <;> rw [h] at hpc <;>
        injection hpc with hpc <;> rw [← hpc] at hcs <;>
        simp [Inject.inCS] at hcs
    · rcases hun with h | h
      · rw [hinv.countA t _ h]
        decide
      · rw [hinv.countA t _ h]
        decide

/-- C8 witness: a plain name falls through to the identifier lookup; and a
call marked unresolvable emits nothing and acquires no lock in a concrete
two-step run. -/
theorem c8_target_resolution_amended_witness :
    (Resolve.resolveTarget Resolve.qs0 Resolve.gid0 (.str "z") =
      (if ¬Resolve.strIncludes "z" ' ' ∧ ¬Resolve.strStartsWith "z" '.' ∧
          ¬Resolve.strStartsWith "z" '[' then Resolve.gid0 "z" else none)) ∧
    Inject.evts 0 (Inject.run [⟨"K", false, none⟩] [0, 0]).trace = [] ∧
    ((Inject.run [⟨"K", false, none⟩] [0, 0]).trace.filter
      (Inject.isAcqOf 0)).length = 0 := by
  have h2 := c8_target_resolution_amended.2.2.2.2 [⟨"K", false, none⟩]
    [0, 0] 0 ⟨"K", false, none⟩ rfl rfl
  exact ⟨c8_target_resolution_amended.2.2.1 Resolve.qs0 Resolve.gid0 "z" rfl,
    h2.1, h2.2⟩

namespace Load

theorem pcs_bound {s : St} {t : Nat} {pc : LPc} (hp : s.pcs.get? t = some pc) :
    t < s.pcs.length :=
  (List.get?_eq_some.mp hp).1

theorem lookup_cons_self (l : List (String × Nat)) (k : String) (p : Nat) :
    Inject.lookup ((k, p) :: l) k = some p := by
  simp [Inject.lookup]

theorem lookup_cons_ne (l : List (String × Nat)) (k k2 : String) (p : Nat)
    (h : k2 ≠ k) : Inject.lookup ((k2, p) :: l) k = Inject.lookup l k := by
  simp [Inject.lookup, h]

theorem lookupRes_cons_ne (l : List (Nat × Res)) (p q : Nat) (r : Res)
    (h : q ≠ p) : lookupRes ((q, r) :: l) p = lookupRes l p := by
  simp [lookupRes, h]

theorem not_mem_keys_of_lookup_none (l : List (String × Nat)) (k : String)
    (h : Inject.lookup l k = none) : k ∉ l.map Prod.fst := fun hm =>
  (Inject.keys_mem hm).elim fun p hp => Inject.lookup_none_not_mem l k p h hp

theorem pcs_start_init (cfg : List String) (t : Nat) (pc : LPc)
    (h : (init cfg).pcs.get? t = some pc) : pc = .start := by
  unfold init at h
  simp only at h
  rw [List.get?_eq_getElem?, List.getElem?_map] at h
  cases hg : cfg[t]? with
  | none => rw [hg] at h; simp at h
  | some c => rw [hg] at h; simp at h; exact h.symm

theorem init_pcs_get (cfg : List String) (t : Nat) (n : String)
    (h : cfg.get? t = some n) : (init cfg).pcs.get? t = some .start := by
  unfold init
  simp only
  rw [List.get?_eq_getElem?, List.getElem?_map]
  have hlt : t < cfg.length := (List.get?_eq_some.mp h).1
  rw [List.getElem?_eq_getElem hlt]
  simp

theorem len_step (ce : Bool) (cfg : List String) (s : St) (lab : Lab) :
    (step ce cfg s lab).pcs.length = s.pcs.length := by
  cases lab with
  | net p r =>
    simp only [step]
    split <;> rfl
  | thr t =>
    simp only [step]
    cases hc : cfg.get? t with
    | none => rfl
    | some n =>
      cases hp : s.pcs.get? t with
      | none => rfl
      | some pc =>
        cases pc with
        | start =>
          dsimp only
          cases hch : (if ce then lookupS s.cache n else none) with
          | some v => exact List.length_set s.pcs t _
          | none =>
            cases hlk : Inject.lookup s.loading n with
            | some p => exact List.length_set s.pcs t _
            | none => exact List.length_set s.pcs t _
        | wait p ldr =>
          dsimp only
          cases hres : lookupRes s.settled p with
          | none => rfl
          | some r =>
            cases ldr
            · exact List.length_set s.pcs t _
            · exact List.length_set s.pcs t _
        | done r b => rfl

theorem len_fold (ce : Bool) (cfg : List String) :
    ∀ (l : List Lab) (s : St), s.pcs.length = cfg.length →
      ((l.foldl (step ce cfg) s).pcs.length) = cfg.length := by
  intro l
  induction l with
  | nil => intro s h; exact h
  | cons lab l2 ih =>
    intro s h
    rw [List.foldl_cons]
    exact ih _ (by rw [len_step]; exact h)

theorem nodup_step (ce : Bool) (cfg : List String) (s : St) (lab : Lab)
    (h : (s.loading.map Prod.fst).Nodup) :
    ((step ce cfg s lab).loading.map Prod.fst).Nodup := by
  cases lab with
  | net p r =>
    simp only [step]
    split
    · exact h
    · exact h
  | thr t =>
    simp only [step]
    cases hc : cfg.get? t with
    | none => exact h
    | some n =>
      cases hp : s.pcs.get? t with
      | none => exact h
      | some pc =>
        cases pc with
        | start =>
          dsimp only
          cases hch : (if ce then lookupS s.cache n else none) with
          | some v => exact h
          | none =>
            cases hlk : Inject.lookup s.loading n with
            | some p => exact h
            | none =>
              exact List.nodup_cons.mpr
                ⟨not_mem_keys_of_lookup_none s.loading n hlk, h⟩
        | wait p ldr =>
          dsimp only
          cases hres : lookupRes s.settled p with
          | none => exact h
          | some r =>
            cases ldr
            · exact h
            · exact (Inject.erase_keys_sublist s.loading n).nodup h
        | done r b => exact h

theorem nodup_fold (ce : Bool) (cfg : List String) :
    ∀ (l : List Lab) (s : St), (s.loading.map Prod.fst).Nodup →
      (((l.foldl (step ce cfg) s).loading.map Prod.fst)).Nodup := by
  intro l
  induction l with
  | nil => intro s h; exact h
  | cons lab l2 ih =>
    intro s h
    rw [List.foldl_cons]
    exact ih _ (nodup_step ce cfg s lab h)

theorem nodup_run (ce : Bool) (cfg : List String) (sched : List Lab) :
    ((run ce cfg sched).loading.map Prod.fst).Nodup :=
  nodup_fold ce cfg sched (init cfg) (by simp [init])

theorem get?_set_not_start (l : List LPc) (u t : Nat) (a : LPc)
    (ha : a ≠ .start) (h : l.get? t ≠ some .start) :
    (l.set u a).get? t ≠ some .start := by
  by_cases hu : t = u
  · subst hu
    rw [List.get?_eq_getElem?, List.getElem?_set_self']
    intro hcon
    cases hg : l[t]? with
    | none => rw [hg] at hcon; simp at hcon
    | some b => rw [hg] at hcon; simp at hcon; exact ha hcon
  · rw [Inject.get?_set_ne _ _ _ _ hu]
    exact h

theorem step_not_start (ce : Bool) (cfg : List String) (s : St) (lab : Lab)
    (t : Nat) (h : s.pcs.get? t ≠ some .start) :
    (step ce cfg s lab).pcs.get? t ≠ some .start := by
  cases lab with
  | net p r =>
    simp only [step]
    split
    · exact h
    · exact h
  | thr u =>
    simp only [step]
    cases hc : cfg.get? u with
    | none => exact h
    | some n =>
      cases hp : s.pcs.get? u with
      | none => exact h
      | some pc =>
        cases pc with
        | start =>
          dsimp only
          cases hch : (if ce then lookupS s.cache n else none) with
          | some v =>
            exact get?_set_not_start _ _ _ _ (fun hcon => LPc.noConfusion hcon) h
          | none =>
            cases hlk : Inject.lookup s.loading n with
            | some p =>
              exact get?_set_not_start _ _ _ _ (fun hcon => LPc.noConfusion hcon) h
            | none =>
              exact get?_set_not_start _ _ _ _ (fun hcon => LPc.noConfusion hcon) h
        | wait p ldr =>
          dsimp only
          cases hres : lookupRes s.settled p with
          | none => exact h
          | some r =>
            cases ldr
            · exact get?_set_not_start _ _ _ _ (fun hcon => LPc.noConfusion hcon) h
            · exact get?_set_not_start _ _ _ _ (fun hcon => LPc.noConfusion hcon) h
        | done r b => exact h

theorem step_thr_not_start (ce : Bool) (cfg : List String) (s : St) (t : Nat)
    (n : String) (hc : cfg.get? t = some n) (hlen : s.pcs.length = cfg.length) :
    (step ce cfg s (.thr t)).pcs.get? t ≠ some .start := by
  have hlt : t < s.pcs.length := by
    rw [hlen]; exact (List.get?_eq_some.mp hc).1
  simp only [step]
  rw [hc]
  cases hp : s.pcs.get? t with
  | none =>
    show s.pcs.get? t ≠ some LPc.start
    rw [hp]
    simp
  | some pc =>
    cases pc with
    | start =>
      dsimp only
      cases hch : (if ce then lookupS s.cache n else none) with
      | some v =>
        show (s.pcs.set t (LPc.done (Res.ok v) false)).get? t ≠ some LPc.start
        rw [Inject.get?_set_self _ _ _ hlt]
        simp
      | none =>
        cases hlk : Inject.lookup s.loading n with
        | some p =>
          show (s.pcs.set t (LPc.wait p false)).get? t ≠ some LPc.start
          rw [Inject.get?_set_self _ _ _ hlt]
          simp
        | none =>
          show (s.pcs.set t (LPc.wait s.fresh true)).get? t ≠ some LPc.start
          rw [Inject.get?_set_self _ _ _ hlt]
          simp
    | wait p ldr =>
      dsimp only
      cases hres : lookupRes s.settled p with
      | none =>
        show s.pcs.get? t ≠ some LPc.start
        rw [hp]
        simp
      | some r =>
        cases ldr
        · show (s.pcs.set t (LPc.done r false)).get? t ≠ some LPc.start
          rw [Inject.get?_set_self _ _ _ hlt]
          simp
        · show (s.pcs.set t (LPc.done r true)).get? t ≠ some LPc.start
          rw [Inject.get?_set_self _ _ _ hlt]
          simp
    | done r b =>
      show s.pcs.get? t ≠ some LPc.start
      rw [hp]
      simp

theorem fold_not_start (ce : Bool) (cfg : List String) (t : Nat) (n : String)
    (hc : cfg.get? t = some n) :
    ∀ (l : List Lab) (s : St), s.pcs.length = cfg.length →
      (Lab.thr t ∈ l ∨ s.pcs.get? t ≠ some .start) →
      (l.foldl (step ce cfg) s).pcs.get? t ≠ some .start := by
  intro l
  induction l with
  | nil =>
    intro s _ hor
    rcases hor with hm | hns
    · exact absurd hm (List.not_mem_nil _)
    · exact hns
  | cons lab l2 ih =>
    intro s hlen hor
    rw [List.foldl_cons]
    apply ih (step ce cfg s lab) (by rw [len_step]; exact hlen)
    rcases hor with hm | hns
    · rcases List.mem_cons.mp hm with he | hm2
      · right
        rw [← he]
        exact step_thr_not_start ce cfg s t n hc hlen
      · left
        exact hm2
    · right
      exact step_not_start ce cfg s lab t hns

/-- Invariant of the dedup machine while no retrieval has settled (the
claim's window in which the concurrent callers arrive): the first caller of
the name registers the single fetch, every later one becomes a follower of
the same promise, nothing has been deleted, and no caller has finished. -/
structure QInv (cfg : List String) (name : String) (s : St) : Prop where
  cache : s.cache = []
  settled : s.settled = []
  len : s.pcs.length = cfg.length
  nodup : (s.loading.map Prod.fst).Nodup
  nodone : ∀ t r b, s.pcs.get? t ≠ some (.done r b)
  branch :
    (Inject.lookup s.loading name = none ∧
      s.trace.filter (isFetchOf name) = [] ∧
      ∀ t, cfg.get? t = some name → s.pcs.get? t = some .start) ∨
    (∃ p0 tl, Inject.lookup s.loading name = some p0 ∧
      (s.trace.filter (isFetchOf name)).length = 1 ∧
      cfg.get? tl = some name ∧ s.pcs.get? tl = some (.wait p0 true) ∧
      (∀ t, cfg.get? t = some name →
        s.pcs.get? t = some .start ∨ ∃ b, s.pcs.get? t = some (.wait p0 b)) ∧
      (∀ t, cfg.get? t = some name →
        s.pcs.get? t = some (.wait p0 true) → t = tl))
  nodel : s.trace.filter (isDelOf name) = []

theorem qinv_init (cfg : List String) (name : String) :
    QInv cfg name (init cfg) := by
  refine ⟨rfl, rfl, by simp [init], by simp [init], ?_, ?_, rfl⟩
  · intro t r b hcon
    have := pcs_start_init cfg t _ hcon
    exact LPc.noConfusion this
  · left
    exact ⟨rfl, rfl, fun t ht => init_pcs_get cfg t name ht⟩

theorem qinv_follower (ce : Bool) (cfg : List String) (name : String)
    (s : St) (t : Nat) (n : String) (p : Nat) (h : QInv cfg name s)
    (hc : cfg.get? t = some n) (hp : s.pcs.get? t = some .start)
    (hlk : Inject.lookup s.loading n = some p) :
    QInv cfg name { s with pcs := s.pcs.set t (.wait p false) } := by
  have hlt : t < s.pcs.length := pcs_bound hp
  refine ⟨h.cache, h.settled, ?_, h.nodup, ?_, ?_, h.nodel⟩
  · show (s.pcs.set t _).length = cfg.length
    rw [List.length_set]
    exact h.len
  · intro u r b hcon
    have hcon2 : (s.pcs.set t (.wait p false)).get? u = some (.done r b) := hcon
    by_cases hu : u = t
    · subst hu
      rw [Inject.get?_set_self _ _ _ hlt] at hcon2
      simp at hcon2
    · rw [Inject.get?_set_ne _ _ _ _ hu] at hcon2
      exact h.nodone u r b hcon2
  · rcases h.branch with ⟨hln, hf, hall⟩ | ⟨p0, tl, hl0, hf1, hctl, hptl, hall, huniq⟩
    · by_cases hn : n = name
      · rw [hn] at hlk
        rw [hln] at hlk
        exact absurd hlk (by simp)
      · left
        refine ⟨hln, hf, ?_⟩
        intro u hu
        have hut : u ≠ t := fun he => hn (by rw [← he, hu] at hc; exact Option.some.inj hc.symm)
        show (s.pcs.set t _).get? u = some .start
        rw [Inject.get?_set_ne _ _ _ _ hut]
        exact hall u hu
    · have httl : t ≠ tl := by
        intro he
        rw [← he] at hptl
        rw [hp] at hptl
        exact LPc.noConfusion (Option.some.inj hptl)
      right
      refine ⟨p0, tl, hl0, hf1, hctl, ?_, ?_, ?_⟩
      · show (s.pcs.set t _).get? tl = some (.wait p0 true)
        rw [Inject.get?_set_ne _ _ _ _ (Ne.symm httl)]
        exact hptl
      · intro u hu
        by_cases hu2 : u = t
        · subst hu2
          have hn : n = name := by rw [hu] at hc; exact Option.some.inj hc.symm
          rw [hn] at hlk
          have hpp : p = p0 := by rw [hlk] at hl0; exact Option.some.inj hl0
          right
          refine ⟨false, ?_⟩
          show (s.pcs.set u _).get? u = some (.wait p0 false)
          rw [Inject.get?_set_self _ _ _ hlt, hpp]
        · rcases hall u hu with h1 | ⟨b, h1⟩
          · left
            show (s.pcs.set t _).get? u = some .start
            rw [Inject.get?_set_ne _ _ _ _ hu2]
            exact h1
          · right
            refine ⟨b, ?_⟩
            show (s.pcs.set t _).get? u = some (.wait p0 b)
            rw [Inject.get?_set_ne _ _ _ _ hu2]
            exact h1
      · intro u hu hwu
        have hwu2 : (s.pcs.set t (.wait p false)).get? u = some (.wait p0 true) := hwu
        by_cases hu2 : u = t
        · subst hu2
          rw [Inject.get?_set_self _ _ _ hlt] at hwu2
          have := Option.some.inj hwu2
          exact absurd (congrArg (fun pc => match pc with
            | LPc.wait _ b => b
            | _ => false) this) (by simp)
        · rw [Inject.get?_set_ne _ _ _ _ hu2] at hwu2
          exact huniq u hu hwu2

theorem qinv_fetch (ce : Bool) (cfg : List String) (name : String)
    (s : St) (t : Nat) (n : String) (h : QInv cfg name s)
    (hc : cfg.get? t = some n) (hp : s.pcs.get? t = some .start)
    (hlk : Inject.lookup s.loading n = none) :
    QInv cfg name
      { s with
        loading := (n, s.fresh) :: s.loading
        fresh := s.fresh + 1
        pcs := s.pcs.set t (.wait s.fresh true)
        trace := s.trace ++ [LEv.fetch t n] } := by
  have hlt : t < s.pcs.length := pcs_bound hp
  refine ⟨h.cache, h.settled, ?_, ?_, ?_, ?_, ?_⟩
  · show (s.pcs.set t _).length = cfg.length
    rw [List.length_set]
    exact h.len
  · exact List.nodup_cons.mpr ⟨not_mem_keys_of_lookup_none s.loading n hlk, h.nodup⟩
  · intro u r b hcon
    have hcon2 : (s.pcs.set t (.wait s.fresh true)).get? u = some (.done r b) := hcon
    by_cases hu : u = t
    · subst hu
      rw [Inject.get?_set_self _ _ _ hlt] at hcon2
      simp at hcon2
    · rw [Inject.get?_set_ne _ _ _ _ hu] at hcon2
      exact h.nodone u r b hcon2
  · by_cases hn : n = name
    · rcases h.branch with ⟨hln, hf, hall⟩ | ⟨p0, tl, hl0, hf1, hctl, hptl, hall, huniq⟩
      · right
        refine ⟨s.fresh, t, ?_, ?_, ?_, ?_, ?_, ?_⟩
        · show Inject.lookup ((n, s.fresh) :: s.loading) name = some s.fresh
          rw [← hn]
          exact lookup_cons_self s.loading n s.fresh
        · show ((s.trace ++ [LEv.fetch t n]).filter (isFetchOf name)).length = 1
          rw [Inject.filter_append_true _ _ _ (by simp [isFetchOf, hn]), hf]
          rfl
        · rw [← hn]; exact hc
        · show (s.pcs.set t _).get? t = some (.wait s.fresh true)
          rw [Inject.get?_set_self _ _ _ hlt]
        · intro u hu
          by_cases hu2 : u = t
          · subst hu2
            right
            refine ⟨true, ?_⟩
            show (s.pcs.set u _).get? u = some (.wait s.fresh true)
            rw [Inject.get?_set_self _ _ _ hlt]
          · left
            show (s.pcs.set t _).get? u = some .start
            rw [Inject.get?_set_ne _ _ _ _ hu2]
            exact hall u hu
        · intro u hu hwu
          by_cases hu2 : u = t
          · exact hu2
          · exfalso
            have hwu2 : (s.pcs.set t (.wait s.fresh true)).get? u =
                some (.wait s.fresh true) := hwu
            rw [Inject.get?_set_ne _ _ _ _ hu2] at hwu2
            rw [hall u hu] at hwu2
            exact LPc.noConfusion (Option.some.inj hwu2)
      · exfalso
        rw [hn] at hlk
        rw [hlk] at hl0
        exact Option.noConfusion hl0
    · rcases h.branch with ⟨hln, hf, hall⟩ | ⟨p0, tl, hl0, hf1, hctl, hptl, hall, huniq⟩
      · left
        refine ⟨?_, ?_, ?_⟩
        · show Inject.lookup ((n, s.fresh) :: s.loading) name = none
          rw [lookup_cons_ne _ _ _ _ hn]
          exact hln
        · show (s.trace ++ [LEv.fetch t n]).filter (isFetchOf name) = []
          rw [Inject.filter_append_false _ _ _ (by simp [isFetchOf]; exact hn)]
          exact hf
        · intro u hu
          have hut : u ≠ t := fun he => hn (by rw [← he, hu] at hc; exact Option.some.inj hc.symm)
          show (s.pcs.set t _).get? u = some .start
          rw [Inject.get?_set_ne _ _ _ _ hut]
          exact hall u hu
      · right
        have httl : t ≠ tl := by
          intro he
          rw [← he] at hptl
          rw [hp] at hptl
          exact LPc.noConfusion (Option.some.inj hptl)
        refine ⟨p0, tl, ?_, ?_, hctl, ?_, ?_, ?_⟩
        · show Inject.lookup ((n, s.fresh) :: s.loading) name = some p0
          rw [lookup_cons_ne _ _ _ _ hn]
          exact hl0
        · show ((s.trace ++ [LEv.fetch t n]).filter (isFetchOf name)).length = 1
          rw [Inject.filter_append_false _ _ _ (by simp [isFetchOf]; exact hn)]
          exact hf1
        · show (s.pcs.set t _).get? tl = some (.wait p0 true)
          rw [Inject.get?_set_ne _ _ _ _ (Ne.symm httl)]
          exact hptl
        · intro u hu
          have hut : u ≠ t := fun he => hn (by rw [← he, hu] at hc; exact Option.some.inj hc.symm)
          rcases hall u hu with h1 | ⟨b, h1⟩
          · left
            show (s.pcs.set t _).get? u = some .start
            rw [Inject.get?_set_ne _ _ _ _ hut]
            exact h1
          · right
            refine ⟨b, ?_⟩
            show (s.pcs.set t _).get? u = some (.wait p0 b)
            rw [Inject.get?_set_ne _ _ _ _ hut]
            exact h1
        · intro u hu hwu
          have hut : u ≠ t := fun he => hn (by rw [← he, hu] at hc; exact Option.some.inj hc.symm)
          have hwu2 : (s.pcs.set t (.wait s.fresh true)).get? u =
              some (.wait p0 true) := hwu
          rw [Inject.get?_set_ne _ _ _ _ hut] at hwu2
          exact huniq u hu hwu2
  · show (s.trace ++ [LEv.fetch t n]).filter (isDelOf name) = []
    rw [Inject.filter_append_false _ _ _ rfl]
    exact h.nodel

theorem qinv_step (ce : Bool) (cfg : List String) (name : String) (s : St)
    (t : Nat) (h : QInv cfg name s) :
    QInv cfg name (step ce cfg s (.thr t)) := by
  simp only [step]
  cases hc : cfg.get? t with
  | none => exact h
  | some n =>
    cases hp : s.pcs.get? t with
    | none => exact h
    | some pc =>
      cases pc with
      | start =>
        dsimp only
        have hch : (if ce then lookupS s.cache n else none) = none := by
          rw [h.cache]
          cases ce <;> rfl
        rw [hch]
        cases hlk : Inject.lookup s.loading n with
        | some p => exact qinv_follower ce cfg name s t n p h hc hp hlk
        | none => exact qinv_fetch ce cfg name s t n h hc hp hlk
      | wait p ldr =>
        dsimp only
        have hre : lookupRes s.settled p = none := by
          rw [h.settled]
          rfl
        rw [hre]
        exact h
      | done r b => exact h

theorem qinv_fold (ce : Bool) (cfg : List String) (name : String) :
    ∀ (l : List Lab) (s : St), QInv cfg name s → (∀ p r, Lab.net p r ∉ l) →
      QInv cfg name (l.foldl (step ce cfg) s) := by
  intro l
  induction l with
  | nil => intro s h _; exact h
  | cons lab l2 ih =>
    intro s h hnet
    rw [List.foldl_cons]
    apply ih
    · cases lab with
      | thr t => exact qinv_step ce cfg name s t h
      | net p r => exact absurd (List.mem_cons_self _ _) (hnet p r)
    · intro p r hm
      exact hnet p r (List.mem_cons_of_mem _ hm)

/-- Invariant once the single in-flight retrieval `p0` for the name exists
and every caller of the name has passed its synchronous prefix: the fetch
count stays one, the registration is deleted at most once (by the unique
leader, when `p0` settles), and every caller of the name either still awaits
`p0` or is finished with `p0`'s settled outcome. -/
structure RInv (cfg : List String) (name : String) (p0 : Nat) (s : St) : Prop where
  len : s.pcs.length = cfg.length
  nodup : (s.loading.map Prod.fst).Nodup
  fcount : (s.trace.filter (isFetchOf name)).length = 1
  reg : (Inject.lookup s.loading name = some p0 ∧
          s.trace.filter (isDelOf name) = []) ∨
        (Inject.lookup s.loading name = none ∧
          (s.trace.filter (isDelOf name)).length = 1)
  thrs : ∀ t, cfg.get? t = some name →
    (∃ b, s.pcs.get? t = some (.wait p0 b)) ∨
    (∃ r b, s.pcs.get? t = some (.done r b) ∧ lookupRes s.settled p0 = some r)
  uniq : ∀ t u, cfg.get? t = some name → cfg.get? u = some name →
    s.pcs.get? t = some (.wait p0 true) → s.pcs.get? u = some (.wait p0 true) →
    t = u
  noldr : Inject.lookup s.loading name = none →
    ∀ t, cfg.get? t = some name → s.pcs.get? t ≠ some (.wait p0 true)

theorem rinv_of_q (cfg : List String) (name : String) (p0 : Nat) (s : St)
    (h : QInv cfg name s) (hl0 : Inject.lookup s.loading name = some p0)
    (hstart : ∀ t, cfg.get? t = some name → s.pcs.get? t ≠ some .start) :
    RInv cfg name p0 s := by
  rcases h.branch with ⟨hln, _, _⟩ | ⟨p1, tl, hl1, hf1, hctl, hptl, hall, huniq⟩
  · rw [hln] at hl0
    exact Option.noConfusion hl0
  · have hpp : p1 = p0 := by
      rw [hl1] at hl0
      exact Option.some.inj hl0
    subst hpp
    refine ⟨h.len, h.nodup, hf1, Or.inl ⟨hl0, h.nodel⟩, ?_, ?_, ?_⟩
    · intro u hu
      rcases hall u hu with h1 | ⟨b, h1⟩
      · exact absurd h1 (hstart u hu)
      · exact Or.inl ⟨b, h1⟩
    · intro u v hu hv hwu hwv
      rw [huniq u hu hwu, huniq v hv hwv]
    · intro hnone
      rw [hl0] at hnone
      exact absurd hnone (by simp)

theorem rinv_net (cfg : List String) (name : String) (p0 : Nat) (s : St)
    (p : Nat) (r : Res) (h : RInv cfg name p0 s)
    (hguard : lookupRes s.settled p = none) :
    RInv cfg name p0 { s with settled := (p, r) :: s.settled } := by
  refine ⟨h.len, h.nodup, h.fcount, h.reg, ?_, h.uniq, h.noldr⟩
  intro u hu
  rcases h.thrs u hu with h1 | ⟨r0, b, hd, hres⟩
  · exact Or.inl h1
  · right
    refine ⟨r0, b, hd, ?_⟩
    have hne : p ≠ p0 := by
      intro he
      rw [he, hres] at hguard
      exact Option.noConfusion hguard
    show lookupRes ((p, r) :: s.settled) p0 = some r0
    rw [lookupRes_cons_ne _ _ _ _ hne]
    exact hres

theorem rinv_nonname_set (cfg : List String) (name : String) (p0 : Nat)
    (s : St) (t : Nat) (n : String) (a : LPc) (h : RInv cfg name p0 s)
    (hc : cfg.get? t = some n) (hn : n ≠ name) :
    RInv cfg name p0 { s with pcs := s.pcs.set t a } := by
  have hut : ∀ u, cfg.get? u = some name → u ≠ t := fun u hu he =>
    hn (by rw [← he, hu] at hc; exact Option.some.inj hc.symm)
  refine ⟨?_, h.nodup, h.fcount, h.reg, ?_, ?_, ?_⟩
  · show (s.pcs.set t _).length = cfg.length
    rw [List.length_set]
    exact h.len
  · intro u hu
    rcases h.thrs u hu with ⟨b, h1⟩ | ⟨r0, b, hd, hres⟩
    · left
      refine ⟨b, ?_⟩
      show (s.pcs.set t a).get? u = some (.wait p0 b)
      rw [Inject.get?_set_ne _ _ _ _ (hut u hu)]
      exact h1
    · right
      refine ⟨r0, b, ?_, hres⟩
      show (s.pcs.set t a).get? u = some (.done r0 b)
      rw [Inject.get?_set_ne _ _ _ _ (hut u hu)]
      exact hd
  · intro u v hu hv hwu hwv
    have hwu2 : (s.pcs.set t a).get? u = some (.wait p0 true) := hwu
    have hwv2 : (s.pcs.set t a).get? v = some (.wait p0 true) := hwv
    rw [Inject.get?_set_ne _ _ _ _ (hut u hu)] at hwu2
    rw [Inject.get?_set_ne _ _ _ _ (hut v hv)] at hwv2
    exact h.uniq u v hu hv hwu2 hwv2
  · intro hnone u hu
    have := h.noldr hnone u hu
    show (s.pcs.set t a).get? u ≠ some (.wait p0 true)
    rw [Inject.get?_set_ne _ _ _ _ (hut u hu)]
    exact this

theorem rinv_nonname_fetch (cfg : List String) (name : String) (p0 : Nat)
    (s : St) (t : Nat) (n : String) (h : RInv cfg name p0 s)
    (hc : cfg.get? t = some n) (hn : n ≠ name)
    (hlk : Inject.lookup s.loading n = none) :
    RInv cfg name p0
      { s with
        loading := (n, s.fresh) :: s.loading
        fresh := s.fresh + 1
        pcs := s.pcs.set t (.wait s.fresh true)
        trace := s.trace ++ [LEv.fetch t n] } := by
  have hbase := rinv_nonname_set cfg name p0 s t n (.wait s.fresh true) h hc hn
  refine ⟨hbase.len, ?_, ?_, ?_, hbase.thrs, hbase.uniq, ?_⟩
  · exact List.nodup_cons.mpr ⟨not_mem_keys_of_lookup_none s.loading n hlk, h.nodup⟩
  · show ((s.trace ++ [LEv.fetch t n]).filter (isFetchOf name)).length = 1
    rw [Inject.filter_append_false _ _ _ (by simp [isFetchOf]; exact hn)]
    exact h.fcount
  · have hlkn : Inject.lookup ((n, s.fresh) :: s.loading) name =
        Inject.lookup s.loading name := lookup_cons_ne _ _ _ _ hn
    rcases h.reg with ⟨h1, h2⟩ | ⟨h1, h2⟩
    · left
      refine ⟨?_, ?_⟩
      · show Inject.lookup ((n, s.fresh) :: s.loading) name = some p0
        rw [hlkn]
        exact h1
      · show (s.trace ++ [LEv.fetch t n]).filter (isDelOf name) = []
        rw [Inject.filter_append_false _ _ _ rfl]
        exact h2
    · right
      refine ⟨?_, ?_⟩
      · show Inject.lookup ((n, s.fresh) :: s.loading) name = none
        rw [hlkn]
        exact h1
      · show ((s.trace ++ [LEv.fetch t n]).filter (isDelOf name)).length = 1
        rw [Inject.filter_append_false _ _ _ rfl]
        exact h2
  · intro hnone
    have hnone2 : Inject.lookup s.loading name = none := by
      rw [← lookup_cons_ne s.loading name n s.fresh hn]
      exact hnone
    exact hbase.noldr hnone2

theorem rinv_nonname_leader (cfg : List String) (name : String) (p0 : Nat)
    (s : St) (t : Nat) (n : String) (r : Res) (cnew : List (String × String))
    (h : RInv cfg name p0 s) (hc : cfg.get? t = some n) (hn : n ≠ name) :
    RInv cfg name p0
      { s with
        cache := cnew
        loading := Inject.erase s.loading n
        pcs := s.pcs.set t (.done r true)
        trace := s.trace ++ [LEv.deleted t n] } := by
  have hbase := rinv_nonname_set cfg name p0 s t n (.done r true) h hc hn
  have hlkn : Inject.lookup (Inject.erase s.loading n) name =
      Inject.lookup s.loading name := Inject.lookup_erase_ne s.loading n name hn.symm
  refine ⟨hbase.len, ?_, ?_, ?_, hbase.thrs, hbase.uniq, ?_⟩
  · exact (Inject.erase_keys_sublist s.loading n).nodup h.nodup
  · show ((s.trace ++ [LEv.deleted t n]).filter (isFetchOf name)).length = 1
    rw [Inject.filter_append_false _ _ _ rfl]
    exact h.fcount
  · rcases h.reg with ⟨h1, h2⟩ | ⟨h1, h2⟩
    · left
      refine ⟨?_, ?_⟩
      · show Inject.lookup (Inject.erase s.loading n) name = some p0
        rw [hlkn]
        exact h1
      · show (s.trace ++ [LEv.deleted t n]).filter (isDelOf name) = []
        rw [Inject.filter_append_false _ _ _ (by simp [isDelOf]; exact hn)]
        exact h2
    · right
      refine ⟨?_, ?_⟩
      · show Inject.lookup (Inject.erase s.loading n) name = none
        rw [hlkn]
        exact h1
      · show ((s.trace ++ [LEv.deleted t n]).filter (isDelOf name)).length = 1
        rw [Inject.filter_append_false _ _ _ (by simp [isDelOf]; exact hn)]
        exact h2
  · intro hnone
    have hnone2 : Inject.lookup s.loading name = none := by
      rw [← hlkn]
      exact hnone
    exact hbase.noldr hnone2

theorem rinv_name_follower (cfg : List String) (name : String) (p0 : Nat)
    (s : St) (t : Nat) (r : Res) (h : RInv cfg name p0 s)
    (hc : cfg.get? t = some name)
    (hres : lookupRes s.settled p0 = some r) :
    RInv cfg name p0 { s with pcs := s.pcs.set t (.done r false) } := by
  have hlt : t < s.pcs.length := by
    rw [h.len]
    exact (List.get?_eq_some.mp hc).1
  refine ⟨?_, h.nodup, h.fcount, h.reg, ?_, ?_, ?_⟩
  · show (s.pcs.set t _).length = cfg.length
    rw [List.length_set]
    exact h.len
  · intro u hu
    by_cases hu2 : u = t
    · subst hu2
      right
      refine ⟨r, false, ?_, hres⟩
      show (s.pcs.set u _).get? u = some (.done r false)
      rw [Inject.get?_set_self _ _ _ hlt]
    · rcases h.thrs u hu with ⟨b, h1⟩ | ⟨r0, b, hd, hres0⟩
      · left
        refine ⟨b, ?_⟩
        show (s.pcs.set t _).get? u = some (.wait p0 b)
        rw [Inject.get?_set_ne _ _ _ _ hu2]
        exact h1
      · right
        refine ⟨r0, b, ?_, hres0⟩
        show (s.pcs.set t _).get? u = some (.done r0 b)
        rw [Inject.get?_set_ne _ _ _ _ hu2]
        exact hd
  · intro u v hu hv hwu hwv
    have hwu2 : (s.pcs.set t (.done r false)).get? u = some (.wait p0 true) := hwu
    have hwv2 : (s.pcs.set t (.done r false)).get? v = some (.wait p0 true) := hwv
    have hu2 : u ≠ t := by
      intro he
      rw [he] at hwu2
      rw [Inject.get?_set_self _ _ _ hlt] at hwu2
      exact LPc.noConfusion (Option.some.inj hwu2)
    have hv2 : v ≠ t := by
      intro he
      rw [he] at hwv2
      rw [Inject.get?_set_self _ _ _ hlt] at hwv2
      exact LPc.noConfusion (Option.some.inj hwv2)
    rw [Inject.get?_set_ne _ _ _ _ hu2] at hwu2
    rw [Inject.get?_set_ne _ _ _ _ hv2] at hwv2
    exact h.uniq u v hu hv hwu2 hwv2
  · intro hnone u hu
    intro hwu
    have hwu2 : (s.pcs.set t (.done r false)).get? u = some (.wait p0 true) := hwu
    by_cases hu2 : u = t
    · rw [hu2, Inject.get?_set_self _ _ _ hlt] at hwu2
      exact LPc.noConfusion (Option.some.inj hwu2)
    · rw [Inject.get?_set_ne _ _ _ _ hu2] at hwu2
      exact h.noldr hnone u hu hwu2

theorem rinv_name_leader (cfg : List String) (name : String) (p0 : Nat)
    (s : St) (t : Nat) (r : Res) (cnew : List (String × String))
    (h : RInv cfg name p0 s) (hc : cfg.get? t = some name)
    (hp : s.pcs.get? t = some (.wait p0 true))
    (hres : lookupRes s.settled p0 = some r) :
    RInv cfg name p0
      { s with
        cache := cnew
        loading := Inject.erase s.loading name
        pcs := s.pcs.set t (.done r true)
        trace := s.trace ++ [LEv.deleted t name] } := by
  have hlt : t < s.pcs.length := pcs_bound hp
  have hreg : Inject.lookup s.loading name = some p0 ∧
      s.trace.filter (isDelOf name) = [] := by
    rcases h.reg with hreg | ⟨h1, _⟩
    · exact hreg
    · exact absurd hp (h.noldr h1 t hc)
  refine ⟨?_, ?_, ?_, ?_, ?_, ?_, ?_⟩
  · show (s.pcs.set t _).length = cfg.length
    rw [List.length_set]
    exact h.len
  · exact (Inject.erase_keys_sublist s.loading name).nodup h.nodup
  · show ((s.trace ++ [LEv.deleted t name]).filter (isFetchOf name)).length = 1
    rw [Inject.filter_append_false _ _ _ rfl]
    exact h.fcount
  · right
    refine ⟨?_, ?_⟩
    · show Inject.lookup (Inject.erase s.loading name) name = none
      exact Inject.lookup_erase_self s.loading name h.nodup
    · show ((s.trace ++ [LEv.deleted t name]).filter (isDelOf name)).length = 1
      rw [Inject.filter_append_true _ _ _ (by simp [isDelOf]), hreg.2]
      rfl
  · intro u hu
    by_cases hu2 : u = t
    · subst hu2
      right
      refine ⟨r, true, ?_, hres⟩
      show (s.pcs.set u _).get? u = some (.done r true)
      rw [Inject.get?_set_self _ _ _ hlt]
    · rcases h.thrs u hu with ⟨b, h1⟩ | ⟨r0, b, hd, hres0⟩
      · left
        refine ⟨b, ?_⟩
        show (s.pcs.set t _).get? u = some (.wait p0 b)
        rw [Inject.get?_set_ne _ _ _ _ hu2]
        exact h1
      · right
        refine ⟨r0, b, ?_, hres0⟩
        show (s.pcs.set t _).get? u = some (.done r0 b)
        rw [Inject.get?_set_ne _ _ _ _ hu2]
        exact hd
  · intro u v hu hv hwu hwv
    have hwu2 : (s.pcs.set t (.done r true)).get? u = some (.wait p0 true) := hwu
    have hwv2 : (s.pcs.set t (.done r true)).get? v = some (.wait p0 true) := hwv
    have hu2 : u ≠ t := by
      intro he
      rw [he, Inject.get?_set_self _ _ _ hlt] at hwu2
      exact LPc.noConfusion (Option.some.inj hwu2)
    have hv2 : v ≠ t := by
      intro he
      rw [he, Inject.get?_set_self _ _ _ hlt] at hwv2
      exact LPc.noConfusion (Option.some.inj hwv2)
    rw [Inject.get?_set_ne _ _ _ _ hu2] at hwu2
    rw [Inject.get?_set_ne _ _ _ _ hv2] at hwv2
    exact h.uniq u v hu hv hwu2 hwv2
  · intro _ u hu
    intro hwu
    have hwu2 : (s.pcs.set t (.done r true)).get? u = some (.wait p0 true) := hwu
    by_cases hu2 : u = t
    · rw [hu2, Inject.get?_set_self _ _ _ hlt] at hwu2
      exact LPc.noConfusion (Option.some.inj hwu2)
    · rw [Inject.get?_set_ne _ _ _ _ hu2] at hwu2
      exact hu2 (h.uniq u t hu hc hwu2 hp)

theorem rinv_step (ce : Bool) (cfg : List String) (name : String) (p0 : Nat)
    (s : St) (lab : Lab) (h : RInv cfg name p0 s) :
    RInv cfg name p0 (step ce cfg s lab) := by
  cases lab with
  | net p r =>
    simp only [step]
    by_cases hen : p < s.fresh ∧ lookupRes s.settled p = none
    · rw [if_pos hen]
      exact rinv_net cfg name p0 s p r h hen.2
    · rw [if_neg hen]
      exact h
  | thr t =>
    simp only [step]
    cases hc : cfg.get? t with
    | none => exact h
    | some n =>
      cases hp : s.pcs.get? t with
      | none => exact h
      | some pc =>
        by_cases hn : n = name
        · subst hn
          cases pc with
          | start =>
            exfalso
            rcases h.thrs t hc with ⟨b, h1⟩ | ⟨r0, b, h1, _⟩ <;>
              · rw [hp] at h1
                exact LPc.noConfusion (Option.some.inj h1)
          | wait p ldr =>
            dsimp only
            have hpb : p = p0 ∧ (ldr = true → s.pcs.get? t = some (.wait p0 true)) := by
              rcases h.thrs t hc with ⟨b, h1⟩ | ⟨r0, b, h1, _⟩
              · rw [hp] at h1
                have h2 := Option.some.inj h1
                injection h2 with hq hb
                refine ⟨hq, ?_⟩
                intro hl
                rw [hp, hl, hq]
              · rw [hp] at h1
                simp at h1
            cases hres : lookupRes s.settled p with
            | none => exact h
            | some r =>
              have hres0 : lookupRes s.settled p0 = some r := by
                rw [← hpb.1]
                exact hres
              cases ldr with
              | false => exact rinv_name_follower cfg _ p0 s t r h hc hres0
              | true =>
                exact rinv_name_leader cfg _ p0 s t r _ h hc
                  (hpb.2 rfl) hres0
          | done r b => exact h
        · cases pc with
          | start =>
            dsimp only
            cases hch : (if ce then lookupS s.cache n else none) with
            | some v => exact rinv_nonname_set cfg name p0 s t n _ h hc hn
            | none =>
              cases hlk : Inject.lookup s.loading n with
              | some p => exact rinv_nonname_set cfg name p0 s t n _ h hc hn
              | none => exact rinv_nonname_fetch cfg name p0 s t n h hc hn hlk
          | wait p ldr =>
            dsimp only
            cases hres : lookupRes s.settled p with
            | none => exact h
            | some r =>
              cases ldr with
              | false => exact rinv_nonname_set cfg name p0 s t n _ h hc hn
              | true => exact rinv_nonname_leader cfg name p0 s t n r _ h hc hn
          | done r b => exact h

theorem rinv_fold (ce : Bool) (cfg : List String) (name : String) (p0 : Nat) :
    ∀ (l : List Lab) (s : St), RInv cfg name p0 s →
      RInv cfg name p0 (l.foldl (step ce cfg) s) := by
  intro l
  induction l with
  | nil => intro s h; exact h
  | cons lab l2 ih =>
    intro s h
    rw [List.foldl_cons]
    exact ih _ (rinv_step ce cfg name p0 s lab h)

end Load

/-- C2: for every component name, caching mode and any number of
`loadComponent` callers for that name that all run their synchronous prefix
before the retrieval settles (no network label in `pre`), with at least one
such caller: exactly one retrieval is issued for the name; there is a single
in-flight promise whose settled outcome every finished caller returns (so
any two finished callers return the same result — the same content on
success, the same error on failure); the in-flight registration for the
name is deleted at most once; and at every point of any schedule the
in-flight map binds each name at most once. -/
theorem c2_single_flight_dedup (ce : Bool) (cfg : List String) (name : String)
    (pre post : List Load.Lab)
    (hpre : ∀ t, cfg.get? t = some name → Load.Lab.thr t ∈ pre)
    (hnonet : ∀ p r, Load.Lab.net p r ∉ pre)
    (hex : ∃ t0, cfg.get? t0 = some name) :
    ((Load.run ce cfg (pre ++ post)).trace.filter
        (Load.isFetchOf name)).length = 1 ∧
    (∃ p0, ∀ t r b, cfg.get? t = some name →
      (Load.run ce cfg (pre ++ post)).pcs.get? t = some (.done r b) →
      Load.lookupRes (Load.run ce cfg (pre ++ post)).settled p0 = some r) ∧
    (∀ t u r r2 b b2, cfg.get? t = some name → cfg.get? u = some name →
      (Load.run ce cfg (pre ++ post)).pcs.get? t = some (.done r b) →
      (Load.run ce cfg (pre ++ post)).pcs.get? u = some (.done r2 b2) →
      r = r2) ∧
    ((Load.run ce cfg (pre ++ post)).trace.filter
        (Load.isDelOf name)).length ≤ 1 ∧
    (∀ sched : List Load.Lab,
      ((Load.run ce cfg sched).loading.map Prod.fst).Nodup) := by
  obtain ⟨t0, ht0⟩ := hex
  have hq : Load.QInv cfg name (Load.run ce cfg pre) :=
    Load.qinv_fold ce cfg name pre (Load.init cfg) (Load.qinv_init cfg name)
      hnonet
  have hstart : ∀ t, cfg.get? t = some name →
      (Load.run ce cfg pre).pcs.get? t ≠ some .start := by
    intro t ht
    exact Load.fold_not_start ce cfg t name ht pre (Load.init cfg)
      (by simp [Load.init]) (Or.inl (hpre t ht))
  obtain ⟨p0, hp0⟩ : ∃ p0,
      Inject.lookup (Load.run ce cfg pre).loading name = some p0 := by
    rcases hq.branch with ⟨hln, hf, hall⟩ | ⟨p0, tl, hl0, _⟩
    · exact absurd (hall t0 ht0) (hstart t0 ht0)
    · exact ⟨p0, hl0⟩
  have hr : Load.RInv cfg name p0 (Load.run ce cfg pre) :=
    Load.rinv_of_q cfg name p0 _ hq hp0 hstart
  have hrun : Load.run ce cfg (pre ++ post) =
      post.foldl (Load.step ce cfg) (Load.run ce cfg pre) := by
    unfold Load.run
    rw [List.foldl_append]
  have hrf : Load.RInv cfg name p0 (Load.run ce cfg (pre ++ post)) := by
    rw [hrun]
    exact Load.rinv_fold ce cfg name p0 post _ hr
  have key : ∀ t r b, cfg.get? t = some name →
      (Load.run ce cfg (pre ++ post)).pcs.get? t = some (.done r b) →
      Load.lookupRes (Load.run ce cfg (pre ++ post)).settled p0 = some r := by
    intro t r b ht hd
    rcases hrf.thrs t ht with ⟨b2, h1⟩ | ⟨r0, b0, h1, hres⟩
    · rw [hd] at h1
      simp at h1
    · rw [hd] at h1
      have h2 := Option.some.inj h1
      injection h2 with hr0 hb0
      rw [hr0]
      exact hres
  refine ⟨hrf.fcount, ⟨p0, key⟩, ?_, ?_,
    fun sched => Load.nodup_run ce cfg sched⟩
  · intro t u r r2 b b2 ht hu hdt hdu
    have k1 := key t r b ht hdt
    have k2 := key u r2 b2 hu hdu
    rw [k1] at k2
    exact Option.some.inj k2
  · rcases hrf.reg with ⟨_, h2⟩ | ⟨_, h2⟩
    · rw [h2]
      simp
    · rw [h2]

/-- C2 witness: two concurrent callers of `"nav"` and one of `"other"`,
all issued before the network settles anything, produce exactly one `"nav"`
retrieval and at most one deletion of its in-flight registration. -/
theorem c2_single_flight_dedup_witness :
    ((Load.run true ["nav", "nav", "other"]
        ([.thr 0, .thr 1, .thr 2] ++
          [.net 0 (.ok "X"), .thr 0, .thr 1])).trace.filter
      (Load.isFetchOf "nav")).length = 1 ∧
    ((Load.run true ["nav", "nav", "other"]
        ([.thr 0, .thr 1, .thr 2] ++
          [.net 0 (.ok "X"), .thr 0, .thr 1])).trace.filter
      (Load.isDelOf "nav")).length ≤ 1 := by
  have h1 : ∀ t, (["nav", "nav", "other"] : List String).get? t = some "nav" →
      Load.Lab.thr t ∈ ([.thr 0, .thr 1, .thr 2] : List Load.Lab) := by
    intro t ht
    match t with
    | 0 => decide
    | 1 => decide
    | 2 => exact absurd ht (by decide)
    | n + 3 => simp [List.get?] at ht
  have h2 : ∀ p r, Load.Lab.net p r ∉
      ([.thr 0, .thr 1, .thr 2] : List Load.Lab) := by
    intro p r hm
    simp at hm
  have h := c2_single_flight_dedup true ["nav", "nav", "other"] "nav"
    [.thr 0, .thr 1, .thr 2] [.net 0 (.ok "X"), .thr 0, .thr 1] h1 h2 ⟨0, rfl⟩
  exact ⟨h.1, h.2.2.2.1⟩
